import Mathlib

/-!
# ebook-translate: structure-preserving translation pipeline

A shallow embedding of `src/services/htmlStructureValidator.js`,
`src/services/htmlTranslator.js`, of the rebuild of an archive in
`src/services/epubBuilder.js` and of the glossary in `src/context/AppContext.jsx` and
`src/components/GlossaryManager.jsx`, followed by theorems about them.

Conventions of the embedding.

* A JavaScript string is a list of characters (`Str`). Its property `length` is
  `jsLength`, the number of its UTF-16 code units, and a string cut by `slice` at an
  index that may fall inside a surrogate pair is the list of its code units (`Utf16`);
  the context passed from one batch to the next is such a string. An index found by
  searching for an ASCII character falls between two characters and is used as a
  position in the list.
* A parsed document is the list of child nodes of its `body`; a node is a text
  node, a comment or an element carrying both `localName` (what selectors
  match) and `tagName` (what `el.tagName` / `el.nodeName` return).
* A live DOM node reference is the path of child indices leading from `body`
  to the node; assigning `nodeValue` is a functional update at that path.
* The functions the code calls but the platform defines (`DOMParser`,
  `innerHTML`, `JSON.parse`, `String.prototype.toLowerCase`) are the fields of
  `Host`; universally quantified theorems hold for every host.
* The network call `callProvider` is a parameter (`Oracle`): an arbitrary function of the
  number of earlier requests and of the arguments the prompt is built from.
* A loop over an index takes a bound on its iterations as an extra argument and is
  otherwise structurally recursive; `translateBatches_fuel` shows the bound used is enough.
* A regular expression is the function that computes its leftmost match; the letters of
  a pattern with flag `i` match in both ASCII cases.
* An archive is its file table: the source archive (`Archive`) lists the names in the
  order of `Object.keys(inZip.files)` with the decompressed bytes of each entry; the
  output archive (`Zip`) lists the entries of `outZip.files` in insertion order, as they
  stand when the archive is generated. `outZip.file` and `outZip.folder` behave as
  JSZip 3 documents them (the folders above a file are created).
* A parsed package document (`OpfDoc`) is the child nodes of its first `manifest` and of
  its first `spine` element, taken to be disjoint. In the loop over the spine every
  child node of `spine` carries the index it had originally (`some k`), a node
  added by the loop carries `none`: this is the identity of DOM nodes. An `itemref` that
  is not a child of `spine` is followed through the loop as the DOM does it (its new
  sibling is appended to `spine`, or `insertBefore` throws).
* The order in which the output archive is written is the order of
  `for (name in this.files)` over its file table (`writeOrder`).
* An object with string values is the list of its own properties in insertion order
  (`Glossary`); `{ ...a, ...b }` is `spread`. The reducer is embedded for the fields of
  `AppState`, and the answer to `window.confirm` is an argument of `handleDelete`.
-/

namespace EbookTranslate

/-! ## Strings -/

/-- A JavaScript string, as the sequence of its characters. -/
abbrev Str := List Char

/-- A JavaScript string as the sequence of its UTF-16 code units. Unlike a `Str` it can
end in the first half of a surrogate pair, as a string cut by `slice` does. -/
abbrev Utf16 := List Nat

/-- The UTF-16 code units of a character: the code point itself, or a surrogate pair for
a character outside the Basic Multilingual Plane. -/
def utf16 (c : Char) : List Nat :=
  if c.toNat < 0x10000 then [c.toNat]
  else [0xD800 + (c.toNat - 0x10000) / 0x400, 0xDC00 + (c.toNat - 0x10000) % 0x400]

/-- The UTF-16 code units of a string. -/
def toUtf16 (s : Str) : Utf16 := s.flatMap utf16

/-- The property `s.length`: the number of UTF-16 code units of the string. -/
def jsLength (s : Str) : Nat := (toUtf16 s).length

/-- The characters matched by `\s` and removed by `String.prototype.trim`:
ECMAScript WhiteSpace and LineTerminator code points. -/
def isJsSpace (c : Char) : Bool :=
  let n := c.toNat
  n == 0x09 || n == 0x0A || n == 0x0B || n == 0x0C || n == 0x0D || n == 0x20 ||
  n == 0xA0 || n == 0x1680 || (0x2000 ≤ n && n ≤ 0x200A) || n == 0x2028 ||
  n == 0x2029 || n == 0x202F || n == 0x205F || n == 0x3000 || n == 0xFEFF

/-- The method `s.trim()`. -/
def trim (s : Str) : Str :=
  ((s.dropWhile isJsSpace).reverse.dropWhile isJsSpace).reverse

/-- The method `s.includes(pat)`. -/
def includes : Str → Str → Bool
  | [], pat => pat.isEmpty
  | c :: s, pat => pat.isPrefixOf (c :: s) || includes s pat

/-- The call `s.replace(/cc/g, '')` for a doubled character `c`: scanning from the left,
every non-overlapping occurrence of `cc` is dropped. -/
def removeDouble (c : Char) : Str → Str
  | [] => []
  | [x] => [x]
  | x :: y :: rest =>
    if x = c ∧ y = c then removeDouble c rest
    else x :: removeDouble c (y :: rest)

/-- The call `s.replace(/\s+/g, ' ')`: every maximal run of white space becomes one space.
The flag tells whether the previous character was white space. -/
def collapseSpaceAux : Bool → Str → Str
  | _, [] => []
  | inRun, c :: s =>
    if isJsSpace c then
      if inRun then collapseSpaceAux true s else ' ' :: collapseSpaceAux true s
    else c :: collapseSpaceAux false s

/-- The call `s.replace(/\s+/g, ' ')`. -/
def collapseSpace (s : Str) : Str := collapseSpaceAux false s

/-- The call `s.split(sep)` for a one-character separator, with the piece being read in
`cur`. -/
def splitAux (sep : Char) : Str → Str → List Str
  | cur, [] => [cur]
  | cur, c :: s => if c = sep then cur :: splitAux sep [] s else splitAux sep (cur ++ [c]) s

/-- The call `s.split('\n')`. -/
def splitLines (s : Str) : List Str := splitAux '\n' [] s

/-- The method `parts.join(sep)`. -/
def join (sep : Str) : List Str → Str
  | [] => []
  | [a] => a
  | a :: b :: rest => a ++ sep ++ join sep (b :: rest)

/-- The decimal rendering of a natural number, as a template literal inserts it. -/
def natToStr (n : Nat) : Str := (Nat.repr n).toList

/-- The expression `a || b` on strings: `a` unless it is empty. -/
def orElse (a b : Str) : Str := if a = [] then b else a

/-! ## Document trees -/

/-- A DOM node. -/
inductive Node where
  | text (nodeValue : Str)
  | comment (data : Str)
  | element (localName tagName : Str) (attrs : List (Str × Str)) (children : List Node)

/-- A node reference: the child indices leading from `body` to the node. -/
abbrev Path := List Nat

/-- The value of `el.getAttribute(name)`, `none` standing for `null`. -/
def getAttribute (name : Str) : List (Str × Str) → Option Str
  | [] => none
  | (k, v) :: rest => if k = name then some v else getAttribute name rest

/-- The expression `el.getAttribute(name) || ''`. -/
def attrOrEmpty (name : Str) (attrs : List (Str × Str)) : Str :=
  match getAttribute name attrs with
  | some v => v
  | none => []

/-- The `localName` of an element; `none` for other nodes. -/
def Node.localName? : Node → Option Str
  | .element l _ _ _ => some l
  | _ => none

/-- The attributes of an element. -/
def Node.attrs : Node → List (Str × Str)
  | .element _ _ a _ => a
  | _ => []

/-- The child nodes of a node. -/
def Node.childNodes : Node → List Node
  | .element _ _ _ cs => cs
  | _ => []

/-- The `tagName` of an element. -/
def Node.tagName : Node → Str
  | .element _ t _ _ => t
  | _ => []

/-- Whether a node is an element whose local name is one of `tags` (a selector list of
type selectors such as `ul,ol`). -/
def Node.matchesAny (tags : List Str) : Node → Bool
  | .element l _ _ _ => tags.contains l
  | _ => false

mutual
/-- The element descendants of a node, the node itself included when it is an element,
in document order. -/
def Node.selfAndDescendants : Node → List Node
  | .text _ => []
  | .comment _ => []
  | .element l t a cs => .element l t a cs :: descendants cs
/-- The element descendants of a list of sibling nodes, in document order. -/
def descendants : List Node → List Node
  | [] => []
  | n :: ns => n.selfAndDescendants ++ descendants ns
end

/-- The call `root.querySelectorAll(sel)` for a list of type selectors, `scope` being the
child nodes of `root`. -/
def querySelectorAll (tags : List Str) (scope : List Node) : List Node :=
  (descendants scope).filter (Node.matchesAny tags)

/-- The call `el.querySelectorAll(':scope > a, :scope > b')`: the element children of `el`
with one of the local names. -/
def scopeChildren (tags : List Str) (el : Node) : List Node :=
  el.childNodes.filter (Node.matchesAny tags)

mutual
/-- The property `node.textContent`. -/
def Node.textContent : Node → Str
  | .text v => v
  | .comment _ => []
  | .element _ _ _ cs => textContentList cs
/-- The concatenated text content of sibling nodes (`body.textContent`). -/
def textContentList : List Node → Str
  | [] => []
  | n :: ns => n.textContent ++ textContentList ns
end

mutual
/-- One node after `querySelectorAll(sel).forEach((el) => el.remove())`: `none` when the
node itself is removed. -/
def Node.removeAll (tags : List Str) : Node → Option Node
  | .text v => some (.text v)
  | .comment d => some (.comment d)
  | .element l t a cs =>
    if tags.contains l then none else some (.element l t a (removeAllList tags cs))
/-- Sibling nodes after `querySelectorAll(sel).forEach((el) => el.remove())`. -/
def removeAllList (tags : List Str) : List Node → List Node
  | [] => []
  | n :: ns =>
    match n.removeAll tags with
    | some m => m :: removeAllList tags ns
    | none => removeAllList tags ns
end

/-! ## The platform -/

/-- A value produced by `JSON.parse`. A number is kept as the string `String(n)`. -/
inductive JsonValue where
  | null
  | bool (b : Bool)
  | number (shown : Str)
  | string (s : Str)
  | array (items : List JsonValue)
  | object (members : List (Str × JsonValue))

/-- The bytes of an archive entry. -/
abbrev Bytes := List Nat

/-- The part of a parsed package document (`parseXml(opfXmlStr)`) that the code reads and
changes: the child nodes of its first `manifest` element and of its first `spine`
element, `none` when the document has no such element. The two elements are taken to be
disjoint (neither contains the other). The text `source` the document was parsed from
stands for the rest of the document. -/
structure OpfDoc where
  source : Str
  manifest : Option (List Node)
  spine : Option (List Node)

/-- The functions of the platform that the code calls. -/
structure Host where
  /-- The child nodes of `new DOMParser().parseFromString(html, 'text/html').body`. -/
  parseBody : Str → List Node
  /-- The property `body.innerHTML`, from the child nodes of `body`. -/
  innerHTML : List Node → Str
  /-- The call `JSON.parse(s)`; `none` when it throws. -/
  jsonParse : Str → Option JsonValue
  /-- The method `s.toLowerCase()`. -/
  toLowerCase : Str → Str
  /-- The call `entry.async('string')` on an entry of a loaded archive: the UTF-8
  decoding of its bytes. -/
  decode : Bytes → Str
  /-- The call `new DOMParser().parseFromString(xmlStr, 'application/xml')`. -/
  parseXml : Str → OpfDoc
  /-- The call `new XMLSerializer().serializeToString(doc)`. -/
  xmlToString : OpfDoc → Str

/-! ## `htmlStructureValidator.js` -/

/-- The constant `TAGS_TO_COUNT`. -/
def TAGS_TO_COUNT : List Str :=
  ["h1", "h2", "h3", "h4", "h5", "h6", "p", "ul", "ol", "li", "table", "thead", "tbody",
   "tr", "td", "th", "blockquote", "pre", "code", "img", "a"].map String.toList

/-- The constant `BLOCK_SELECTOR`, as its list of type selectors. -/
def BLOCK_SELECTOR : List Str :=
  ["h1", "h2", "h3", "h4", "h5", "h6", "p", "li", "blockquote", "figcaption", "td", "th",
   "pre", "code"].map String.toList

/-- The constant `INLINE_TAGS`. -/
def INLINE_TAGS : List Str :=
  ["A", "IMG", "STRONG", "B", "EM", "I", "U", "S", "SPAN", "BR", "SUP", "SUB", "CODE",
   "KBD", "SMALL", "MARK", "DEL", "INS"].map String.toList

/-- The selector `h1,h2,h3,h4,h5,h6` of `fingerprintHtml`. -/
def HEADING_SELECTOR : List Str := ["h1", "h2", "h3", "h4", "h5", "h6"].map String.toList

/-- The function `parseHtml`: the child nodes of the `body` of the parsed document. -/
def parseHtml (h : Host) (html : Str) : List Node :=
  h.parseBody (orElse html [])

/-- The function `removeNonContent`, on the child nodes of `body`. -/
def removeNonContent (body : List Node) : List Node :=
  removeAllList (["script", "style", "noscript"].map String.toList) body

/-- The function `bodyElementSequence`: lower-cased tag names of the element children of
`body`. -/
def bodyElementSequence (h : Host) : List Node → List Str
  | [] => []
  | .element _ t _ _ :: ns => h.toLowerCase t :: bodyElementSequence h ns
  | _ :: ns => bodyElementSequence h ns

/-- One step of the loop of `inlineSignature`: the part an element contributes, if any. -/
def inlinePart (h : Host) (n : Node) : Option Str :=
  if ¬ INLINE_TAGS.contains n.tagName then none
  else if n.tagName = "A".toList then
    some ("a(".toList ++ trim (attrOrEmpty "href".toList n.attrs) ++ ")".toList)
  else if n.tagName = "IMG".toList then
    some ("img(".toList ++ trim (attrOrEmpty "src".toList n.attrs) ++ ")".toList)
  else some (h.toLowerCase n.tagName)

/-- The function `inlineSignature`: the tree walker visits the element descendants of `el`
in document order. -/
def inlineSignature (h : Host) (el : Node) : Str :=
  join "|".toList ((descendants el.childNodes).filterMap (inlinePart h))

/-- An entry of `blockSignatures`. -/
structure BlockSig where
  tag : Str
  inline : Str
deriving DecidableEq

/-- The function `blockSignatures`. -/
def blockSignatures (h : Host) (body : List Node) : List BlockSig :=
  (querySelectorAll BLOCK_SELECTOR body).map fun el =>
    { tag := h.toLowerCase el.tagName, inline := inlineSignature h el }

/-- The function `listShapes`. -/
def listShapes (h : Host) (body : List Node) : List Str :=
  (querySelectorAll ["ul".toList, "ol".toList] body).map fun list =>
    let lis := scopeChildren ["li".toList] list
    let nestedCounts := lis.map fun li => (scopeChildren ["ul".toList, "ol".toList] li).length
    h.toLowerCase list.tagName ++ ":".toList ++ natToStr lis.length ++ ":[".toList ++
      join ",".toList (nestedCounts.map natToStr) ++ "]".toList

/-- The function `tableShapes`; `Math.max(...rowCounts)` is the fold of `max`. -/
def tableShapes (body : List Node) : List Str :=
  (querySelectorAll ["table".toList] body).map fun t =>
    let rows := querySelectorAll ["tr".toList] t.childNodes
    let rowCounts := rows.map fun r =>
      (querySelectorAll ["th".toList, "td".toList] r.childNodes).length
    let maxCols := rowCounts.foldl max 0
    "table:r".toList ++ natToStr rows.length ++ ":c".toList ++ natToStr maxCols

/-- The function `totalTextLength`. -/
def totalTextLength (body : List Node) : Nat :=
  jsLength (trim (collapseSpace (textContentList body)))

/-- The function `markdownLeakCount`. -/
def markdownLeakCount (html : Str) : Nat :=
  let c := 0
  let c := if includes html "**".toList then c + 1 else c
  let c := if includes html "__".toList then c + 1 else c
  let c := if includes html "```".toList then c + 1 else c
  c

/-- The object returned by `fingerprintHtml`. -/
structure Fingerprint where
  counts : List (Str × Nat)
  imgSrc : List Str
  linkHref : List Str
  listItemCounts : List Nat
  hasHeading : Bool
  bodySeq : List Str
  blocks : List BlockSig
  listShapes : List Str
  tableShapes : List Str
  textLen : Nat

/-- The lookup `counts[tag]`. -/
def getCount (counts : List (Str × Nat)) (tag : Str) : Nat :=
  match counts.lookup tag with
  | some n => n
  | none => 0

/-- The function `fingerprintHtml`. -/
def fingerprintHtml (h : Host) (html : Str) : Fingerprint :=
  let doc := removeNonContent (parseHtml h html)
  { counts := TAGS_TO_COUNT.map fun tag => (tag, (querySelectorAll [tag] doc).length)
    imgSrc := (querySelectorAll ["img".toList] doc).map fun el =>
      attrOrEmpty "src".toList el.attrs
    linkHref := (querySelectorAll ["a".toList] doc).map fun el =>
      attrOrEmpty "href".toList el.attrs
    listItemCounts := (querySelectorAll ["ul".toList, "ol".toList] doc).map fun el =>
      (scopeChildren ["li".toList] el).length
    hasHeading := decide ((querySelectorAll HEADING_SELECTOR doc).length > 0)
    bodySeq := bodyElementSequence h doc
    blocks := blockSignatures h doc
    listShapes := listShapes h doc
    tableShapes := tableShapes doc
    textLen := totalTextLength doc }

/-- The function `arraysEqual`: the loop over `i`, on the remaining elements. -/
def arraysEqualLoop {α : Type} [DecidableEq α] : List α → List α → Bool
  | x :: xs, y :: ys => if x ≠ y then false else arraysEqualLoop xs ys
  | _, _ => true

/-- The function `arraysEqual`. -/
def arraysEqual {α : Type} [DecidableEq α] (a b : List α) : Bool :=
  if a.length ≠ b.length then false else arraysEqualLoop a b

/-- The loop over `TAGS_TO_COUNT` in `validateHtmlStructure`. -/
def countIssues (o t : Fingerprint) : List Str → List Str → List Str
  | [], issues => issues
  | tag :: tags, issues =>
    if getCount o.counts tag ≠ getCount t.counts tag then
      countIssues o t tags (issues ++ ["tag <".toList ++ tag ++ "> count changed: ".toList ++
        natToStr (getCount o.counts tag) ++ " -> ".toList ++ natToStr (getCount t.counts tag)])
    else countIssues o t tags issues

/-- The loop over the blocks in `validateHtmlStructure`, from index `i` on, with the
blocks not yet compared; it stops at the first difference. -/
def blockIssues : Nat → List BlockSig → List BlockSig → List Str → List Str
  | i, ob :: obs, tb :: tbs, issues =>
    if ob.tag ≠ tb.tag then
      issues ++ ["block[".toList ++ natToStr i ++ "] tag changed: ".toList ++ ob.tag ++
        " -> ".toList ++ tb.tag]
    else if ob.inline ≠ tb.inline then
      issues ++ ["block[".toList ++ natToStr i ++ "] inline structure changed".toList]
    else blockIssues (i + 1) obs tbs issues
  | _, _, _, issues => issues

/-- The object returned by `validateHtmlStructure`. -/
structure Validation where
  ok : Bool
  issues : List Str

/-- The function `validateHtmlStructure`. -/
def validateHtmlStructure (h : Host) (originalHtml translatedHtml : Str) : Validation :=
  let o := fingerprintHtml h originalHtml
  let t := fingerprintHtml h translatedHtml
  let issues : List Str := []
  let issues := countIssues o t TAGS_TO_COUNT issues
  let issues :=
    if ¬ arraysEqual o.imgSrc t.imgSrc then issues ++ ["img src sequence changed".toList]
    else issues
  let issues :=
    if ¬ arraysEqual o.linkHref t.linkHref then issues ++ ["a href sequence changed".toList]
    else issues
  let issues :=
    if ¬ arraysEqual o.listItemCounts t.listItemCounts then
      issues ++ ["list item distribution changed".toList]
    else issues
  let issues :=
    if o.hasHeading ∧ ¬ t.hasHeading then issues ++ ["headings disappeared".toList]
    else issues
  let issues :=
    if ¬ arraysEqual o.bodySeq t.bodySeq then
      issues ++ ["body top-level element sequence changed".toList]
    else issues
  let issues :=
    if o.blocks.length ≠ t.blocks.length then
      issues ++ ["block count changed: ".toList ++ natToStr o.blocks.length ++
        " -> ".toList ++ natToStr t.blocks.length]
    else blockIssues 0 o.blocks t.blocks issues
  let issues :=
    if ¬ arraysEqual o.listShapes t.listShapes then issues ++ ["list shapes changed".toList]
    else issues
  let issues :=
    if ¬ arraysEqual o.tableShapes t.tableShapes then
      issues ++ ["table shapes changed".toList]
    else issues
  let issues :=
    if o.textLen > 200 ∧ t.textLen < o.textLen / 2 then
      issues ++ ["text length collapsed: ".toList ++ natToStr o.textLen ++ " -> ".toList ++
        natToStr t.textLen]
    else issues
  let issues :=
    if markdownLeakCount translatedHtml > 0 then
      issues ++ ["markdown markers detected in html".toList]
    else issues
  { ok := decide (issues.length = 0), issues := issues }

/-! ## `htmlTranslator.js` -/

/-- The set `skipTags` of `collectTranslatableTextNodes`. -/
def skipTags : List Str :=
  ["SCRIPT", "STYLE", "NOSCRIPT", "IFRAME", "SVG", "MATH", "CODE", "PRE"].map String.toList

/-- The filter `acceptNode` of `collectTranslatableTextNodes`, from the `nodeName` of the
parent of a text node and the `nodeValue` of that node: `true` for `FILTER_ACCEPT`. -/
def acceptNode (parentName : Str) (nodeValue : Str) : Bool :=
  if skipTags.contains parentName then false
  else if trim nodeValue = [] then false
  else true

mutual
/-- The text nodes the tree walker of `collectTranslatableTextNodes` returns inside one
node whose parent has the node name `parentName`, as paths from that node (the empty path
is the node itself). -/
def collectNode (parentName : Str) : Node → List Path
  | .text v => if acceptNode parentName v then [[]] else []
  | .comment _ => []
  | .element _ t _ cs => collectList t 0 cs
/-- The text nodes the tree walker returns among sibling nodes whose parent has the node
name `parentName`, the first sibling having index `i`, in document order. -/
def collectList (parentName : Str) (i : Nat) : List Node → List Path
  | [] => []
  | n :: ns => (collectNode parentName n).map (i :: ·) ++ collectList parentName (i + 1) ns
end

/-- The function `collectTranslatableTextNodes`; the walker starts at `doc.body`, whose
node name is `BODY`. -/
def collectTranslatableTextNodes (body : List Node) : List Path :=
  collectList "BODY".toList 0 body

/-- The node a path refers to. -/
def nodeAt : List Node → Path → Option Node
  | _, [] => none
  | ns, [i] => ns.get? i
  | ns, i :: j :: rest =>
    match ns.get? i with
    | some (.element _ _ _ cs) => nodeAt cs (j :: rest)
    | _ => none

/-- The property `n.nodeValue` of the text node a path refers to. -/
def nodeValueAt (body : List Node) (p : Path) : Str :=
  match nodeAt body p with
  | some (.text v) => v
  | _ => []

/-- The assignment `n.nodeValue = v` to the text node a path refers to. -/
def setNodeValue (v : Str) : List Node → Path → List Node
  | ns, [] => ns
  | ns, [i] =>
    match ns.get? i with
    | some (.text _) => ns.set i (.text v)
    | _ => ns
  | ns, i :: j :: rest =>
    match ns.get? i with
    | some (.element l t a cs) => ns.set i (.element l t a (setNodeValue v cs (j :: rest)))
    | _ => ns

/-- The function `cleanModelText`. -/
def cleanModelText (s : Str) : Str :=
  (removeDouble '_' (removeDouble '*' (s.filter (· ≠ Char.ofNat 96)))).filter
    (· ≠ Char.ofNat 0)

/-- The arguments of `translateSegmentsAsJsonArray` that the prompt is built from. -/
structure Request where
  segments : List Str
  sourceLang : Str
  targetLang : Str
  glossary : List (Str × Str)
  previousContext : Utf16
deriving DecidableEq

/-- The behaviour of `callProvider` during one call of `translateHtmlPreserveMarkup`: from
the number of requests already made and the request, the text returned or the message of
the error thrown. -/
abbrev Oracle := Nat → Request → Except Str Str

/-- The match of `/\[[\s\S]*\]/`: from the first `[` to the last `]` after it. -/
def matchBracketed (out : Str) : Option Str :=
  match out.dropWhile (· ≠ '[') with
  | [] => none
  | c :: rest =>
    if rest.contains ']' then some (c :: (rest.reverse.dropWhile (· ≠ ']')).reverse)
    else none

/-- Whether an object has an own member of the given name. -/
def hasMember (name : Str) : List (Str × JsonValue) → Bool
  | [] => false
  | (k, _) :: rest => k == name || hasMember name rest

mutual
/-- The conversion `String(v)` of a parsed JSON value; `none` when it throws (an object
with an own `toString` member has no primitive value). -/
def JsonValue.toJsString : JsonValue → Option Str
  | .null => some "null".toList
  | .bool true => some "true".toList
  | .bool false => some "false".toList
  | .number shown => some shown
  | .string s => some s
  | .array items => joinItems items
  | .object members =>
    if hasMember "toString".toList members then none else some "[object Object]".toList
/-- The method `items.join(',')`, in which `null` is shown as the empty string. -/
def joinItems : List JsonValue → Option Str
  | [] => some []
  | x :: rest =>
    match (match x with
      | .null => some []
      | y => y.toJsString), joinItems rest with
    | some a, some b => some (a ++ (if rest.isEmpty then [] else ",".toList) ++ b)
    | _, _ => none
end

/-- The call `arr.map((s) => String(s))`; `none` when a conversion throws. -/
def mapToJsString : List JsonValue → Option (List Str)
  | [] => some []
  | x :: rest =>
    match x.toJsString, mapToJsString rest with
    | some a, some b => some (a :: b)
    | _, _ => none

/-- The message of the error `translateSegmentsAsJsonArray` throws. -/
def unparseableMessage : Str := "无法解析模型返回的分段翻译结果（JSON 解析失败）".toList

/-- The string `jsonStr` of `translateSegmentsAsJsonArray`: `m ? m[0] : out`. -/
def jsonStr (out : Str) : Str :=
  match matchBracketed out with
  | some m => m
  | none => out

/-- The `try` block of `translateSegmentsAsJsonArray`: the value it returns, `none` when
it falls through (no array of the right length, or an exception). -/
def tryJsonArray (h : Host) (out : Str) (segments : List Str) : Option (List Str) :=
  match h.jsonParse (jsonStr out) with
  | some (.array arr) => if arr.length = segments.length then mapToJsString arr else none
  | _ => none

/-- The fallback of `translateSegmentsAsJsonArray`: the trimmed non-empty lines. -/
def fallbackLines (out : Str) : List Str :=
  ((splitLines out).map trim).filter (· ≠ [])

/-- The part of `translateSegmentsAsJsonArray` after `callProvider` has returned `out`. -/
def parseSegments (h : Host) (out : Str) (segments : List Str) : Except Str (List Str) :=
  match tryJsonArray h out segments with
  | some r => .ok r
  | none =>
    let lines := fallbackLines out
    if lines.length = segments.length then .ok lines else .error unparseableMessage

/-- The function `translateSegmentsAsJsonArray`, `callProvider` being the behaviour of the
provider at this request. -/
def translateSegmentsAsJsonArray (h : Host) (callProvider : Request → Except Str Str)
    (req : Request) : Except Str (List Str) :=
  match callProvider req with
  | .error e => .error e
  | .ok out => parseSegments h out req.segments

/-- The function `stripHtmlToText`. -/
def stripHtmlToText (h : Host) (html : Str) : Str :=
  trim (textContentList (h.parseBody (orElse html [])))

/-- The constant `BATCH_SIZE`. -/
def BATCH_SIZE : Nat := 24

/-- The message of the `TypeError` raised by an assignment to `batchNodes[idx].nodeValue`
when `batchNodes[idx]` is `undefined`. -/
def undefinedNodeMessage : Str := "TypeError: batchNodes[idx] is undefined".toList

/-- The callback loop `translated.forEach((t, idx) => ...)`, from index `idx` on. -/
def writeBack (batchNodes : List Path) : Nat → List Str → List Node → Except Str (List Node)
  | _, [], body => .ok body
  | idx, t :: ts, body =>
    match batchNodes.get? idx with
    | none => .error undefinedNodeMessage
    | some p => writeBack batchNodes (idx + 1) ts (setNodeValue (cleanModelText t) body p)

/-- The arguments of `translateHtmlPreserveMarkup`; the provider and its key are part of
the oracle. -/
structure TranslateArgs where
  html : Str
  sourceLang : Str
  targetLang : Str
  glossary : List (Str × Str)
  previousContext : Utf16

/-- The state of the batch loop: the document, the context `ctx` and the requests made. -/
structure LoopState where
  body : List Node
  ctx : Utf16
  log : List Request

/-- The request the batch loop sends at index `i` in state `st`: the node values of
`textNodes.slice(i, i + BATCH_SIZE)` with the current context. -/
def requestAt (args : TranslateArgs) (textNodes : List Path) (i : Nat) (st : LoopState) :
    Request :=
  { segments := ((textNodes.drop i).take BATCH_SIZE).map (nodeValueAt st.body),
    sourceLang := args.sourceLang, targetLang := args.targetLang,
    glossary := args.glossary, previousContext := st.ctx }

/-- The `for` loop of `translateHtmlPreserveMarkup` from index `i` on. The first argument
bounds the number of iterations; `textNodes.length` is enough. The result pairs the final
state, or the message of the error thrown, with the requests made. -/
def translateBatches (h : Host) (oracle : Oracle) (args : TranslateArgs)
    (textNodes : List Path) : Nat → Nat → LoopState → Except Str LoopState × List Request
  | 0, _, st => (.ok st, st.log)
  | fuel + 1, i, st =>
    if i < textNodes.length then
      let batchNodes := (textNodes.drop i).take BATCH_SIZE
      let req := requestAt args textNodes i st
      match translateSegmentsAsJsonArray h (oracle st.log.length) req with
      | .error e => (.error e, st.log ++ [req])
      | .ok translated =>
        match writeBack batchNodes 0 translated st.body with
        | .error e => (.error e, st.log ++ [req])
        | .ok body =>
          let last := orElse (translated.getLastD []) []
          translateBatches h oracle args textNodes fuel (i + BATCH_SIZE)
            { body := body, ctx := (toUtf16 last).take 200, log := st.log ++ [req] }
    else (.ok st, st.log)

/-- The object returned by `translateHtmlPreserveMarkup`; `validationIssues` is `none`
when the property is absent. -/
structure TranslateResult where
  translatedHtml : Str
  translatedText : Str
  validationIssues : Option (List Str)
deriving DecidableEq

/-- The document of `translateHtmlPreserveMarkup`, parsed from `html || ''`, once its
`script` and `style` elements are removed. -/
def cleanedBody (h : Host) (html : Str) : List Node :=
  removeAllList ["script".toList, "style".toList] (h.parseBody (orElse html []))

/-- The constant `originalFingerprintHtml` of `translateHtmlPreserveMarkup`:
`doc.body?.innerHTML || html || ''`, read after the removal of `script` and `style`. -/
def originalFingerprintHtml (h : Host) (html : Str) : Str :=
  orElse (h.innerHTML (cleanedBody h html)) (orElse html [])

/-- The batch loop of `translateHtmlPreserveMarkup` on the translatable text nodes of the
document: its outcome and the requests made. `none` stands for the early return on a
document without translatable text. -/
def translateCore (h : Host) (oracle : Oracle) (args : TranslateArgs) :
    Option (Except Str LoopState × List Request) :=
  let doc := cleanedBody h args.html
  let textNodes := collectTranslatableTextNodes doc
  if textNodes.length = 0 then none
  else
    some (translateBatches h oracle args textNodes textNodes.length 0
      { body := doc, ctx := args.previousContext, log := [] })

/-- The function `translateHtmlPreserveMarkup`: the object it returns, or the message of
the error it throws. -/
def translateHtmlPreserveMarkup (h : Host) (oracle : Oracle) (args : TranslateArgs) :
    Except Str TranslateResult :=
  match translateCore h oracle args with
  | none =>
    .ok { translatedHtml := orElse args.html [],
          translatedText := stripHtmlToText h (orElse args.html []),
          validationIssues := none }
  | some (.error e, _) => .error e
  | some (.ok st, _) =>
    let translatedHtml := orElse (h.innerHTML st.body) (orElse args.html [])
    let translatedText := stripHtmlToText h translatedHtml
    let check := validateHtmlStructure h (originalFingerprintHtml h args.html) translatedHtml
    if ¬ check.ok then
      .ok { translatedHtml := originalFingerprintHtml h args.html,
            translatedText := stripHtmlToText h (originalFingerprintHtml h args.html),
            validationIssues := some check.issues }
    else
      .ok { translatedHtml := translatedHtml, translatedText := translatedText,
            validationIssues := none }

/-- The requests `translateHtmlPreserveMarkup` sends to the provider, in order. -/
def requestsMade (h : Host) (oracle : Oracle) (args : TranslateArgs) : List Request :=
  match translateCore h oracle args with
  | none => []
  | some (_, log) => log

/-- The node names of the ancestors of the node a path refers to, outermost first, below
`body`. -/
def ancestorNames : List Node → Path → List Str
  | _, [] => []
  | _, [_] => []
  | ns, i :: j :: rest =>
    match ns.get? i with
    | some (.element _ t _ cs) => t :: ancestorNames cs (j :: rest)
    | _ => []

/-! ## `epubBuilder.js` -/

/-- The index `s.lastIndexOf(c)` of a character; `none` stands for `-1`. -/
def lastIndexOf (c : Char) : Str → Option Nat
  | [] => none
  | x :: rest =>
    match lastIndexOf c rest with
    | some i => some (i + 1)
    | none => if x = c then some 0 else none

/-- The function `dirname`. -/
def dirname (path : Str) : Str :=
  match lastIndexOf '/' path with
  | some idx => path.take (idx + 1)
  | none => []

/-- The method `s.startsWith(pat)`. -/
def startsWith : Str → Str → Bool
  | _, [] => true
  | [], _ :: _ => false
  | c :: s, p :: pat => c = p && startsWith s pat

/-- The function `joinPath`. -/
def joinPath (base rel : Str) : Str :=
  if base = [] then rel
  else if rel = [] then base
  else base ++ (if startsWith rel ['/'] then rel.drop 1 else rel)

/-- Matches a literal of a regular expression with flag `i` at the start of `s`; the
literal `pat` is ASCII and given in lower case, so a character matches when its ASCII
lower-case form is the character of the literal. Returns the rest of `s`. -/
def matchIgnoreCase : Str → Str → Option Str
  | [], s => some s
  | _ :: _, [] => none
  | p :: pat, c :: s => if c.toLower = p then matchIgnoreCase pat s else none

/-- Matches `/full-path="([^"]+)"/i` at the start of `s`: the captured group. -/
def fullPathAt (s : Str) : Option Str :=
  match matchIgnoreCase "full-path=\"".toList s with
  | none => none
  | some rest =>
    let value := rest.takeWhile (· ≠ '"')
    if value ≠ [] ∧ startsWith (rest.drop value.length) ['"'] then some value else none

/-- The function `getContainerOpfPath`: the group captured by the leftmost match, `none`
standing for `null`. -/
def getContainerOpfPath : Str → Option Str
  | [] => none
  | c :: rest =>
    match fullPathAt (c :: rest) with
    | some value => some value
    | none => getContainerOpfPath rest

/-- The characters matched by `\w`. -/
def isWordChar (c : Char) : Bool := c.isAlphanum || c = '_'

/-- Matches `/<body\b[^>]*>/i` at the start of `s`: the text matched and the rest. -/
def openTagAt (s : Str) : Option (Str × Str) :=
  match matchIgnoreCase "<body".toList s with
  | none => none
  | some rest =>
    match rest with
    | [] => none
    | c :: _ =>
      if isWordChar c then none
      else
        let attrs := rest.takeWhile (· ≠ '>')
        match rest.drop attrs.length with
        | [] => none
        | _ :: after => some (s.take 5 ++ attrs ++ ['>'], after)

/-- Splits `s` at the first occurrence of `</body>`, letters compared without case: the
text before the occurrence and the occurrence as written. -/
def splitAtClose : Str → Option (Str × Str)
  | [] => none
  | c :: rest =>
    match matchIgnoreCase "</body>".toList (c :: rest) with
    | some _ => some ([], (c :: rest).take 7)
    | none =>
      match splitAtClose rest with
      | some (before, close) => some (c :: before, close)
      | none => none

/-- Matches `/<body\b[^>]*>[\s\S]*?<\/body>/i` at the start of `s`: the text matched. -/
def bodyAt (s : Str) : Option Str :=
  match openTagAt s with
  | none => none
  | some (openTag, rest) =>
    match splitAtClose rest with
    | none => none
    | some (inner, close) => some (openTag ++ inner ++ close)

/-- The text `xhtml.match(/<body\b[^>]*>[\s\S]*?<\/body>/i)[0]` of the leftmost match;
`none` when there is no match. -/
def bodyMatch : Str → Option Str
  | [] => none
  | c :: rest =>
    match bodyAt (c :: rest) with
    | some m => some m
    | none => bodyMatch rest

/-- The text `s.match(/<body\b[^>]*>/i)[0]` of the leftmost match. -/
def openTagMatch : Str → Option Str
  | [] => none
  | c :: rest =>
    match openTagAt (c :: rest) with
    | some (openTag, _) => some openTag
    | none => openTagMatch rest

/-- Splits `s` at the first occurrence of the text `pat` (`s.indexOf(pat)`): the text
before the occurrence and the text after it. -/
def splitAtFirst (pat : Str) : Str → Option (Str × Str)
  | [] => if pat = [] then some ([], []) else none
  | c :: rest =>
    if startsWith (c :: rest) pat then some ([], (c :: rest).drop pat.length)
    else
      match splitAtFirst pat rest with
      | some (before, after) => some (c :: before, after)
      | none => none

/-- The abstract operation GetSubstitution of `String.prototype.replace` for a pattern
that is a string (no capture groups): in the replacement text `$$` stands for `$`, `$&`
for the matched text, a dollar sign with a backtick for the text before the match, a
dollar sign with an apostrophe for the text after it; every other character stands for
itself. -/
def getSubstitution (matched before after : Str) : Str → Str
  | [] => []
  | [c] => [c]
  | c :: d :: rest =>
    if c = '$' then
      if d = '$' then '$' :: getSubstitution matched before after rest
      else if d = '&' then matched ++ getSubstitution matched before after rest
      else if d = Char.ofNat 96 then before ++ getSubstitution matched before after rest
      else if d = Char.ofNat 39 then after ++ getSubstitution matched before after rest
      else '$' :: d :: getSubstitution matched before after rest
    else c :: getSubstitution matched before after (d :: rest)

/-- The call `s.replace(pat, replacement)` for a pattern that is a string: the first
occurrence of `pat` is replaced. -/
def replaceFirst (s pat replacement : Str) : Str :=
  match splitAtFirst pat s with
  | none => s
  | some (before, after) => before ++ getSubstitution pat before after replacement ++ after

/-- The function `replaceBodyInner`. -/
def replaceBodyInner (xhtml newBodyInner : Str) : Str :=
  if xhtml = [] then xhtml
  else
    match bodyMatch xhtml with
    | none => xhtml
    | some m =>
      let openTag :=
        match openTagMatch m with
        | some t => t
        | none => "<body>".toList
      let replacement := openTag ++ "\n".toList ++ newBodyInner ++ "\n</body>".toList
      replaceFirst xhtml m replacement

/-- The characters kept by `safeId`: those of the class `[a-zA-Z0-9_\-:.]`. -/
def isIdChar (c : Char) : Bool :=
  c.isAlphanum || c = '_' || c = '-' || c = ':' || c = '.'

/-- The function `safeId`. A character outside the basic multilingual plane is two code
units of the JavaScript string, each replaced by an underscore. -/
def safeId (id : Str) : Str :=
  (id.flatMap fun c =>
    if isIdChar c then [c] else if c.toNat < 0x10000 then ['_'] else ['_', '_']).take 80

/-- The test `/<html[\s>]/i.test(content)`. -/
def hasHtmlTag : Str → Bool
  | [] => false
  | c :: rest =>
    (match matchIgnoreCase "<html".toList (c :: rest) with
      | some (d :: _) => isJsSpace d || d = '>'
      | _ => false) || hasHtmlTag rest

/-- The function `normalizeBodyHtml`. -/
def normalizeBodyHtml (h : Host) (content : Str) : Str :=
  if content = [] then []
  else if hasHtmlTag content then orElse (h.innerHTML (h.parseBody content)) content
  else content

/-- The method `map.get(key)` of a `Map`, kept as the list of its entries in insertion
order; also the lookup `files[name]` in the file table of an archive. -/
def mapGet {α β : Type} [DecidableEq α] : List (α × β) → α → Option β
  | [], _ => none
  | (k, v) :: rest, key => if k = key then some v else mapGet rest key

/-- The method `map.set(key, v)` of a `Map`; also the assignment `files[name] = v`. -/
def mapSet {α β : Type} [DecidableEq α] : List (α × β) → α → β → List (α × β)
  | [], key, v => [(key, v)]
  | (k, w) :: rest, key, v =>
    if k = key then (k, v) :: rest else (k, w) :: mapSet rest key v

/-- An entry `inZip.files[path]` of the source archive: whether it is a folder, and its
bytes. -/
structure Entry where
  dir : Bool
  data : Bytes
deriving DecidableEq

/-- The file table `inZip.files` of the source archive, in the order of `Object.keys`. -/
abbrev Archive := List (Str × Entry)

/-- The call `inZip.file(name)`: the entry of that name unless it is a folder. -/
def archiveFile (inZip : Archive) (name : Str) : Option Entry :=
  match mapGet inZip name with
  | some e => if e.dir then none else some e
  | none => none

/-- The data given to `outZip.file(name, data)`: an array buffer or a string. -/
inductive Content where
  | binary (bytes : Bytes)
  | text (s : Str)
deriving DecidableEq

/-- An entry of the output archive: whether it is a folder, its data, and whether its own
compression is `STORE`. -/
structure ZipObject where
  dir : Bool
  data : Content
  store : Bool
deriving DecidableEq

/-- The file table `outZip.files` of the output archive, in insertion order. -/
abbrev Zip := List (Str × ZipObject)

/-- The helper `forceTrailingSlash` of JSZip. -/
def forceTrailingSlash (name : Str) : Str :=
  if name.getLast? = some '/' then name else name ++ ['/']

/-- The helper `parentFolder` of JSZip; the empty text when there is no parent. -/
def parentFolder (path : Str) : Str :=
  let path := if path.getLast? = some '/' then path.dropLast else path
  match lastIndexOf '/' path with
  | some lastSlash => if 0 < lastSlash then path.take lastSlash else []
  | none => []

/-- The entry JSZip stores for a folder. -/
def folderObject : ZipObject := { dir := true, data := .binary [], store := true }

/-- The helper `folderAdd` of JSZip with `createFolders` set: the folder and the folders
above it are added unless present. The first argument bounds the depth. -/
def folderAdd : Nat → Zip → Str → Zip
  | 0, z, _ => z
  | fuel + 1, z, name =>
    let name := forceTrailingSlash name
    if (mapGet z name).isSome then z
    else
      let parent := parentFolder name
      let z := if parent = [] then z else folderAdd fuel z parent
      mapSet z name folderObject

/-- The call `outZip.folder(path)`. -/
def zipFolder (z : Zip) (path : Str) : Zip :=
  if path = [] then z else folderAdd (path.length + 1) z path

/-- The call `outZip.file(name, data, options)`: the folders above the file are added
(`createFolders` is set by default), then the entry is stored under its name. Empty
string data is stored without compression. -/
def fileAdd (z : Zip) (name : Str) (data : Content) (store : Bool) : Zip :=
  let parent := parentFolder name
  let z := if parent = [] then z else folderAdd (parent.length + 1) z parent
  mapSet z name { dir := false, data := data, store := store || data = .text [] }

/-- The call `outZip.file(name)`: the entry of that name unless it is a folder. -/
def zipFile (z : Zip) (name : Str) : Option ZipObject :=
  match mapGet z name with
  | some o => if o.dir then none else some o
  | none => none

/-- A chapter object: its `href`, its `index` and its `translatedHtml`, each `none` when
missing. An index that is not a natural number equals no spine position and is left
out. -/
structure Chapter where
  href : Option Str
  index : Option Nat
  translatedHtml : Option Str
deriving DecidableEq

/-- The line terminators, which `.` of a regular expression does not match. -/
def isLineTerminator (c : Char) : Bool :=
  c = '\n' || c = '\r' || c = Char.ofNat 0x2028 || c = Char.ofNat 0x2029

/-- The call `href.replace(/#.*$/, '')`. -/
def stripFragment : Str → Str
  | [] => []
  | c :: rest =>
    if c = '#' ∧ rest.all (fun d => !isLineTerminator d) then [] else c :: stripFragment rest

/-- The map `chapterByHref`. -/
def chapterByHref (chapters : List Chapter) : List (Str × Chapter) :=
  chapters.foldl (fun m ch =>
    match ch.href with
    | some href => if href = [] then m else mapSet m (stripFragment href) ch
    | none => m) []

/-- The key under which the map `chapterByHref` holds a chapter; `none` for a chapter that
is not set in the map. -/
def chapterKey (ch : Chapter) : Option Str :=
  match ch.href with
  | some href => if href = [] then none else some (stripFragment href)
  | none => none

/-- The map `chapterByIndex`. -/
def chapterByIndex (chapters : List Chapter) : List (Nat × Chapter) :=
  chapters.foldl (fun m ch =>
    match ch.index with
    | some index => mapSet m index ch
    | none => m) []

/-- The constant `chapter` of the loop: the chapter found for a spine document. -/
def findChapter (chapters : List Chapter) (href fullPath : Str) (spinePos : Nat) :
    Option Chapter :=
  match mapGet (chapterByHref chapters) href with
  | some ch => some ch
  | none =>
    match mapGet (chapterByHref chapters) fullPath with
    | some ch => some ch
    | none => mapGet (chapterByIndex chapters) spinePos

/-- The constant `translatedBody` of the loop. -/
def translatedBody (h : Host) (chapters : List Chapter) (href fullPath : Str)
    (spinePos : Nat) : Str :=
  normalizeBodyHtml h
    (match findChapter chapters href fullPath spinePos with
      | some ch => ch.translatedHtml.getD []
      | none => [])

/-- The test `/xhtml|html/i.test(mediaType)`. -/
def isMarkupType : Str → Bool
  | [] => false
  | c :: rest =>
    (matchIgnoreCase "xhtml".toList (c :: rest)).isSome ||
      (matchIgnoreCase "html".toList (c :: rest)).isSome || isMarkupType rest

/-- The value of the map `manifestItems` for an id. -/
structure ManifestItem where
  href : Str
  mediaType : Str
deriving DecidableEq

/-- The call `root.getElementsByTagName(name)`, `scope` being the child nodes of
`root`. -/
def getElementsByTagName (name : Str) (scope : List Node) : List Node :=
  (descendants scope).filter fun n => n.tagName = name

/-- The map `manifestItems` before the loop, from the child nodes of `manifest`. -/
def manifestItemsOf (manifest : List Node) : List (Str × ManifestItem) :=
  (getElementsByTagName "item".toList manifest).foldl (fun m item =>
    match getAttribute "id".toList item.attrs, getAttribute "href".toList item.attrs with
    | some id, some href =>
      if id = [] ∨ href = [] then m
      else mapSet m id { href := href, mediaType := attrOrEmpty "media-type".toList item.attrs }
    | _, _ => m) []

/-- Where an `itemref` element stands below `spine`: it is the child node of index `k`,
or it lies deeper, with or without a next sibling. -/
inductive Place where
  | child (k : Nat)
  | nested (hasNext : Bool)
deriving DecidableEq

/-- An element of the array `spineItemrefs`: its attributes and its place. -/
structure Itemref where
  attrs : List (Str × Str)
  place : Place
deriving DecidableEq

mutual
/-- The `itemref` elements in a node that is not a child of `spine`, the node included,
in document order. -/
def Node.nestedItemrefs : Node → Bool → List Itemref
  | .text _, _ => []
  | .comment _, _ => []
  | .element _ t a cs, hasNext =>
    (if t = "itemref".toList then [{ attrs := a, place := .nested hasNext }] else [])
      ++ nestedItemrefs cs
/-- The `itemref` elements in sibling nodes that are not children of `spine`. -/
def nestedItemrefs : List Node → List Itemref
  | [] => []
  | n :: ns => n.nestedItemrefs (!ns.isEmpty) ++ nestedItemrefs ns
end

/-- The `itemref` elements below `spine` in document order, from the child nodes of
`spine` numbered from `k`. -/
def itemrefsFrom : Nat → List Node → List Itemref
  | _, [] => []
  | k, n :: ns =>
    (if n.tagName = "itemref".toList then [{ attrs := n.attrs, place := .child k }] else [])
      ++ nestedItemrefs n.childNodes ++ itemrefsFrom (k + 1) ns

/-- The array `spineItemrefs`. -/
def spineItemrefs (spine : List Node) : List Itemref := itemrefsFrom 0 spine

/-- The constant `translatedPath` of the loop. -/
def translatedPath (fullPath : Str) : Str :=
  match lastIndexOf '.' fullPath with
  | some extIdx => fullPath.take extIdx ++ "_translated".toList ++ fullPath.drop extIdx
  | none => fullPath ++ "_translated.xhtml".toList

/-- The constant `translatedHref` of the loop. -/
def translatedHref (opfDir fullPath : Str) : Str :=
  if startsWith (translatedPath fullPath) opfDir then (translatedPath fullPath).drop opfDir.length
  else translatedPath fullPath

/-- The element `newItem` of the loop. -/
def newItem (newId href mediaType : Str) : Node :=
  .element "item".toList "item".toList
    [("id".toList, newId), ("href".toList, href), ("media-type".toList, mediaType)] []

/-- The element `newItemref` of the loop; `linear` is the value of
`itemref.getAttribute('linear')`. -/
def newItemref (newId : Str) (linear : Option Str) : Node :=
  .element "itemref".toList "itemref".toList
    (("idref".toList, newId) ::
      match linear with
      | some l => if l = [] then [] else [("linear".toList, l)]
      | none => []) []

/-- The child nodes of `spine` after a new node is inserted right after the original
child of index `k`. Each node carries the index it had among the original child nodes,
`none` for a node added by the loop. -/
def insertAfter (k : Nat) (new : Node) : List (Option Nat × Node) → List (Option Nat × Node)
  | [] => [(none, new)]
  | (tag, n) :: rest =>
    if tag = some k then (tag, n) :: (none, new) :: rest
    else (tag, n) :: insertAfter k new rest

/-- The variables the loop over `spineItemrefs` changes: the child nodes of `manifest`,
the map `manifestItems`, the child nodes of `spine` (each with the index it had
originally), and the map `patchedFiles`. -/
structure PatchState where
  manifest : List Node
  manifestItems : List (Str × ManifestItem)
  spine : List (Option Nat × Node)
  patchedFiles : List (Str × Str)

/-- The name of the exception thrown by `spine.insertBefore(newItemref, nextSibling)` when
`nextSibling` is not a child of `spine`. -/
def notFoundError : Str := "NotFoundError".toList

/-- One iteration of the loop over `spineItemrefs`. -/
def patchItemref (h : Host) (inZip : Archive) (chapters : List Chapter) (mode opfDir : Str)
    (spinePos : Nat) (itemref : Itemref) (st : PatchState) : Except Str PatchState :=
  match getAttribute "idref".toList itemref.attrs with
  | none => .ok st
  | some idref =>
    if idref = [] then .ok st
    else
      match mapGet st.manifestItems idref with
      | none => .ok st
      | some mi =>
        if !isMarkupType mi.mediaType then .ok st
        else
          let fullPath := joinPath opfDir mi.href
          match archiveFile inZip fullPath with
          | none => .ok st
          | some entry =>
            let originalXhtml := h.decode entry.data
            let body := translatedBody h chapters mi.href fullPath spinePos
            if mode = "single".toList then
              if body = [] then .ok st
              else
                .ok { st with
                  patchedFiles :=
                    mapSet st.patchedFiles fullPath (replaceBodyInner originalXhtml body) }
            else if mode = "bilingual".toList then
              if body = [] then .ok st
              else
                let patched :=
                  mapSet st.patchedFiles (translatedPath fullPath)
                    (replaceBodyInner originalXhtml body)
                let newId := safeId (idref ++ "__translated".toList)
                if (mapGet st.manifestItems newId).isSome then
                  .ok { st with patchedFiles := patched }
                else
                  let href := translatedHref opfDir fullPath
                  let manifest := st.manifest ++ [newItem newId href mi.mediaType]
                  let items :=
                    mapSet st.manifestItems newId { href := href, mediaType := mi.mediaType }
                  let new := newItemref newId (getAttribute "linear".toList itemref.attrs)
                  match itemref.place with
                  | .child k =>
                    .ok { manifest := manifest, manifestItems := items,
                          spine := insertAfter k new st.spine, patchedFiles := patched }
                  | .nested false =>
                    .ok { manifest := manifest, manifestItems := items,
                          spine := st.spine ++ [(none, new)], patchedFiles := patched }
                  | .nested true => .error notFoundError
            else .ok st

/-- The loop over `spineItemrefs`, from position `spinePos`. -/
def patchSpine (h : Host) (inZip : Archive) (chapters : List Chapter) (mode opfDir : Str) :
    Nat → List Itemref → PatchState → Except Str PatchState
  | _, [], st => .ok st
  | spinePos, itemref :: rest, st =>
    match patchItemref h inZip chapters mode opfDir spinePos itemref st with
    | .error e => .error e
    | .ok st1 => patchSpine h inZip chapters mode opfDir (spinePos + 1) rest st1

/-- What is read from the archive before the loop: the path of the package document, the
document, and the child nodes of its `manifest` and `spine` elements. -/
structure Opened where
  opfPath : Str
  opfDoc : OpfDoc
  manifest : List Node
  spine : List Node

/-- The message of the error thrown when `META-INF/container.xml` is missing. -/
def missingContainerMessage : Str := "EPUB 缺少 META-INF/container.xml".toList

/-- The message of the error thrown when the container names no package document. -/
def missingOpfPathMessage : Str := "无法从 container.xml 解析 OPF 路径".toList

/-- The message of the error thrown when the package document is not in the archive. -/
def unreadableOpfMessage (opfPath : Str) : Str := "无法读取 OPF: ".toList ++ opfPath

/-- The message of the error thrown when `manifest` or `spine` is missing. -/
def missingPartsMessage : Str := "OPF 缺少 manifest/spine".toList

/-- The beginning of `buildEpubByPatchingOriginal`, up to the test of `manifest` and
`spine`. -/
def openPackage (h : Host) (inZip : Archive) : Except Str Opened :=
  match archiveFile inZip "META-INF/container.xml".toList with
  | none => .error missingContainerMessage
  | some containerEntry =>
    match getContainerOpfPath (h.decode containerEntry.data) with
    | none => .error missingOpfPathMessage
    | some opfPath =>
      match archiveFile inZip opfPath with
      | none => .error (unreadableOpfMessage opfPath)
      | some opfEntry =>
        let opfDoc := h.parseXml (h.decode opfEntry.data)
        match opfDoc.manifest, opfDoc.spine with
        | some manifest, some spine =>
          .ok { opfPath := opfPath, opfDoc := opfDoc, manifest := manifest, spine := spine }
        | _, _ => .error missingPartsMessage

/-- The child nodes of `spine`, each with its index. -/
def tagged (k : Nat) : List Node → List (Option Nat × Node)
  | [] => []
  | n :: ns => (some k, n) :: tagged (k + 1) ns

/-- The variables of the loop before its first iteration. -/
def initialState (o : Opened) : PatchState :=
  { manifest := o.manifest, manifestItems := manifestItemsOf o.manifest,
    spine := tagged 0 o.spine, patchedFiles := [] }

/-- The function `buildEpubByPatchingOriginal` up to the end of the loop over
`spineItemrefs`: what was read from the archive and the variables after the loop. -/
def patchPackage (h : Host) (inZip : Archive) (chapters : List Chapter) (mode : Str) :
    Except Str (Opened × PatchState) :=
  match openPackage h inZip with
  | .error e => .error e
  | .ok o =>
    match patchSpine h inZip chapters mode (dirname o.opfPath) 0 (spineItemrefs o.spine)
        (initialState o) with
    | .error e => .error e
    | .ok st => .ok (o, st)

/-- The package document after the loop, as it is serialised. -/
def patchedDoc (o : Opened) (st : PatchState) : OpfDoc :=
  { o.opfDoc with manifest := some st.manifest, spine := some (st.spine.map Prod.snd) }

/-- The loop that copies the entries of the source archive, over the names `entries`. -/
def copyEntries (inZip : Archive) (patchedFiles : List (Str × Str)) : List Str → Zip → Zip
  | [], outZip => outZip
  | path :: rest, outZip =>
    match mapGet inZip path with
    | none => copyEntries inZip patchedFiles rest outZip
    | some file =>
      if file.dir then copyEntries inZip patchedFiles rest (zipFolder outZip path)
      else if path = "mimetype".toList then copyEntries inZip patchedFiles rest outZip
      else
        match mapGet patchedFiles path with
        | some content =>
          copyEntries inZip patchedFiles rest (fileAdd outZip path (.text content) false)
        | none =>
          copyEntries inZip patchedFiles rest (fileAdd outZip path (.binary file.data) false)

/-- The loop that writes the patched files the source archive does not have. -/
def writeRemaining : List (Str × Str) → Zip → Zip
  | [], outZip => outZip
  | (path, content) :: rest, outZip =>
    if path = "mimetype".toList then writeRemaining rest outZip
    else if (zipFile outZip path).isSome then writeRemaining rest outZip
    else writeRemaining rest (fileAdd outZip path (.text content) false)

/-- The end of `buildEpubByPatchingOriginal`, after the loop over `spineItemrefs`: the
file table of `outZip` when the archive is generated. -/
def packArchive (h : Host) (inZip : Archive) (o : Opened) (st : PatchState) : Zip :=
  let patchedFiles := mapSet st.patchedFiles o.opfPath (h.xmlToString (patchedDoc o st))
  let outZip := fileAdd [] "mimetype".toList (.text "application/epub+zip".toList) true
  writeRemaining patchedFiles (copyEntries inZip patchedFiles (inZip.map Prod.fst) outZip)

/-- The function `buildEpubByPatchingOriginal`: the file table of the archive it
generates, or the message of the error it throws. -/
def buildEpubByPatchingOriginal (h : Host) (inZip : Archive) (chapters : List Chapter)
    (mode : Str) : Except Str Zip :=
  match patchPackage h inZip chapters mode with
  | .error e => .error e
  | .ok (o, st) => .ok (packArchive h inZip o st)

/-! ## `AppContext.jsx` and `GlossaryManager.jsx` -/

/-- An object whose property values are strings, such as `state.glossary`: its own
properties with their values. -/
abbrev Glossary := List (Str × Str)

/-- The object `{ ...a, ...b }`: the properties of `a`, then each property of `b` set in
turn. -/
def spread (a b : Glossary) : Glossary :=
  b.foldl (fun acc kv => mapSet acc kv.1 kv.2) a

/-- The object after `delete obj[key]`. -/
def deleteProperty (obj : Glossary) (key : Str) : Glossary :=
  obj.filter fun kv => kv.1 ≠ key

/-- The state of `appReducer`, without the fields that hold chapters, files and the
settings of the provider. -/
structure AppState where
  glossary : Glossary
  currentChapterIndex : Int
  styleGuide : Str
  isProcessing : Bool
  error : Option Str

/-- The actions of `appReducer` on the fields of `AppState`, each with its payload. -/
inductive Action where
  | setCurrentChapter (payload : Int)
  | updateGlossary (payload : Glossary)
  | updateStyleGuide (payload : Str)
  | setProcessing (payload : Bool)
  | setError (payload : Option Str)

/-- The function `appReducer`, for the actions of `Action`. -/
def appReducer (state : AppState) : Action → AppState
  | .setCurrentChapter payload => { state with currentChapterIndex := payload }
  | .updateGlossary payload => { state with glossary := spread state.glossary payload }
  | .updateStyleGuide payload => { state with styleGuide := payload }
  | .setProcessing payload => { state with isProcessing := payload }
  | .setError payload => { state with error := payload }

/-- The function `handleDelete` of the glossary manager: the action it dispatches, `none`
when the user does not confirm. -/
def handleDelete (state : AppState) (key : Str) (confirmed : Bool) : Option Action :=
  if confirmed then
    let newGlossary := deleteProperty (spread [] state.glossary) key
    some (.updateGlossary newGlossary)
  else none

/-! ## A sample of the platform

The values of the platform functions at the inputs used in the concrete examples below,
as a standards-conforming browser computes them. No example relies on the value of
`parseBody` or `innerHTML` outside the table; the strings that the examples pass to
`JSON.parse` and that are not in its table are not JSON texts. The sample archives hold
ASCII texts only, which `decode` reads byte by byte; their package documents are in the
table `samplePackages` and have neither namespaces nor text nodes. -/

mutual
/-- Equality test on nodes. -/
def Node.beq : Node → Node → Bool
  | .text a, .text b => a == b
  | .comment a, .comment b => a == b
  | .element l t a cs, .element l2 t2 a2 cs2 => l == l2 && t == t2 && a == a2 && beqList cs cs2
  | _, _ => false
/-- Equality test on lists of nodes. -/
def beqList : List Node → List Node → Bool
  | [], [] => true
  | n :: ns, m :: ms => n.beq m && beqList ns ms
  | _, _ => false
end

/-- An HTML element: its `tagName` is the upper-cased local name. -/
def htmlElement (name : String) (attrs : List (String × String)) (children : List Node) :
    Node :=
  .element name.toList (name.toList.map Char.toUpper)
    (attrs.map fun kv => (kv.1.toList, kv.2.toList)) children

/-- A text node. -/
def textNode (s : String) : Node := .text s.toList

/-- The first entry of a table whose key passes the test. -/
def lookupBy {α β : Type} (test : α → Bool) : List (α × β) → Option β
  | [] => none
  | (k, v) :: rest => if test k then some v else lookupBy test rest

/-- Markup strings with the child nodes of the `body` that `DOMParser` builds from them. -/
def sampleDocuments : List (String × List Node) :=
  [("<p>Hi</p>", [htmlElement "p" [] [textNode "Hi"]]),
   ("<p>a**b</p>", [htmlElement "p" [] [textNode "a**b"]]),
   ("<p>**</p>", [htmlElement "p" [] [textNode "**"]]),
   ("<p>a__b</p>", [htmlElement "p" [] [textNode "a__b"]]),
   ("<p>ab</p>", [htmlElement "p" [] [textNode "ab"]]),
   ("<p>Hi</p><script>x()</script>",
    [htmlElement "p" [] [textNode "Hi"], htmlElement "script" [] [textNode "x()"]]),
   ("<h1>A</h1><h2>B</h2>",
    [htmlElement "h1" [] [textNode "A"], htmlElement "h2" [] [textNode "B"]]),
   ("<h1>A</h1>", [htmlElement "h1" [] [textNode "A"]]),
   ("<h1>A</h1><p>B</p>",
    [htmlElement "h1" [] [textNode "A"], htmlElement "p" [] [textNode "B"]]),
   ("<p>A</p><p>B</p>",
    [htmlElement "p" [] [textNode "A"], htmlElement "p" [] [textNode "B"]]),
   ("<a href=\"x\">l</a><img src=\"y\">",
    [htmlElement "a" [("href", "x")] [textNode "l"], htmlElement "img" [("src", "y")] []]),
   ("<a href=\"z\">l</a><img src=\"y\">",
    [htmlElement "a" [("href", "z")] [textNode "l"], htmlElement "img" [("src", "y")] []]),
   ("<a href=\"x\">l</a><img src=\"y\"><noscript><a href=\"u\">n</a></noscript>",
    [htmlElement "a" [("href", "x")] [textNode "l"], htmlElement "img" [("src", "y")] [],
     htmlElement "noscript" [] [htmlElement "a" [("href", "u")] [textNode "n"]]]),
   ("<a href=\"x\">l</a><img src=\"y\"><noscript><a href=\"v\">n</a></noscript>",
    [htmlElement "a" [("href", "x")] [textNode "l"], htmlElement "img" [("src", "y")] [],
     htmlElement "noscript" [] [htmlElement "a" [("href", "v")] [textNode "n"]]]),
   ("<p><b>a</b></p><p><i>b</i></p>",
    [htmlElement "p" [] [htmlElement "b" [] [textNode "a"]],
     htmlElement "p" [] [htmlElement "i" [] [textNode "b"]]]),
   ("<p>a</p><p>b</p>",
    [htmlElement "p" [] [textNode "a"], htmlElement "p" [] [textNode "b"]]),
   ("<pre><span>x = 1</span></pre>",
    [htmlElement "pre" [] [htmlElement "span" [] [textNode "x = 1"]]]),
   ("<p>一</p><p>二</p>",
    [htmlElement "p" [] [textNode "一"], htmlElement "p" [] [textNode "二"]]),
   ("<p>b</p>", [htmlElement "p" [] [textNode "b"]]),
   (String.mk (List.replicate 25 "<p>x</p>".toList).flatten,
    List.replicate 25 (htmlElement "p" [] [textNode "x"])),
   (String.mk ("<p>".toList ++ List.replicate 201 'a' ++ "</p>".toList),
    [htmlElement "p" [] [.text (List.replicate 201 'a')]]),
   (String.mk ("<p>".toList ++ List.replicate 100 'b' ++ "</p>".toList),
    [htmlElement "p" [] [.text (List.replicate 100 'b')]]),
   (String.mk ("<p>".toList ++ List.replicate 99 'b' ++ "</p>".toList),
    [htmlElement "p" [] [.text (List.replicate 99 'b')]]),
   (String.mk ("<p>".toList ++ List.replicate 101 (Char.ofNat 0x1F600) ++ "</p>".toList),
    [htmlElement "p" [] [.text (List.replicate 101 (Char.ofNat 0x1F600))]])]

/-- Strings with the value `JSON.parse` returns for them; `JSON.parse` throws on the other
strings the examples pass to it. -/
def sampleJson : List (String × JsonValue) :=
  [("[\"Hallo\"]", .array [.string "Hallo".toList]),
   ("[\"Hallo\",\"Welt\"]", .array [.string "Hallo".toList, .string "Welt".toList]),
   ("[\"Hi\"]", .array [.string "Hi".toList]),
   ("[\"b\"]", .array [.string "b".toList]),
   ("[\"一\",\"二\"]", .array [.string "一".toList, .string "二".toList]),
   ("[\"*__*\"]", .array [.string "*__*".toList]),
   ("[\"a__b\"]", .array [.string "a__b".toList])]

/-- An answer of 24 lines, the last one made of 200 `a` and one `b`. -/
def sampleLongAnswer : Str :=
  (List.replicate 23 "y\n".toList).flatten ++ List.replicate 200 'a' ++ ['b']

/-- A provider that answers its first request with `sampleLongAnswer` and every other
request with `z`. -/
def sampleLongOracle : Oracle :=
  fun k _ => if k = 0 then .ok sampleLongAnswer else .ok "z".toList

/-- The arguments for the translation of a fragment, with nothing but the fragment. -/
def plainArgs (html : Str) : TranslateArgs :=
  { html := html, sourceLang := [], targetLang := [], glossary := [], previousContext := [] }

/-- An element of an XML document without namespaces and without child nodes. -/
def xmlElement (name : String) (attrs : List (String × String)) : Node :=
  .element name.toList name.toList (attrs.map fun kv => (kv.1.toList, kv.2.toList)) []

/-- The text of a package document, from the texts of its manifest and of its spine. -/
def samplePackageText (manifest spine : String) : String :=
  "<package><manifest>" ++ manifest ++ "</manifest><spine>" ++ spine ++ "</spine></package>"

/-- The text of the package document of `sampleBook`. -/
def sampleBookPackage : String :=
  samplePackageText
    ("<item id=\"a\" href=\"a.xhtml\" media-type=\"application/xhtml+xml\"/>" ++
      "<item id=\"b\" href=\"b.xhtml\" media-type=\"application/xhtml+xml\"/>")
    "<itemref idref=\"a\" linear=\"no\"/><itemref idref=\"b\"/>"

/-- The child nodes of `manifest` in the package document of `sampleBook`. -/
def sampleBookManifest : List Node :=
  [xmlElement "item"
     [("id", "a"), ("href", "a.xhtml"), ("media-type", "application/xhtml+xml")],
   xmlElement "item"
     [("id", "b"), ("href", "b.xhtml"), ("media-type", "application/xhtml+xml")]]

/-- The child nodes of `spine` in the package document of `sampleBook`. -/
def sampleBookSpine : List Node :=
  [xmlElement "itemref" [("idref", "a"), ("linear", "no")],
   xmlElement "itemref" [("idref", "b")]]

/-- What a rebuild reads from `sampleBook` before the loop over the spine. -/
def sampleOpened : Opened :=
  { opfPath := "content.opf".toList,
    opfDoc := { source := sampleBookPackage.toList, manifest := some sampleBookManifest,
                spine := some sampleBookSpine },
    manifest := sampleBookManifest,
    spine := sampleBookSpine }

/-- The text of a package document whose two `itemref` elements are children of an
element `x` of the spine. -/
def sampleNestedPackage : String :=
  samplePackageText
    ("<item id=\"a\" href=\"a.xhtml\" media-type=\"application/xhtml+xml\"/>" ++
      "<item id=\"b\" href=\"b.xhtml\" media-type=\"application/xhtml+xml\"/>")
    "<x><itemref idref=\"a\"/><itemref idref=\"b\"/></x>"

/-- An id of 81 characters: 80 letters `a` and the given ending. -/
def sampleLongId (ending : String) : String := String.mk (List.replicate 80 'a') ++ ending

/-- The text of a package document whose two items have ids of 81 characters that differ
in the last character. -/
def sampleLongIdPackage : String :=
  samplePackageText
    ("<item id=\"" ++ sampleLongId "1" ++
      "\" href=\"a.xhtml\" media-type=\"application/xhtml+xml\"/>" ++
      "<item id=\"" ++ sampleLongId "2" ++
      "\" href=\"b.xhtml\" media-type=\"application/xhtml+xml\"/>")
    ("<itemref idref=\"" ++ sampleLongId "1" ++ "\"/><itemref idref=\"" ++
      sampleLongId "2" ++ "\"/>")

/-- Package documents with the child nodes of their `manifest` and `spine` elements, as
`DOMParser` builds them. The first one is a book with the chapters `a` and `b`; the
second one is a book that already holds the chapter `a` and its translation; the third
one is a book whose only spine entry has an empty `linear` attribute; the last two are
`sampleNestedPackage` and `sampleLongIdPackage`. -/
def samplePackages : List (String × List Node × List Node) :=
  [(sampleBookPackage, sampleBookManifest, sampleBookSpine),
   (samplePackageText
      ("<item id=\"a\" href=\"a.xhtml\" media-type=\"application/xhtml+xml\"/>" ++
        "<item id=\"a__translated\" href=\"a_translated.xhtml\" " ++
        "media-type=\"application/xhtml+xml\"/>")
      "<itemref idref=\"a\"/><itemref idref=\"a__translated\"/>",
    [xmlElement "item"
       [("id", "a"), ("href", "a.xhtml"), ("media-type", "application/xhtml+xml")],
     xmlElement "item"
       [("id", "a__translated"), ("href", "a_translated.xhtml"),
        ("media-type", "application/xhtml+xml")]],
    [xmlElement "itemref" [("idref", "a")],
     xmlElement "itemref" [("idref", "a__translated")]]),
   (samplePackageText
      "<item id=\"a\" href=\"a.xhtml\" media-type=\"application/xhtml+xml\"/>"
      "<itemref idref=\"a\" linear=\"\"/>",
    [xmlElement "item"
       [("id", "a"), ("href", "a.xhtml"), ("media-type", "application/xhtml+xml")]],
    [xmlElement "itemref" [("idref", "a"), ("linear", "")]]),
   (sampleNestedPackage, sampleBookManifest,
    [.element "x".toList "x".toList []
      [xmlElement "itemref" [("idref", "a")], xmlElement "itemref" [("idref", "b")]]]),
   (sampleLongIdPackage,
    [xmlElement "item"
       [("id", sampleLongId "1"), ("href", "a.xhtml"),
        ("media-type", "application/xhtml+xml")],
     xmlElement "item"
       [("id", sampleLongId "2"), ("href", "b.xhtml"),
        ("media-type", "application/xhtml+xml")]],
    [xmlElement "itemref" [("idref", sampleLongId "1")],
     xmlElement "itemref" [("idref", sampleLongId "2")]])]

/-- A file of an archive with an ASCII text as its content. -/
def sampleFile (path text : String) : Str × Entry :=
  (path.toList, { dir := false, data := text.toList.map Char.toNat })

/-- The entries every sample archive begins with; the package document is
`content.opf`. -/
def sampleArchiveHead : Archive :=
  [sampleFile "mimetype" "application/epub+zip",
   ("META-INF/".toList, { dir := true, data := [] }),
   sampleFile "META-INF/container.xml"
     ("<container><rootfiles><rootfile full-path=\"content.opf\" " ++
       "media-type=\"application/oebps-package+xml\"/></rootfiles></container>")]

/-- A book with the chapters `a.xhtml` and `b.xhtml`. -/
def sampleBook : Archive :=
  sampleArchiveHead ++
    [sampleFile "content.opf" sampleBookPackage,
     sampleFile "a.xhtml" "<html><body><p>Hello</p></body></html>",
     sampleFile "b.xhtml" "<html><body><p>Bye</p></body></html>"]

/-- The translated chapters of `sampleBook`. -/
def sampleChapters : List Chapter :=
  [{ href := some "a.xhtml".toList, index := some 0,
     translatedHtml := some "<p>Bonjour</p>".toList },
   { href := some "b.xhtml".toList, index := some 1,
     translatedHtml := some "<p>Salut</p>".toList }]

/-- A book that holds the chapter `a.xhtml` and its translation `a_translated.xhtml`,
registered under the id `a__translated`, as a bilingual rebuild writes them. -/
def sampleBilingualBook : Archive :=
  sampleArchiveHead ++
    [sampleFile "content.opf"
       (samplePackageText
         ("<item id=\"a\" href=\"a.xhtml\" media-type=\"application/xhtml+xml\"/>" ++
           "<item id=\"a__translated\" href=\"a_translated.xhtml\" " ++
           "media-type=\"application/xhtml+xml\"/>")
         "<itemref idref=\"a\"/><itemref idref=\"a__translated\"/>"),
     sampleFile "a.xhtml" "<html><body><p>Hello</p></body></html>",
     sampleFile "a_translated.xhtml" "<html><body><p>Hallo</p></body></html>"]

/-- A book with the chapter `a.xhtml`, whose spine entry has an empty `linear`
attribute. -/
def sampleEmptyLinearBook : Archive :=
  sampleArchiveHead ++
    [sampleFile "content.opf"
       (samplePackageText
         "<item id=\"a\" href=\"a.xhtml\" media-type=\"application/xhtml+xml\"/>"
         "<itemref idref=\"a\" linear=\"\"/>"),
     sampleFile "a.xhtml" "<html><body><p>Hello</p></body></html>"]

/-- A book with the chapters `a.xhtml` and `b.xhtml` whose package document is
`sampleNestedPackage`. -/
def sampleNestedBook : Archive :=
  sampleArchiveHead ++
    [sampleFile "content.opf" sampleNestedPackage,
     sampleFile "a.xhtml" "<html><body><p>Hello</p></body></html>",
     sampleFile "b.xhtml" "<html><body><p>Bye</p></body></html>"]

/-- The sample book with one more file, whose name is `0`. -/
def sampleNumberedBook : Archive := sampleBook ++ [sampleFile "0" "zero"]

/-- Chapters whose paths carry a fragment: the first one matches `a.xhtml` by path, the
second one has the index 0. -/
def sampleFragmentChapters : List Chapter :=
  [{ href := some "a.xhtml#top".toList, index := some 7,
     translatedHtml := some "<p>Bonjour</p>".toList },
   { href := some "z.xhtml#end".toList, index := some 0,
     translatedHtml := some "<p>Salut</p>".toList }]

/-- The sample book with one more file, `b_translated.xhtml`, which is neither in the
manifest nor in the spine. -/
def sampleStrayBook : Archive :=
  sampleBook ++ [sampleFile "b_translated.xhtml" "<html><body><p>Notes</p></body></html>"]

/-- A book with the chapters `a.xhtml` and `b.xhtml` whose package document is
`sampleLongIdPackage`. -/
def sampleLongIdBook : Archive :=
  sampleArchiveHead ++
    [sampleFile "content.opf" sampleLongIdPackage,
     sampleFile "a.xhtml" "<html><body><p>Hello</p></body></html>",
     sampleFile "b.xhtml" "<html><body><p>Bye</p></body></html>"]

/-- The translated chapters of `sampleBilingualBook`. -/
def sampleBilingualChapters : List Chapter :=
  [{ href := some "a.xhtml".toList, index := some 0,
     translatedHtml := some "<p>Bonjour</p>".toList },
   { href := some "a_translated.xhtml".toList, index := some 1,
     translatedHtml := some "<p>Salut</p>".toList }]

/-- The serialisation of a node of a sample package document: an element without
namespace and without child nodes. -/
def sampleXml : Node → Str
  | .element _ t a _ =>
    "<".toList ++ t ++ (a.flatMap fun kv => " ".toList ++ kv.1 ++ "=\"".toList ++ kv.2 ++ "\"".toList)
      ++ "/>".toList
  | .text v => v
  | .comment _ => []

/-- The sample platform. -/
def sampleHost : Host where
  parseBody html :=
    match lookupBy (fun k => k.toList == html) sampleDocuments with
    | some body => body
    | none => []
  innerHTML body :=
    match lookupBy (fun kv => beqList kv.2 body)
        (sampleDocuments.map fun kv => (kv, kv.1.toList)) with
    | some html => html
    | none => []
  jsonParse s := lookupBy (fun k => k.toList == s) sampleJson
  toLowerCase s := s.map Char.toLower
  decode bytes := bytes.map Char.ofNat
  parseXml xml :=
    match lookupBy (fun k => k.toList == xml) samplePackages with
    | some (manifest, spine) => { source := xml, manifest := some manifest, spine := some spine }
    | none => { source := xml, manifest := none, spine := none }
  xmlToString doc :=
    match doc.manifest, doc.spine with
    | some manifest, some spine =>
      "<package><manifest>".toList ++ manifest.flatMap sampleXml ++
        "</manifest><spine>".toList ++ spine.flatMap sampleXml ++ "</spine></package>".toList
    | _, _ => doc.source

/-! ## The checks of the validator, one by one

The issue list of `validateHtmlStructure` written as the concatenation of what each check
contributes; the theorems below compare it with the accumulating code. -/

/-- The issue of a check: the message when the check failed, nothing otherwise. -/
def issueIf (failed : Prop) [Decidable failed] (msg : Str) : List Str :=
  if failed then [msg] else []

/-- The message for a structural tag whose count differs. -/
def countMessage (o t : Fingerprint) (tag : Str) : Str :=
  "tag <".toList ++ tag ++ "> count changed: ".toList ++ natToStr (getCount o.counts tag) ++
    " -> ".toList ++ natToStr (getCount t.counts tag)

/-- One issue for each structural tag type whose count differs, in the order of
`TAGS_TO_COUNT`. -/
def countCheck (o t : Fingerprint) : List Str :=
  TAGS_TO_COUNT.filterMap fun tag =>
    if getCount o.counts tag ≠ getCount t.counts tag then some (countMessage o t tag) else none

/-- The first position, counted from `i`, at which two block lists differ, with the two
blocks found there. -/
def firstBlockDifference : Nat → List BlockSig → List BlockSig → Option (Nat × BlockSig × BlockSig)
  | i, ob :: obs, tb :: tbs =>
    if ob ≠ tb then some (i, ob, tb) else firstBlockDifference (i + 1) obs tbs
  | _, _, _ => none

/-- The issue of the block check: the block count when it differs; otherwise the first
block that differs, its tag being looked at before its inline signature. -/
def blockCheck (o t : Fingerprint) : List Str :=
  if o.blocks.length ≠ t.blocks.length then
    ["block count changed: ".toList ++ natToStr o.blocks.length ++ " -> ".toList ++
      natToStr t.blocks.length]
  else
    match firstBlockDifference 0 o.blocks t.blocks with
    | none => []
    | some (i, ob, tb) =>
      if ob.tag ≠ tb.tag then
        ["block[".toList ++ natToStr i ++ "] tag changed: ".toList ++ ob.tag ++
          " -> ".toList ++ tb.tag]
      else ["block[".toList ++ natToStr i ++ "] inline structure changed".toList]

/-- A fragment of plain paragraphs: one `p` element per text, each holding that text and
nothing else. -/
def paragraphs (texts : List Str) : List Node :=
  texts.map fun t => Node.element "p".toList "P".toList [] [.text t]

/-- The characters `cleanModelText` may delete: the backtick, `*`, `_` and NUL. -/
def isMarkerChar (c : Char) : Bool :=
  c = Char.ofNat 96 || c = '*' || c = '_' || c = Char.ofNat 0

/-- The message of the text-length check. -/
def textLengthMessage (o t : Fingerprint) : Str :=
  "text length collapsed: ".toList ++ natToStr o.textLen ++ " -> ".toList ++ natToStr t.textLen

/-- The issues of all checks, in the order of the checks. -/
def checkedIssues (o t : Fingerprint) (translatedHtml : Str) : List Str :=
  countCheck o t ++
  issueIf (o.imgSrc ≠ t.imgSrc) "img src sequence changed".toList ++
  issueIf (o.linkHref ≠ t.linkHref) "a href sequence changed".toList ++
  issueIf (o.listItemCounts ≠ t.listItemCounts) "list item distribution changed".toList ++
  issueIf (o.hasHeading = true ∧ t.hasHeading = false) "headings disappeared".toList ++
  issueIf (o.bodySeq ≠ t.bodySeq) "body top-level element sequence changed".toList ++
  blockCheck o t ++
  issueIf (o.listShapes ≠ t.listShapes) "list shapes changed".toList ++
  issueIf (o.tableShapes ≠ t.tableShapes) "table shapes changed".toList ++
  issueIf (o.textLen > 200 ∧ t.textLen < o.textLen / 2)
    ("text length collapsed: ".toList ++ natToStr o.textLen ++ " -> ".toList ++
      natToStr t.textLen) ++
  issueIf (includes translatedHtml "**".toList = true ∨
      includes translatedHtml "__".toList = true ∨
      includes translatedHtml "```".toList = true)
    "markdown markers detected in html".toList

/-! ## The spine after a rebuild -/

/-- The child nodes of `spine`, numbered from `k`, each followed by the new node that
`news` gives for it, if any. -/
def weave : Nat → List Node → List (Option Node) → List (Option Nat × Node)
  | _, [], _ => []
  | k, n :: ns, [] => (some k, n) :: weave (k + 1) ns []
  | k, n :: ns, none :: news => (some k, n) :: weave (k + 1) ns news
  | k, n :: ns, some new :: news => (some k, n) :: (none, new) :: weave (k + 1) ns news

/-- The id `newId` of the translated sibling of a spine entry, from the attributes of the
entry. -/
def translatedId (attrs : List (Str × Str)) : Str :=
  safeId (attrOrEmpty "idref".toList attrs ++ "__translated".toList)

/-- The element `newItemref` for the translated sibling of a spine entry, from the
attributes of the entry. -/
def translatedItemref (attrs : List (Str × Str)) : Node :=
  newItemref (translatedId attrs) (getAttribute "linear".toList attrs)

/-- The `itemref` of the translated sibling of a child node of `spine`, when the child
is an `itemref` element. -/
def siblingOf (n : Node) : Option Node :=
  if n.tagName = "itemref".toList then some (translatedItemref n.attrs) else none

/-! ## The body element of a document text -/

/-- An opening tag of a body element: the letters `<body` in either case, not followed by
a letter, a digit or an underscore, then the text up to the first `>`. -/
def IsBodyOpenTag (t : Str) : Prop :=
  ∃ name attrs, t = name ++ attrs ++ ['>'] ∧ name.map Char.toLower = "<body".toList ∧
    (∀ c ∈ attrs, c ≠ '>') ∧ ∀ c, attrs.head? = some c → isWordChar c = false

/-- A closing tag of a body element: `</body>` in either case. -/
def IsBodyCloseTag (t : Str) : Prop := t.map Char.toLower = "</body>".toList

/-- A document text contains a complete body element: an opening tag `<body ...>`
followed, at some distance, by a closing tag `</body>`. -/
def HasBodyElement (xhtml : Str) : Prop :=
  ∃ pre openTag inner closeTag post,
    xhtml = pre ++ openTag ++ inner ++ closeTag ++ post ∧
      IsBodyOpenTag openTag ∧ IsBodyCloseTag closeTag

/-! ## The chapter of a spine entry -/

/-- The fragment of a relative path: its first `#` and what follows it; empty when the
path has no `#`. -/
def fragmentOf (href : Str) : Str := href.dropWhile (· ≠ '#')

/-- The relative path of a chapter with its `#fragment` removed: what stands before the
first `#`; `none` when the chapter has no `href` or an empty one. -/
def chapterPath (ch : Chapter) : Option Str :=
  match ch.href with
  | some href => if href = [] then none else some (href.takeWhile (· ≠ '#'))
  | none => none

/-- The last chapter of the list that passes a test. -/
def lastWhere (p : Chapter → Bool) (chapters : List Chapter) : Option Chapter :=
  (chapters.filter p).getLast?

/-- The chapter of a spine entry, by the rule: a chapter whose path is the manifest href
of the entry; failing that, a chapter whose path is the full path of the entry; failing
that, a chapter whose index is the spine position of the entry. Of several chapters with
the same path, or the same index, the last one counts. -/
def chapterFor (chapters : List Chapter) (href fullPath : Str) (spinePos : Nat) :
    Option Chapter :=
  match lastWhere (fun ch => chapterPath ch = some href) chapters with
  | some ch => some ch
  | none =>
    match lastWhere (fun ch => chapterPath ch = some fullPath) chapters with
    | some ch => some ch
    | none => lastWhere (fun ch => ch.index = some spinePos) chapters

/-! ## Source archives that cannot be rebuilt -/

/-- A source archive is malformed: it has no file `META-INF/container.xml`, or the
container file names no path of a package document, or the archive has no file of the
path it names, or the package document has no `manifest` element or no `spine`
element. -/
def malformedSource (h : Host) (inZip : Archive) : Bool :=
  match archiveFile inZip "META-INF/container.xml".toList with
  | none => true
  | some container =>
    match getContainerOpfPath (h.decode container.data) with
    | none => true
    | some opfPath =>
      match archiveFile inZip opfPath with
      | none => true
      | some opf =>
        (h.parseXml (h.decode opf.data)).manifest.isNone ||
          (h.parseXml (h.decode opf.data)).spine.isNone

/-! ## The order in which the entries of the output archive are written

`generateAsync` goes through the file table with `for (name in this.files)`, which
enumerates the names that are array indices first, in ascending numeric order, and
then the other names in insertion order; an empty name is passed over. -/

/-- The number a property name stands for when it is an array index: a decimal numeral
without leading zero, below `2^32 - 1`. -/
def isArrayIndex (name : Str) : Option Nat :=
  if name ≠ [] ∧ name.all Char.isDigit = true ∧ (name.head? ≠ some '0' ∨ name.length = 1) then
    let value := name.foldl (fun acc c => acc * 10 + (c.toNat - 48)) 0
    if value < 4294967295 then some value else none
  else none

/-- Puts an entry with an array index as its name at its place among such entries in
ascending order. -/
def insertByIndex (x : Nat × (Str × ZipObject)) :
    List (Nat × (Str × ZipObject)) → List (Nat × (Str × ZipObject))
  | [] => [x]
  | y :: rest => if x.1 ≤ y.1 then x :: y :: rest else y :: insertByIndex x rest

/-- The entries of the output archive in the order in which `generateAsync` writes
them. -/
def writeOrder (z : Zip) : List (Str × ZipObject) :=
  let named := z.filter fun kv => kv.1 ≠ []
  let indexed := named.filterMap fun kv => (isArrayIndex kv.1).map fun i => (i, kv)
  (indexed.foldr insertByIndex []).map Prod.snd ++
    named.filter fun kv => (isArrayIndex kv.1).isNone

/-- The entry `mimetype` that the rebuild writes first into `outZip`. -/
def mimetypeObject : ZipObject :=
  { dir := false, data := .text "application/epub+zip".toList, store := true }

/-! ## The references to the synthesized files -/

/-- The `idref` attributes of the nodes the loop added to the spine. -/
def addedIdrefs (spine : List (Option Nat × Node)) : List Str :=
  (spine.filter fun tn => tn.1.isNone).map fun tn => attrOrEmpty "idref".toList tn.2.attrs

/-- The ids of the `item` elements of a manifest, from its child nodes. -/
def itemIds (manifest : List Node) : List Str :=
  (getElementsByTagName "item".toList manifest).map fun n => attrOrEmpty "id".toList n.attrs

/-! ## Lemmas -/

theorem arraysEqualLoop_iff {α : Type} [DecidableEq α] (a b : List α)
    (hlen : a.length = b.length) : arraysEqualLoop a b = true ↔ a = b := by
  induction a generalizing b with
  | nil =>
    cases b with
    | nil => simp [arraysEqualLoop]
    | cons y ys => simp at hlen
  | cons x xs ih =>
    cases b with
    | nil => simp at hlen
    | cons y ys =>
      simp only [List.length_cons, Nat.add_right_cancel_iff] at hlen
      by_cases hxy : x = y
      · simp [arraysEqualLoop, hxy, ih ys hlen]
      · simp [arraysEqualLoop, hxy]

theorem arraysEqual_iff {α : Type} [DecidableEq α] (a b : List α) :
    arraysEqual a b = true ↔ a = b := by
  unfold arraysEqual
  by_cases hlen : a.length = b.length
  · simp [hlen, arraysEqualLoop_iff a b hlen]
  · simp only [ne_eq, hlen, not_false_eq_true, ↓reduceIte, Bool.false_eq_true, false_iff]
    intro hab
    exact hlen (by rw [hab])

theorem not_arraysEqual_iff {α : Type} [DecidableEq α] (a b : List α) :
    (¬ arraysEqual a b = true) ↔ a ≠ b := by
  rw [arraysEqual_iff]

theorem arraysEqual_eq_false_iff {α : Type} [DecidableEq α] (a b : List α) :
    arraysEqual a b = false ↔ a ≠ b := by
  rw [← not_arraysEqual_iff, Bool.not_eq_true]

theorem countIssues_eq (o t : Fingerprint) (tags : List Str) (issues : List Str) :
    countIssues o t tags issues = issues ++ tags.filterMap fun tag =>
      if getCount o.counts tag ≠ getCount t.counts tag then some (countMessage o t tag)
      else none := by
  induction tags generalizing issues with
  | nil => simp [countIssues]
  | cons tag tags ih =>
    by_cases hc : getCount o.counts tag = getCount t.counts tag
    · simp [countIssues, hc, ih]
    · simp [countIssues, hc, ih, countMessage]

theorem blockIssues_eq (i : Nat) (ob tb : List BlockSig) (issues : List Str) :
    blockIssues i ob tb issues = issues ++
      match firstBlockDifference i ob tb with
      | none => []
      | some (j, x, y) =>
        if x.tag ≠ y.tag then
          ["block[".toList ++ natToStr j ++ "] tag changed: ".toList ++ x.tag ++
            " -> ".toList ++ y.tag]
        else ["block[".toList ++ natToStr j ++ "] inline structure changed".toList] := by
  induction ob generalizing i tb with
  | nil => simp [blockIssues, firstBlockDifference]
  | cons x xs ih =>
    cases tb with
    | nil => simp [blockIssues, firstBlockDifference]
    | cons y ys =>
      by_cases htag : x.tag = y.tag
      · by_cases hin : x.inline = y.inline
        · have hxy : x = y := by
            cases x; cases y; simp_all
          simp [blockIssues, firstBlockDifference, htag, hin, hxy, ih]
        · have hxy : x ≠ y := fun hxy => hin (by rw [hxy])
          simp [blockIssues, firstBlockDifference, htag, hin, hxy]
      · have hxy : x ≠ y := fun hxy => htag (by rw [hxy])
        simp [blockIssues, firstBlockDifference, htag, hxy]

theorem markdownLeakCount_pos_iff (html : Str) :
    markdownLeakCount html > 0 ↔
      (includes html "**".toList = true ∨ includes html "__".toList = true ∨
        includes html "```".toList = true) := by
  unfold markdownLeakCount
  generalize includes html "**".toList = a
  generalize includes html "__".toList = b
  generalize includes html "```".toList = c
  cases a <;> cases b <;> cases c <;> simp

theorem push_issueIf (c : Prop) [Decidable c] (issues : List Str) (m : Str) :
    (if c then issues ++ [m] else issues) = issues ++ issueIf c m := by
  by_cases hc : c <;> simp [issueIf, hc]

theorem issueIf_congr (c d : Prop) [Decidable c] [Decidable d] (m : Str) (hcd : c ↔ d) :
    issueIf c m = issueIf d m := by
  by_cases hc : c
  · simp [issueIf, hc, hcd.mp hc]
  · have hd : ¬ d := fun hd => hc (hcd.mpr hd)
    simp [issueIf, hc, hd]

theorem validate_issues_eq (h : Host) (originalHtml translatedHtml : Str) :
    (validateHtmlStructure h originalHtml translatedHtml).issues =
      checkedIssues (fingerprintHtml h originalHtml) (fingerprintHtml h translatedHtml)
        translatedHtml := by
  unfold validateHtmlStructure
  simp -zeta only [push_issueIf]
  simp only [countIssues_eq, blockIssues_eq, arraysEqual_eq_false_iff,
    markdownLeakCount_pos_iff, checkedIssues, blockCheck, countCheck, List.nil_append,
    Bool.not_eq_true]
  split
  · simp only [List.append_assoc]
  · simp only [List.append_assoc]

theorem validate_ok_iff (h : Host) (originalHtml translatedHtml : Str) :
    (validateHtmlStructure h originalHtml translatedHtml).ok = true ↔
      (validateHtmlStructure h originalHtml translatedHtml).issues = [] := by
  have hok : (validateHtmlStructure h originalHtml translatedHtml).ok =
      decide ((validateHtmlStructure h originalHtml translatedHtml).issues.length = 0) := rfl
  rw [hok]
  simp

theorem validate_ok_eq_false_iff (h : Host) (originalHtml translatedHtml : Str) :
    (validateHtmlStructure h originalHtml translatedHtml).ok = false ↔
      (validateHtmlStructure h originalHtml translatedHtml).issues ≠ [] := by
  rw [← Bool.not_eq_true, validate_ok_iff]

theorem firstBlockDifference_self (i : Nat) (bs : List BlockSig) :
    firstBlockDifference i bs bs = none := by
  induction bs generalizing i with
  | nil => simp [firstBlockDifference]
  | cons b bs ih => simp [firstBlockDifference, ih]

theorem checkedIssues_self (o : Fingerprint) (html : Str)
    (h1 : includes html "**".toList = false) (h2 : includes html "__".toList = false)
    (h3 : includes html "```".toList = false) : checkedIssues o o html = [] := by
  have hcount : countCheck o o = [] := by simp [countCheck]
  have hblock : blockCheck o o = [] := by simp [blockCheck, firstBlockDifference_self]
  have hlen : ¬ (o.textLen > 200 ∧ o.textLen < o.textLen / 2) := by omega
  have hhead : ¬ (o.hasHeading = true ∧ o.hasHeading = false) := by
    cases o.hasHeading <;> simp
  simp only [checkedIssues, hcount, hblock, hlen, hhead, issueIf, h1, h2, h3, ne_eq, not_true_eq_false,
    ↓reduceIte, Bool.false_eq_true, or_self, List.append_nil, false_and, and_false]

theorem head_of_mem_countCheck (o t : Fingerprint) (m : Str) (hm : m ∈ countCheck o t) :
    m.head? = some 't' := by
  simp only [countCheck, List.mem_filterMap] at hm
  obtain ⟨tag, _, htag⟩ := hm
  split at htag
  · simp only [Option.some.injEq] at htag
    rw [← htag]
    rfl
  · simp at htag

theorem head_of_mem_blockCheck (o t : Fingerprint) (m : Str) (hm : m ∈ blockCheck o t) :
    m.head? = some 'b' := by
  unfold blockCheck at hm
  split at hm
  · simp only [List.mem_singleton] at hm
    rw [hm]
    rfl
  · split at hm
    · simp at hm
    · split at hm
      · simp only [List.mem_singleton] at hm
        rw [hm]
        rfl
      · simp only [List.mem_singleton] at hm
        rw [hm]
        rfl

theorem mem_issueIf (c : Prop) [Decidable c] (msg m : Str) :
    m ∈ issueIf c msg ↔ c ∧ m = msg := by
  by_cases hc : c <;> simp [issueIf, hc]

theorem headings_ne_of_head (m : Str) (c : Char) (hm : m.head? = some c) (hc : c ≠ 'h') :
    "headings disappeared".toList ≠ m := by
  intro h
  rw [← h] at hm
  have h2 : "headings disappeared".toList.head? = some 'h' := rfl
  rw [h2] at hm
  exact hc (Option.some.inj hm).symm

theorem headings_mem_checkedIssues (o t : Fingerprint) (html : Str) :
    "headings disappeared".toList ∈ checkedIssues o t html ↔
      (o.hasHeading = true ∧ t.hasHeading = false) := by
  have hc : "headings disappeared".toList ∉ countCheck o t := fun hm =>
    headings_ne_of_head _ 't' (head_of_mem_countCheck o t _ hm) (by decide) rfl
  have hb : "headings disappeared".toList ∉ blockCheck o t := fun hm =>
    headings_ne_of_head _ 'b' (head_of_mem_blockCheck o t _ hm) (by decide) rfl
  have h1 := headings_ne_of_head "img src sequence changed".toList 'i' rfl (by decide)
  have h2 := headings_ne_of_head "a href sequence changed".toList 'a' rfl (by decide)
  have h3 := headings_ne_of_head "list item distribution changed".toList 'l' rfl (by decide)
  have h4 := headings_ne_of_head "body top-level element sequence changed".toList 'b' rfl
    (by decide)
  have h5 := headings_ne_of_head "list shapes changed".toList 'l' rfl (by decide)
  have h6 := headings_ne_of_head "table shapes changed".toList 't' rfl (by decide)
  have h7 := headings_ne_of_head ("text length collapsed: ".toList ++ natToStr o.textLen ++
    " -> ".toList ++ natToStr t.textLen) 't' rfl (by decide)
  have h8 := headings_ne_of_head "markdown markers detected in html".toList 'm' rfl (by decide)
  simp only [checkedIssues, List.mem_append, mem_issueIf, hc, hb, h1, h2, h3, h4, h5, h6, h7,
    h8, false_or, or_false, and_false, and_true]

theorem lookup_map_self (f : Str → Nat) (tags : List Str) (tag : Str) (htag : tag ∈ tags) :
    (tags.map fun x => (x, f x)).lookup tag = some (f tag) := by
  induction tags with
  | nil => simp at htag
  | cons x xs ih =>
    by_cases hx : tag = x
    · subst hx
      simp [List.lookup]
    · have hmem : tag ∈ xs := by
        rcases List.mem_cons.mp htag with h | h
        · exact absurd h hx
        · exact h
      have hbeq : (tag == x) = false := by simpa using hx
      simp only [List.map_cons, List.lookup, hbeq]
      exact ih hmem

theorem getCount_fingerprint (h : Host) (html : Str) (tag : Str) (htag : tag ∈ TAGS_TO_COUNT) :
    getCount (fingerprintHtml h html).counts tag =
      (querySelectorAll [tag] (removeNonContent (parseHtml h html))).length := by
  simp only [getCount, fingerprintHtml]
  rw [lookup_map_self (fun x => (querySelectorAll [x] (removeNonContent (parseHtml h html))).length)
    TAGS_TO_COUNT tag htag]

theorem matchesAny_mono (tag : Str) (tags : List Str) (htag : tag ∈ tags) (n : Node)
    (hn : n.matchesAny [tag] = true) : n.matchesAny tags = true := by
  cases n with
  | text v => simp [Node.matchesAny] at hn
  | comment d => simp [Node.matchesAny] at hn
  | element l t a cs =>
    simp only [Node.matchesAny, List.contains_iff_exists_mem_beq, List.mem_singleton,
      exists_eq_left] at hn ⊢
    exact ⟨tag, htag, hn⟩

theorem querySelectorAll_length_mono (tag : Str) (tags : List Str) (htag : tag ∈ tags)
    (scope : List Node) :
    (querySelectorAll [tag] scope).length ≤ (querySelectorAll tags scope).length := by
  unfold querySelectorAll
  generalize descendants scope = ds
  induction ds with
  | nil => simp
  | cons d ds ih =>
    by_cases hd : d.matchesAny [tag] = true
    · have hd2 := matchesAny_mono tag tags htag d hd
      simp only [List.filter_cons, hd, hd2, ↓reduceIte, List.length_cons]
      omega
    · by_cases hd2 : d.matchesAny tags = true
      · simp only [List.filter_cons, hd, hd2, ↓reduceIte, List.length_cons,
          Bool.false_eq_true]
        omega
      · simp only [List.filter_cons, hd, hd2, ↓reduceIte, Bool.false_eq_true]
        exact ih

theorem heading_mem_TAGS_TO_COUNT (tag : Str) (htag : tag ∈ HEADING_SELECTOR) :
    tag ∈ TAGS_TO_COUNT := by
  revert tag
  decide

theorem hasHeading_of_count_pos (h : Host) (html : Str) (tag : Str)
    (htag : tag ∈ HEADING_SELECTOR) (hpos : 0 < getCount (fingerprintHtml h html).counts tag) :
    (fingerprintHtml h html).hasHeading = true := by
  rw [getCount_fingerprint h html tag (heading_mem_TAGS_TO_COUNT tag htag)] at hpos
  have hle := querySelectorAll_length_mono tag HEADING_SELECTOR htag
    (removeNonContent (parseHtml h html))
  simp only [fingerprintHtml, gt_iff_lt, decide_eq_true_eq]
  omega

theorem countCheck_ne_nil (o t : Fingerprint) (tag : Str) (htag : tag ∈ TAGS_TO_COUNT)
    (hne : getCount o.counts tag ≠ getCount t.counts tag) : countCheck o t ≠ [] := by
  have hmem : countMessage o t tag ∈ countCheck o t := by
    simp only [countCheck, List.mem_filterMap]
    exact ⟨tag, htag, by simp [hne]⟩
  exact List.ne_nil_of_mem hmem

theorem checkedIssues_ne_nil_of_count (o t : Fingerprint) (html : Str) (tag : Str)
    (htag : tag ∈ TAGS_TO_COUNT) (hne : getCount o.counts tag ≠ getCount t.counts tag) :
    checkedIssues o t html ≠ [] := by
  have hc := countCheck_ne_nil o t tag htag hne
  simp only [checkedIssues, ne_eq, List.append_eq_nil, hc, false_and, not_false_eq_true]

/-! ## Theorems on the validator -/

/-- C1, counterexample. A fragment that contains `**` is rejected when it is validated
against itself: the markup-leak check looks at the candidate alone. -/
theorem validate_self_with_markers_rejected :
    (validateHtmlStructure sampleHost "<p>a**b</p>".toList "<p>a**b</p>".toList).ok = false ∧
    (validateHtmlStructure sampleHost "<p>a**b</p>".toList "<p>a**b</p>".toList).issues =
      ["markdown markers detected in html".toList] := by
  decide

/-- C1, amended. For every platform and every fragment `f` that contains none of `**`,
`__` and the triple backtick, `validateHtmlStructure(f, f)` returns `ok = true` with an
empty issue list. -/
theorem validate_self_accepted (h : Host) (f : Str)
    (h1 : includes f "**".toList = false) (h2 : includes f "__".toList = false)
    (h3 : includes f "```".toList = false) :
    (validateHtmlStructure h f f).ok = true ∧ (validateHtmlStructure h f f).issues = [] := by
  have hissues : (validateHtmlStructure h f f).issues = [] := by
    rw [validate_issues_eq]
    exact checkedIssues_self _ f h1 h2 h3
  exact ⟨(validate_ok_iff h f f).mpr hissues, hissues⟩

/-- C1, witness of the amended claim at the fragment `<p>Hi</p>`. -/
theorem validate_self_accepted_witness :
    includes "<p>Hi</p>".toList "**".toList = false ∧
    (validateHtmlStructure sampleHost "<p>Hi</p>".toList "<p>Hi</p>".toList).ok = true ∧
    (validateHtmlStructure sampleHost "<p>Hi</p>".toList "<p>Hi</p>".toList).issues = [] :=
  ⟨by decide, validate_self_accepted sampleHost "<p>Hi</p>".toList (by decide) (by decide)
    (by decide)⟩

/-- C4, counterexample. The original has an `h1` and an `h2`, the candidate drops the
`h2` and keeps the `h1`: the issue list does not name heading disappearance. -/
theorem heading_dropped_without_issue :
    getCount (fingerprintHtml sampleHost "<h1>A</h1>".toList).counts "h2".toList <
      getCount (fingerprintHtml sampleHost "<h1>A</h1><h2>B</h2>".toList).counts "h2".toList ∧
    "headings disappeared".toList ∉
      (validateHtmlStructure sampleHost "<h1>A</h1><h2>B</h2>".toList
        "<h1>A</h1>".toList).issues := by
  decide

/-- C4, amended. When the candidate has fewer headings of some level `h1`..`h6` than the
original, `validateHtmlStructure` returns `ok = false`; its issue list contains
`headings disappeared` exactly when the candidate has no heading left at all. -/
theorem heading_drop_rejected (h : Host) (originalHtml translatedHtml : Str) (tag : Str)
    (htag : tag ∈ HEADING_SELECTOR)
    (hdrop : getCount (fingerprintHtml h translatedHtml).counts tag <
      getCount (fingerprintHtml h originalHtml).counts tag) :
    (validateHtmlStructure h originalHtml translatedHtml).ok = false ∧
    ("headings disappeared".toList ∈ (validateHtmlStructure h originalHtml translatedHtml).issues ↔
      (fingerprintHtml h translatedHtml).hasHeading = false) := by
  have ho : (fingerprintHtml h originalHtml).hasHeading = true :=
    hasHeading_of_count_pos h originalHtml tag htag (by omega)
  constructor
  · rw [validate_ok_eq_false_iff, validate_issues_eq]
    exact checkedIssues_ne_nil_of_count _ _ _ tag (heading_mem_TAGS_TO_COUNT tag htag)
      (by omega)
  · rw [validate_issues_eq, headings_mem_checkedIssues]
    simp [ho]

/-- C4, witness of the amended claim: the original is `<h1>A</h1><p>B</p>`, the candidate
`<p>A</p><p>B</p>` has no heading, and the issue is reported. -/
theorem heading_drop_rejected_witness :
    (validateHtmlStructure sampleHost "<h1>A</h1><p>B</p>".toList
      "<p>A</p><p>B</p>".toList).ok = false ∧
    ("headings disappeared".toList ∈ (validateHtmlStructure sampleHost
        "<h1>A</h1><p>B</p>".toList "<p>A</p><p>B</p>".toList).issues ↔
      (fingerprintHtml sampleHost "<p>A</p><p>B</p>".toList).hasHeading = false) :=
  heading_drop_rejected sampleHost "<h1>A</h1><p>B</p>".toList "<p>A</p><p>B</p>".toList
    "h1".toList (by decide) (by decide)

/-- C5, counterexample. The candidate alters the `href` of the hyperlink inside the
`noscript` element from `u` to `v`, so the sequence of `href` values of the fragment
changes; `removeNonContent` drops that element before the fingerprint is taken, and the
candidate is accepted. (`DOMParser` parses without scripting, so the content of
`noscript` is parsed as elements.) -/
theorem link_in_noscript_unchecked :
    (querySelectorAll ["a".toList] (parseHtml sampleHost
      "<a href=\"x\">l</a><img src=\"y\"><noscript><a href=\"u\">n</a></noscript>".toList)).map
      (fun el => attrOrEmpty "href".toList el.attrs) = ["x".toList, "u".toList] ∧
    (querySelectorAll ["a".toList] (parseHtml sampleHost
      "<a href=\"x\">l</a><img src=\"y\"><noscript><a href=\"v\">n</a></noscript>".toList)).map
      (fun el => attrOrEmpty "href".toList el.attrs) = ["x".toList, "v".toList] ∧
    (validateHtmlStructure sampleHost
      "<a href=\"x\">l</a><img src=\"y\"><noscript><a href=\"u\">n</a></noscript>".toList
      "<a href=\"x\">l</a><img src=\"y\"><noscript><a href=\"v\">n</a></noscript>".toList).ok =
      true := by
  decide

/-- C5, amended. A candidate is rejected whenever its sequence of hyperlink `href` values,
or its sequence of image `src` values, differs from the original's, the sequences being
those of the fingerprint: the `a` (resp. `img`) elements of `body` outside `script`,
`style` and `noscript` elements, in document order, each with the value `getAttribute`
returns and the empty string for a missing attribute. -/
theorem link_or_image_change_rejected (h : Host) (originalHtml translatedHtml : Str)
    (hdiff : (fingerprintHtml h originalHtml).linkHref ≠ (fingerprintHtml h translatedHtml).linkHref ∨
      (fingerprintHtml h originalHtml).imgSrc ≠ (fingerprintHtml h translatedHtml).imgSrc) :
    (validateHtmlStructure h originalHtml translatedHtml).ok = false := by
  rw [validate_ok_eq_false_iff, validate_issues_eq]
  rcases hdiff with hl | hi
  · simp [checkedIssues, issueIf, hl]
  · simp [checkedIssues, issueIf, hi]

/-- C5, witness of the amended claim: the candidate alters the `href` of the hyperlink
from `x` to `z`. -/
theorem link_or_image_change_rejected_witness :
    (fingerprintHtml sampleHost "<a href=\"x\">l</a><img src=\"y\">".toList).linkHref =
      ["x".toList] ∧
    (fingerprintHtml sampleHost "<a href=\"z\">l</a><img src=\"y\">".toList).linkHref =
      ["z".toList] ∧
    (validateHtmlStructure sampleHost "<a href=\"x\">l</a><img src=\"y\">".toList
      "<a href=\"z\">l</a><img src=\"y\">".toList).ok = false :=
  ⟨by decide, by decide,
    link_or_image_change_rejected sampleHost "<a href=\"x\">l</a><img src=\"y\">".toList
      "<a href=\"z\">l</a><img src=\"y\">".toList (Or.inl (by decide))⟩

/-- C10, counterexample. Both paragraphs of the candidate lost their inline element, so
the inline signatures of block 0 and of block 1 both differ; the loop stops at block 0 and
the issue list has one entry, none for block 1. -/
theorem second_block_difference_unreported :
    ((fingerprintHtml sampleHost "<p><b>a</b></p><p><i>b</i></p>".toList).blocks.map
      BlockSig.inline) = ["b".toList, "i".toList] ∧
    ((fingerprintHtml sampleHost "<p>a</p><p>b</p>".toList).blocks.map BlockSig.inline) =
      [[], []] ∧
    (validateHtmlStructure sampleHost "<p><b>a</b></p><p><i>b</i></p>".toList
      "<p>a</p><p>b</p>".toList).issues = ["block[0] inline structure changed".toList] := by
  decide

/-- C10, amended. `validateHtmlStructure` evaluates every check and its issue list is the
concatenation, in this order, of: one issue per structural tag type whose count differs,
the image `src` sequence, the hyperlink `href` sequence, the list item distribution,
heading disappearance, the top-level child-tag sequence, the block check, the list shapes,
the table shapes, text-length collapse and markup leakage. The block check contributes at
most one issue: the block count when it differs, otherwise the first block, in order,
whose tag or (the tags being equal) inline signature differs. `ok` tells whether the list
is empty. -/
theorem issues_are_all_failed_checks (h : Host) (originalHtml translatedHtml : Str) :
    (validateHtmlStructure h originalHtml translatedHtml).issues =
      checkedIssues (fingerprintHtml h originalHtml) (fingerprintHtml h translatedHtml)
        translatedHtml ∧
    ((validateHtmlStructure h originalHtml translatedHtml).ok = true ↔
      checkedIssues (fingerprintHtml h originalHtml) (fingerprintHtml h translatedHtml)
        translatedHtml = []) := by
  refine ⟨validate_issues_eq h originalHtml translatedHtml, ?_⟩
  rw [validate_ok_iff, validate_issues_eq]

/-! ## Lemmas on the batch translation -/

theorem mapToJsString_length (arr : List JsonValue) (r : List Str)
    (hr : mapToJsString arr = some r) : r.length = arr.length := by
  induction arr generalizing r with
  | nil =>
    simp only [mapToJsString, Option.some.injEq] at hr
    subst hr
    rfl
  | cons x xs ih =>
    simp only [mapToJsString] at hr
    split at hr
    · rename_i a b _ hb
      simp only [Option.some.injEq] at hr
      rw [← hr, List.length_cons, List.length_cons, ih b hb]
    · simp at hr

theorem mapToJsString_strings (ss : List Str) :
    mapToJsString (ss.map JsonValue.string) = some ss := by
  induction ss with
  | nil => rfl
  | cons x xs ih => simp [mapToJsString, JsonValue.toJsString, ih]

theorem tryJsonArray_length (h : Host) (out : Str) (segments r : List Str)
    (hr : tryJsonArray h out segments = some r) : r.length = segments.length := by
  unfold tryJsonArray at hr
  split at hr
  · split at hr
    · rename_i hlen
      rw [mapToJsString_length _ r hr, hlen]
    · simp at hr
  · simp at hr

theorem parseSegments_length (h : Host) (out : Str) (segments r : List Str)
    (hr : parseSegments h out segments = .ok r) : r.length = segments.length := by
  unfold parseSegments at hr
  split at hr
  · rename_i r2 hr2
    simp only [Except.ok.injEq] at hr
    rw [← hr]
    exact tryJsonArray_length h out segments r2 hr2
  · simp only at hr
    split at hr
    · rename_i hlen
      simp only [Except.ok.injEq] at hr
      rw [← hr]
      exact hlen
    · simp at hr

theorem translateSegments_length (h : Host) (callProvider : Request → Except Str Str)
    (req : Request) (r : List Str)
    (hr : translateSegmentsAsJsonArray h callProvider req = .ok r) :
    r.length = req.segments.length := by
  unfold translateSegmentsAsJsonArray at hr
  split at hr
  · simp at hr
  · exact parseSegments_length h _ _ r hr

theorem writeBack_eq (batchNodes : List Path) (idx : Nat) (translated : List Str)
    (body : List Node) (hlen : idx + translated.length ≤ batchNodes.length) :
    writeBack batchNodes idx translated body =
      .ok (((batchNodes.drop idx).zip translated).foldl
        (fun b pt => setNodeValue (cleanModelText pt.2) b pt.1) body) := by
  induction translated generalizing idx body with
  | nil => simp [writeBack]
  | cons t ts ih =>
    simp only [List.length_cons] at hlen
    have hidx : idx < batchNodes.length := by omega
    have hget : batchNodes.get? idx = some (batchNodes.get ⟨idx, hidx⟩) :=
      List.get?_eq_get hidx
    have hdrop : batchNodes.drop idx = batchNodes.get ⟨idx, hidx⟩ :: batchNodes.drop (idx + 1) :=
      List.drop_eq_getElem_cons hidx
    rw [hdrop]
    simp only [writeBack, hget, List.zip_cons_cons, List.foldl_cons]
    exact ih (idx + 1) _ (by omega)

theorem parseSegments_unusable (h : Host) (out : Str) (segments : List Str)
    (harr : ∀ arr, h.jsonParse (jsonStr out) = some (.array arr) →
      arr.length ≠ segments.length)
    (hlines : (fallbackLines out).length ≠ segments.length) :
    parseSegments h out segments = .error unparseableMessage := by
  have htry : tryJsonArray h out segments = none := by
    unfold tryJsonArray
    split
    · rename_i arr harr2
      simp [harr arr harr2]
    · rfl
  simp [parseSegments, htry, hlines]

theorem translateBatches_zero (h : Host) (oracle : Oracle) (args : TranslateArgs)
    (textNodes : List Path) (i : Nat) (st : LoopState) :
    translateBatches h oracle args textNodes 0 i st = (.ok st, st.log) := rfl

theorem translateBatches_done (h : Host) (oracle : Oracle) (args : TranslateArgs)
    (textNodes : List Path) (fuel i : Nat) (st : LoopState) (hi : ¬ i < textNodes.length) :
    translateBatches h oracle args textNodes fuel i st = (.ok st, st.log) := by
  cases fuel with
  | zero => rfl
  | succ fuel => simp [translateBatches, hi]

theorem translateBatches_error (h : Host) (oracle : Oracle) (args : TranslateArgs)
    (textNodes : List Path) (fuel i : Nat) (st : LoopState) (e : Str)
    (hi : i < textNodes.length)
    (he : translateSegmentsAsJsonArray h (oracle st.log.length)
      (requestAt args textNodes i st) = .error e) :
    translateBatches h oracle args textNodes (fuel + 1) i st =
      (.error e, st.log ++ [requestAt args textNodes i st]) := by
  simp only [translateBatches, hi, ↓reduceIte, he]

theorem translateBatches_step (h : Host) (oracle : Oracle) (args : TranslateArgs)
    (textNodes : List Path) (fuel i : Nat) (st : LoopState) (translated : List Str)
    (hi : i < textNodes.length)
    (hok : translateSegmentsAsJsonArray h (oracle st.log.length)
      (requestAt args textNodes i st) = .ok translated) :
    translateBatches h oracle args textNodes (fuel + 1) i st =
      translateBatches h oracle args textNodes fuel (i + BATCH_SIZE)
        { body := (((textNodes.drop i).take BATCH_SIZE).zip translated).foldl
            (fun b pt => setNodeValue (cleanModelText pt.2) b pt.1) st.body,
          ctx := (toUtf16 (orElse (translated.getLastD []) [])).take 200,
          log := st.log ++ [requestAt args textNodes i st] } := by
  have hlen := translateSegments_length h _ _ translated hok
  have hwb := writeBack_eq ((textNodes.drop i).take BATCH_SIZE) 0 translated st.body
    (by simp only [requestAt, List.length_map] at hlen; omega)
  simp only [List.drop_zero] at hwb
  simp only [translateBatches, hi, ↓reduceIte, hok, hwb]

theorem translateBatches_log_extends (h : Host) (oracle : Oracle) (args : TranslateArgs)
    (textNodes : List Path) (fuel i : Nat) (st : LoopState) :
    ∃ extra, (translateBatches h oracle args textNodes fuel i st).2 = st.log ++ extra := by
  induction fuel generalizing i st with
  | zero => exact ⟨[], by simp [translateBatches_zero]⟩
  | succ fuel ih =>
    by_cases hi : i < textNodes.length
    · cases hres : translateSegmentsAsJsonArray h (oracle st.log.length)
          (requestAt args textNodes i st) with
      | error e =>
        rw [translateBatches_error h oracle args textNodes fuel i st e hi hres]
        exact ⟨[requestAt args textNodes i st], rfl⟩
      | ok translated =>
        rw [translateBatches_step h oracle args textNodes fuel i st translated hi hres]
        obtain ⟨extra, hextra⟩ := ih (i + BATCH_SIZE)
          { body := (((textNodes.drop i).take BATCH_SIZE).zip translated).foldl
              (fun b pt => setNodeValue (cleanModelText pt.2) b pt.1) st.body,
            ctx := (toUtf16 (orElse (translated.getLastD []) [])).take 200,
            log := st.log ++ [requestAt args textNodes i st] }
        exact ⟨requestAt args textNodes i st :: extra, by rw [hextra]; simp⟩
    · rw [translateBatches_done h oracle args textNodes (fuel + 1) i st hi]
      exact ⟨[], by simp⟩

/-- The bound on the iterations is enough: from index `i`, any bound of at least
`textNodes.length - i` gives the same outcome as every larger one, so the loop of the
model never stops for want of iterations. -/
theorem translateBatches_fuel (h : Host) (oracle : Oracle) (args : TranslateArgs)
    (textNodes : List Path) (fuel i : Nat) (st : LoopState) (extra : Nat)
    (hfuel : textNodes.length ≤ i + fuel) :
    translateBatches h oracle args textNodes (fuel + extra) i st =
      translateBatches h oracle args textNodes fuel i st := by
  induction fuel generalizing i st with
  | zero =>
    have hi : ¬ i < textNodes.length := by omega
    rw [translateBatches_done h oracle args textNodes _ i st hi,
      translateBatches_done h oracle args textNodes _ i st hi]
  | succ fuel ih =>
    have hsucc : fuel + 1 + extra = (fuel + extra) + 1 := by omega
    rw [hsucc]
    by_cases hi : i < textNodes.length
    · cases hres : translateSegmentsAsJsonArray h (oracle st.log.length)
          (requestAt args textNodes i st) with
      | error e =>
        rw [translateBatches_error h oracle args textNodes _ i st e hi hres,
          translateBatches_error h oracle args textNodes _ i st e hi hres]
      | ok translated =>
        rw [translateBatches_step h oracle args textNodes _ i st translated hi hres,
          translateBatches_step h oracle args textNodes _ i st translated hi hres]
        exact ih (i + BATCH_SIZE) _ (by simp only [BATCH_SIZE]; omega)
    · rw [translateBatches_done h oracle args textNodes _ i st hi,
        translateBatches_done h oracle args textNodes _ i st hi]

/-- A request whose answer is unusable ends the loop with the error of that request. -/
theorem translateBatches_fails (h : Host) (oracle : Oracle) (args : TranslateArgs)
    (textNodes : List Path) (fuel i : Nat) (st : LoopState) (k : Nat) (req : Request)
    (e : Str) (hk : st.log.length ≤ k)
    (hreq : (translateBatches h oracle args textNodes fuel i st).2.get? k = some req)
    (he : translateSegmentsAsJsonArray h (oracle k) req = .error e) :
    (translateBatches h oracle args textNodes fuel i st).1 = .error e := by
  induction fuel generalizing i st with
  | zero =>
    rw [translateBatches_zero] at hreq
    simp only at hreq
    rw [List.get?_eq_none.mpr hk] at hreq
    simp at hreq
  | succ fuel ih =>
    by_cases hi : i < textNodes.length
    · cases hres : translateSegmentsAsJsonArray h (oracle st.log.length)
          (requestAt args textNodes i st) with
      | error e2 =>
        rw [translateBatches_error h oracle args textNodes fuel i st e2 hi hres] at hreq ⊢
        simp only at hreq ⊢
        by_cases hkeq : k = st.log.length
        · subst hkeq
          simp only [List.get?_eq_getElem?, List.getElem?_concat_length,
            Option.some.injEq] at hreq
          subst hreq
          rw [hres] at he
          simp only [Except.error.injEq] at he
          rw [he]
        · rw [List.get?_eq_none.mpr (by simp; omega)] at hreq
          simp at hreq
      | ok translated =>
        rw [translateBatches_step h oracle args textNodes fuel i st translated hi hres] at hreq ⊢
        by_cases hkeq : k = st.log.length
        · subst hkeq
          obtain ⟨extra, hextra⟩ := translateBatches_log_extends h oracle args textNodes fuel
            (i + BATCH_SIZE)
            { body := (((textNodes.drop i).take BATCH_SIZE).zip translated).foldl
                (fun b pt => setNodeValue (cleanModelText pt.2) b pt.1) st.body,
              ctx := (toUtf16 (orElse (translated.getLastD []) [])).take 200,
              log := st.log ++ [requestAt args textNodes i st] }
          rw [hextra] at hreq
          simp only [List.append_assoc, List.singleton_append, List.get?_eq_getElem?,
            List.getElem?_append_right (Nat.le_refl _), Nat.sub_self, List.getElem?_cons_zero,
            Option.some.injEq] at hreq
          subst hreq
          rw [hres] at he
          simp at he
        · exact ih (i + BATCH_SIZE) _ (by simp; omega) hreq
    · rw [translateBatches_done h oracle args textNodes (fuel + 1) i st hi] at hreq
      simp only at hreq
      rw [List.get?_eq_none.mpr hk] at hreq
      simp at hreq

/-! ## Lemmas on extraction and write-back -/

theorem nodeAt_cons_succ (n : Node) (ns : List Node) (k : Nat) (rest : Path) :
    nodeAt (n :: ns) ((k + 1) :: rest) = nodeAt ns (k :: rest) := by
  cases rest with
  | nil => simp [nodeAt]
  | cons j rest => simp [nodeAt]

mutual
theorem collectNode_text (pn : Str) : ∀ (n : Node) (ns : List Node) (rest : Path),
    rest ∈ collectNode pn n → ∃ v, nodeAt (n :: ns) (0 :: rest) = some (.text v)
  | .text v, ns, rest, hmem => by
    simp only [collectNode] at hmem
    split at hmem
    · simp only [List.mem_singleton] at hmem
      subst hmem
      exact ⟨v, by simp [nodeAt]⟩
    · simp at hmem
  | .comment d, ns, rest, hmem => by
    simp [collectNode] at hmem
  | .element l t a cs, ns, rest, hmem => by
    simp only [collectNode] at hmem
    obtain ⟨k, rest2, hp, v, hv⟩ := collectList_text t cs 0 rest hmem
    subst hp
    exact ⟨v, by simpa [nodeAt] using hv⟩
theorem collectList_text (pn : Str) : ∀ (cs : List Node) (i : Nat) (p : Path),
    p ∈ collectList pn i cs →
      ∃ k rest, p = (i + k) :: rest ∧ ∃ v, nodeAt cs (k :: rest) = some (.text v)
  | [], i, p, hmem => by
    simp [collectList] at hmem
  | n :: ns, i, p, hmem => by
    simp only [collectList, List.mem_append, List.mem_map] at hmem
    rcases hmem with ⟨rest, hrest, hp⟩ | hmem
    · obtain ⟨v, hv⟩ := collectNode_text pn n ns rest hrest
      exact ⟨0, rest, by simp [← hp], v, hv⟩
    · obtain ⟨k, rest, hp, v, hv⟩ := collectList_text pn ns (i + 1) p hmem
      exact ⟨k + 1, rest, by rw [hp]; congr 1; omega, v, by rw [nodeAt_cons_succ]; exact hv⟩
end

/-- Every node returned by `collectTranslatableTextNodes` is a text node of the document. -/
theorem collected_is_text (body : List Node) (p : Path)
    (hp : p ∈ collectTranslatableTextNodes body) : ∃ v, nodeAt body p = some (.text v) := by
  obtain ⟨k, rest, hpk, v, hv⟩ := collectList_text _ body 0 p hp
  rw [hpk, Nat.zero_add]
  exact ⟨v, hv⟩

theorem set_of_get? {α : Type} (l : List α) (i : Nat) (x : α) (hx : l.get? i = some x) :
    l.set i x = l := by
  induction l generalizing i with
  | nil => simp
  | cons y ys ih =>
    cases i with
    | zero =>
      simp only [List.get?_cons_zero, Option.some.injEq] at hx
      simp [hx]
    | succ i =>
      simp only [List.get?_cons_succ] at hx
      simp [ih i hx]

/-- Assigning to a text node the value it has leaves the document as it is. -/
theorem setNodeValue_same (v : Str) (p : Path) :
    ∀ (ns : List Node), nodeAt ns p = some (.text v) → setNodeValue v ns p = ns := by
  induction p with
  | nil => intro ns _; rfl
  | cons i rest ih =>
    intro ns hat
    cases rest with
    | nil =>
      simp only [nodeAt] at hat
      simp only [setNodeValue, hat]
      exact set_of_get? ns i _ hat
    | cons j rest =>
      simp only [nodeAt] at hat
      split at hat
      · rename_i l t a cs hget
        simp only [setNodeValue, hget]
        rw [ih cs hat]
        exact set_of_get? ns i _ hget
      · simp at hat

theorem nodeValueAt_of_text (body : List Node) (p : Path) (v : Str)
    (hat : nodeAt body p = some (.text v)) : nodeValueAt body p = v := by
  simp [nodeValueAt, hat]

/-- Writing back to a batch of text nodes the values they have, when `cleanModelText`
keeps these values, leaves the document as it is. -/
theorem echo_fold (body : List Node) (batch : List Path)
    (hbatch : ∀ p ∈ batch, (∃ v, nodeAt body p = some (.text v)) ∧
      cleanModelText (nodeValueAt body p) = nodeValueAt body p) :
    (batch.zip (batch.map (nodeValueAt body))).foldl
      (fun b pt => setNodeValue (cleanModelText pt.2) b pt.1) body = body := by
  induction batch with
  | nil => rfl
  | cons p ps ih =>
    obtain ⟨⟨v, hv⟩, hclean⟩ := hbatch p (List.mem_cons_self p ps)
    simp only [List.map_cons, List.zip_cons_cons, List.foldl_cons, hclean]
    rw [nodeValueAt_of_text body p v hv, setNodeValue_same v p body hv]
    exact ih fun q hq => hbatch q (List.mem_cons_of_mem p hq)

theorem translateBatches_log_next (h : Host) (oracle : Oracle) (args : TranslateArgs)
    (textNodes : List Path) (fuel i : Nat) (st : LoopState) (hi : i < textNodes.length) :
    (translateBatches h oracle args textNodes (fuel + 1) i st).2.get? st.log.length =
      some (requestAt args textNodes i st) := by
  cases hres : translateSegmentsAsJsonArray h (oracle st.log.length)
      (requestAt args textNodes i st) with
  | error e =>
    rw [translateBatches_error h oracle args textNodes fuel i st e hi hres]
    simp
  | ok translated =>
    rw [translateBatches_step h oracle args textNodes fuel i st translated hi hres]
    obtain ⟨extra, hextra⟩ := translateBatches_log_extends h oracle args textNodes fuel
      (i + BATCH_SIZE)
      { body := (((textNodes.drop i).take BATCH_SIZE).zip translated).foldl
          (fun b pt => setNodeValue (cleanModelText pt.2) b pt.1) st.body,
        ctx := (toUtf16 (orElse (translated.getLastD []) [])).take 200,
        log := st.log ++ [requestAt args textNodes i st] }
    rw [hextra]
    simp only [List.append_assoc, List.singleton_append, List.get?_eq_getElem?,
      List.getElem?_append_right (Nat.le_refl _), Nat.sub_self, List.getElem?_cons_zero]

/-- When every request is answered with its own segments and `cleanModelText` keeps the
value of every translatable text node, the loop ends without error and with the document
it started from. -/
theorem translateBatches_echo (h : Host) (oracle : Oracle) (args : TranslateArgs)
    (textNodes : List Path) (doc : List Node)
    (htn : ∀ p ∈ textNodes, (∃ v, nodeAt doc p = some (.text v)) ∧
      cleanModelText (nodeValueAt doc p) = nodeValueAt doc p)
    (fuel i : Nat) (st : LoopState) (hbody : st.body = doc)
    (hecho : ∀ k req, st.log.length ≤ k →
      (translateBatches h oracle args textNodes fuel i st).2.get? k = some req →
      translateSegmentsAsJsonArray h (oracle k) req = .ok req.segments) :
    ∃ st2, (translateBatches h oracle args textNodes fuel i st).1 = .ok st2 ∧
      st2.body = doc := by
  induction fuel generalizing i st with
  | zero => exact ⟨st, rfl, hbody⟩
  | succ fuel ih =>
    by_cases hi : i < textNodes.length
    · have hnext := translateBatches_log_next h oracle args textNodes fuel i st hi
      have hok := hecho st.log.length _ (Nat.le_refl _) hnext
      have hstep := translateBatches_step h oracle args textNodes fuel i st _ hi hok
      have hfold : (((textNodes.drop i).take BATCH_SIZE).zip
          (requestAt args textNodes i st).segments).foldl
          (fun b pt => setNodeValue (cleanModelText pt.2) b pt.1) st.body = doc := by
        rw [hbody]
        simp only [requestAt, hbody]
        exact echo_fold doc _ fun p hp =>
          htn p (List.mem_of_mem_drop (List.mem_of_mem_take hp))
      rw [hstep]
      apply ih
      · exact hfold
      · intro k req hk hget
        rw [hstep] at hecho
        exact hecho k req (by simp at hk; omega) hget
    · rw [translateBatches_done h oracle args textNodes (fuel + 1) i st hi]
      exact ⟨st, rfl, hbody⟩

theorem orElse_nil (a : Str) : orElse a [] = a := by
  unfold orElse
  split
  · rename_i ha
    exact ha.symm
  · rfl

theorem dropWhile_ne_append (c : Char) (l r : Str) (hl : c ∉ l) :
    (l ++ c :: r).dropWhile (· ≠ c) = c :: r := by
  induction l with
  | nil => simp [List.dropWhile]
  | cons x xs ih =>
    have hx : x ≠ c := fun hxc => hl (by simp [hxc])
    have hxs : c ∉ xs := fun hmem => hl (List.mem_cons_of_mem x hmem)
    have hd : decide (x ≠ c) = true := by simpa using hx
    simp only [List.cons_append, List.dropWhile, hd]
    exact ih hxs

theorem matchBracketed_embedded (front arr back : Str) (hfront : '[' ∉ front)
    (hback : ']' ∉ back) :
    matchBracketed (front ++ ('[' :: arr ++ ']' :: back)) = some ('[' :: arr ++ [']']) := by
  unfold matchBracketed
  have h1 : ('[' :: arr ++ ']' :: back) = '[' :: (arr ++ ']' :: back) := rfl
  rw [h1, dropWhile_ne_append '[' front _ hfront]
  have hcontains : (arr ++ ']' :: back).contains ']' = true := by simp
  have hrev : (arr ++ ']' :: back).reverse = back.reverse ++ ']' :: arr.reverse := by simp
  have hback2 : ']' ∉ back.reverse := fun hmem => hback (List.mem_reverse.mp hmem)
  simp only [hcontains, ↓reduceIte, hrev, dropWhile_ne_append ']' _ _ hback2]
  simp

/-! ## Theorems on the batch translation -/

/-- C2, counterexample. The batch has one segment and the output is a JSON array of two
entries on one line: the array is not accepted, the line fallback finds one line, and the
whole output is returned as the translation of the segment instead of an error. -/
theorem oversized_array_returned_as_line :
    sampleHost.jsonParse (jsonStr "[\"Hallo\",\"Welt\"]".toList) =
      some (.array [.string "Hallo".toList, .string "Welt".toList]) ∧
    translateSegmentsAsJsonArray sampleHost (fun _ => .ok "[\"Hallo\",\"Welt\"]".toList)
      { segments := ["Hello world".toList], sourceLang := "en".toList,
        targetLang := "de".toList, glossary := [], previousContext := [] } =
      .ok ["[\"Hallo\",\"Welt\"]".toList] :=
  ⟨rfl, rfl⟩

/-- C2, amended. When the answer to a request of `translateHtmlPreserveMarkup` is not
parsed by `JSON.parse` into an array with as many entries as the batch has segments, and
the number of its trimmed non-empty lines differs from the number of segments too, then
`translateSegmentsAsJsonArray` fails and the whole call of `translateHtmlPreserveMarkup`
fails with that error: no batch is accepted in part. -/
theorem unusable_answer_fails_call (h : Host) (oracle : Oracle) (args : TranslateArgs)
    (k : Nat) (req : Request) (out : Str)
    (hreq : (requestsMade h oracle args).get? k = some req)
    (hout : oracle k req = .ok out)
    (harr : ∀ arr, h.jsonParse (jsonStr out) = some (.array arr) →
      arr.length ≠ req.segments.length)
    (hlines : (fallbackLines out).length ≠ req.segments.length) :
    translateSegmentsAsJsonArray h (oracle k) req = .error unparseableMessage ∧
    translateHtmlPreserveMarkup h oracle args = .error unparseableMessage := by
  have hfail : translateSegmentsAsJsonArray h (oracle k) req = .error unparseableMessage := by
    simp only [translateSegmentsAsJsonArray, hout]
    exact parseSegments_unusable h out req.segments harr hlines
  refine ⟨hfail, ?_⟩
  unfold requestsMade at hreq
  unfold translateHtmlPreserveMarkup
  cases hcore : translateCore h oracle args with
  | none =>
    rw [hcore] at hreq
    simp at hreq
  | some res =>
    rw [hcore] at hreq
    obtain ⟨outcome, log⟩ := res
    simp only at hreq
    have hrun : translateBatches h oracle args
        (collectTranslatableTextNodes (cleanedBody h args.html))
        (collectTranslatableTextNodes (cleanedBody h args.html)).length 0
        { body := cleanedBody h args.html, ctx := args.previousContext, log := [] } =
        (outcome, log) := by
      unfold translateCore at hcore
      simp only at hcore
      split at hcore
      · simp at hcore
      · simpa using hcore
    have hres := translateBatches_fails h oracle args _ _ 0
      { body := cleanedBody h args.html, ctx := args.previousContext, log := [] } k req
      unparseableMessage (Nat.zero_le _) (by rw [hrun]; exact hreq) hfail
    rw [hrun] at hres
    simp only at hres
    subst hres
    rfl

/-- C2, witness of the amended claim: the provider answers the one request for
`<p>Hi</p>` with the empty string. -/
theorem unusable_answer_fails_call_witness :
    translateSegmentsAsJsonArray sampleHost (fun _ => .ok [])
      { segments := ["Hi".toList], sourceLang := "en".toList, targetLang := "de".toList,
        glossary := [], previousContext := [] } = .error unparseableMessage ∧
    translateHtmlPreserveMarkup sampleHost (fun _ _ => .ok [])
      { html := "<p>Hi</p>".toList, sourceLang := "en".toList, targetLang := "de".toList,
        glossary := [], previousContext := [] } = .error unparseableMessage :=
  unusable_answer_fails_call sampleHost (fun _ _ => .ok [])
    { html := "<p>Hi</p>".toList, sourceLang := "en".toList, targetLang := "de".toList,
      glossary := [], previousContext := [] } 0
    { segments := ["Hi".toList], sourceLang := "en".toList, targetLang := "de".toList,
      glossary := [], previousContext := [] } [] rfl rfl
    (fun arr harr => by
      have hnone : sampleHost.jsonParse (jsonStr []) = none := rfl
      rw [hnone] at harr
      cases harr)
    (by decide)

/-- C9. Whenever `translateSegmentsAsJsonArray` returns, the list it returns has as many
strings as the batch has segments; so, for a batch of that many nodes, the write-back of
`translateHtmlPreserveMarkup` finds a node at every index it uses, and assigns the
cleaned strings to the nodes pairwise: each node of the batch, in order, gets the string
at its own index. -/
theorem returned_count_matches_batch (h : Host) (callProvider : Request → Except Str Str)
    (req : Request) (translated : List Str)
    (hret : translateSegmentsAsJsonArray h callProvider req = .ok translated) :
    translated.length = req.segments.length ∧
    ∀ (batchNodes : List Path) (body : List Node),
      batchNodes.length = req.segments.length →
        (∀ idx, idx < translated.length → batchNodes.get? idx ≠ none) ∧
        (batchNodes.zip translated).map Prod.fst = batchNodes ∧
        (batchNodes.zip translated).map Prod.snd = translated ∧
        writeBack batchNodes 0 translated body =
          .ok ((batchNodes.zip translated).foldl
            (fun b pt => setNodeValue (cleanModelText pt.2) b pt.1) body) := by
  have hlen := translateSegments_length h callProvider req translated hret
  refine ⟨hlen, fun batchNodes body hb => ⟨?_, ?_, ?_, ?_⟩⟩
  · intro idx hidx hnone
    rw [List.get?_eq_none] at hnone
    omega
  · exact List.map_fst_zip _ _ (by omega)
  · exact List.map_snd_zip _ _ (by omega)
  · have hwb := writeBack_eq batchNodes 0 translated body (by omega)
    simpa using hwb

/-- C9, witness: the provider answers the one-segment batch with `["Hallo"]`. -/
theorem returned_count_matches_batch_witness :
    translateSegmentsAsJsonArray sampleHost (fun _ => .ok "[\"Hallo\"]".toList)
      { segments := ["Hello".toList], sourceLang := [], targetLang := [], glossary := [],
        previousContext := [] } = .ok ["Hallo".toList] ∧
    ["Hallo".toList].length = 1 :=
  ⟨rfl, (returned_count_matches_batch sampleHost (fun _ => .ok "[\"Hallo\"]".toList)
    { segments := ["Hello".toList], sourceLang := [], targetLang := [], glossary := [],
      previousContext := [] } ["Hallo".toList] rfl).1⟩

/-- C3, counterexample. The fragment has a `script` element and the provider answers
`["*__*"]`, which `cleanModelText` turns into `**`; the candidate is rejected for markup
leakage, and the fragment returned is `<p>Hi</p>`, not the fragment given. -/
theorem fallback_differs_from_given_fragment :
    translateHtmlPreserveMarkup sampleHost (fun _ _ => .ok "[\"*__*\"]".toList)
      { html := "<p>Hi</p><script>x()</script>".toList, sourceLang := "en".toList,
        targetLang := "de".toList, glossary := [], previousContext := [] } =
      .ok { translatedHtml := "<p>Hi</p>".toList, translatedText := "Hi".toList,
            validationIssues := some ["markdown markers detected in html".toList] } ∧
    "<p>Hi</p>".toList ≠ "<p>Hi</p><script>x()</script>".toList :=
  ⟨rfl, by decide⟩

/-- C3, amended. When the batch loop has ended in the state `st` and
`validateHtmlStructure` rejects the candidate serialised from it,
`translateHtmlPreserveMarkup` returns as `translatedHtml` the original markup
`originalFingerprintHtml`: the serialisation `body.innerHTML` of the parsed fragment
without its `script` and `style` elements, or the fragment given when that is empty. It is
not the candidate, and `validationIssues` is the non-empty issue list of the check. -/
theorem rejected_candidate_falls_back (h : Host) (oracle : Oracle) (args : TranslateArgs)
    (st : LoopState) (log : List Request)
    (hcore : translateCore h oracle args = some (.ok st, log))
    (hrej : (validateHtmlStructure h (originalFingerprintHtml h args.html)
      (orElse (h.innerHTML st.body) (orElse args.html []))).ok = false) :
    translateHtmlPreserveMarkup h oracle args =
      .ok { translatedHtml := originalFingerprintHtml h args.html,
            translatedText := stripHtmlToText h (originalFingerprintHtml h args.html),
            validationIssues := some (validateHtmlStructure h (originalFingerprintHtml h args.html)
              (orElse (h.innerHTML st.body) (orElse args.html []))).issues } ∧
    (validateHtmlStructure h (originalFingerprintHtml h args.html)
      (orElse (h.innerHTML st.body) (orElse args.html []))).issues ≠ [] ∧
    originalFingerprintHtml h args.html =
      orElse (h.innerHTML (removeAllList ["script".toList, "style".toList]
        (h.parseBody (orElse args.html [])))) (orElse args.html []) := by
  refine ⟨?_, (validate_ok_eq_false_iff _ _ _).mp hrej, rfl⟩
  simp only [translateHtmlPreserveMarkup, hcore, hrej, Bool.false_eq_true, not_false_eq_true,
    ↓reduceIte]

/-- C3, witness of the amended claim: for `<p>Hi</p>` and the answer `["*__*"]` the
candidate is `<p>**</p>`, it is rejected, and `<p>Hi</p>` is returned. -/
theorem rejected_candidate_falls_back_witness :
    originalFingerprintHtml sampleHost "<p>Hi</p>".toList = "<p>Hi</p>".toList ∧
    sampleHost.innerHTML [htmlElement "p" [] [textNode "**"]] = "<p>**</p>".toList ∧
    translateHtmlPreserveMarkup sampleHost (fun _ _ => .ok "[\"*__*\"]".toList)
      { html := "<p>Hi</p>".toList, sourceLang := [], targetLang := [], glossary := [],
        previousContext := [] } =
      .ok { translatedHtml := "<p>Hi</p>".toList, translatedText := "Hi".toList,
            validationIssues := some ["markdown markers detected in html".toList] } :=
  ⟨rfl, rfl,
    (rejected_candidate_falls_back sampleHost (fun _ _ => .ok "[\"*__*\"]".toList)
      { html := "<p>Hi</p>".toList, sourceLang := [], targetLang := [], glossary := [],
        previousContext := [] }
      { body := [htmlElement "p" [] [textNode "**"]], ctx := toUtf16 "*__*".toList,
        log := [{ segments := ["Hi".toList], sourceLang := [], targetLang := [],
                  glossary := [], previousContext := [] }] }
      [{ segments := ["Hi".toList], sourceLang := [], targetLang := [], glossary := [],
         previousContext := [] }] rfl rfl).1⟩

/-- C6, counterexample. The provider returns the segment `a__b` unchanged; the text
written back is `ab`, and the fragment returned is `<p>ab</p>`, accepted by the check. -/
theorem echo_changes_text_with_markers :
    translateSegmentsAsJsonArray sampleHost (fun _ => .ok "[\"a__b\"]".toList)
      { segments := ["a__b".toList], sourceLang := [], targetLang := [], glossary := [],
        previousContext := [] } = .ok ["a__b".toList] ∧
    textContentList (cleanedBody sampleHost "<p>a__b</p>".toList) = "a__b".toList ∧
    translateHtmlPreserveMarkup sampleHost (fun _ _ => .ok "[\"a__b\"]".toList)
      { html := "<p>a__b</p>".toList, sourceLang := [], targetLang := [], glossary := [],
        previousContext := [] } =
      .ok { translatedHtml := "<p>ab</p>".toList, translatedText := "ab".toList,
            validationIssues := none } :=
  ⟨rfl, rfl, rfl⟩

/-- C6, amended. Let every translatable text node of the fragment hold a value that
`cleanModelText` keeps (no backtick, no `**`, no `__`, no NUL character left to remove),
and let every request be answered with its own segments. Then the loop ends without error
and the document after the write-back is the document before it, node for node; the
fragment returned is the original markup `originalFingerprintHtml`, or the fragment given
when it has no translatable text. -/
theorem echo_reinsertion_is_identity (h : Host) (oracle : Oracle) (args : TranslateArgs)
    (hclean : ∀ p ∈ collectTranslatableTextNodes (cleanedBody h args.html),
      cleanModelText (nodeValueAt (cleanedBody h args.html) p) =
        nodeValueAt (cleanedBody h args.html) p)
    (hecho : ∀ k req, (requestsMade h oracle args).get? k = some req →
      translateSegmentsAsJsonArray h (oracle k) req = .ok req.segments) :
    (∀ res, translateCore h oracle args = some res →
      ∃ st, res.1 = .ok st ∧ st.body = cleanedBody h args.html) ∧
    ∃ r, translateHtmlPreserveMarkup h oracle args = .ok r ∧
      r.translatedHtml =
        if collectTranslatableTextNodes (cleanedBody h args.html) = [] then args.html
        else originalFingerprintHtml h args.html := by
  have hloop : ∀ res, translateCore h oracle args = some res →
      ∃ st, res.1 = .ok st ∧ st.body = cleanedBody h args.html := by
    intro res hres
    have hlog : requestsMade h oracle args = res.2 := by
      simp [requestsMade, hres]
    unfold translateCore at hres
    simp only at hres
    split at hres
    · simp at hres
    · simp only [Option.some.injEq] at hres
      rw [← hres]
      apply translateBatches_echo h oracle args _ (cleanedBody h args.html)
      · intro p hp
        exact ⟨collected_is_text _ p hp, hclean p hp⟩
      · rfl
      · intro k req _ hget
        rw [hres, ← hlog] at hget
        exact hecho k req hget
  refine ⟨hloop, ?_⟩
  cases hcore : translateCore h oracle args with
  | none =>
    have hnil : collectTranslatableTextNodes (cleanedBody h args.html) = [] := by
      unfold translateCore at hcore
      simp only at hcore
      split at hcore
      · rename_i hlen
        exact List.length_eq_zero.mp hlen
      · simp at hcore
    refine ⟨{ translatedHtml := orElse args.html [],
              translatedText := stripHtmlToText h (orElse args.html []),
              validationIssues := none },
      by simp only [translateHtmlPreserveMarkup, hcore], ?_⟩
    simp only [hnil, ↓reduceIte, orElse_nil]
  | some res =>
    have hne : collectTranslatableTextNodes (cleanedBody h args.html) ≠ [] := by
      unfold translateCore at hcore
      simp only at hcore
      split at hcore
      · simp at hcore
      · rename_i hlen
        exact fun hnil => hlen (by rw [hnil]; rfl)
    obtain ⟨st, hst, hbody⟩ := hloop res hcore
    obtain ⟨outcome, log⟩ := res
    simp only at hst
    subst hst
    simp only [translateHtmlPreserveMarkup, hcore, hbody, hne, ↓reduceIte]
    split
    · exact ⟨_, rfl, rfl⟩
    · exact ⟨_, rfl, rfl⟩

/-- C6, witness of the amended claim: the fragment `<p>Hi</p>`, the provider answering
`["Hi"]`. -/
theorem echo_reinsertion_is_identity_witness :
    collectTranslatableTextNodes (cleanedBody sampleHost "<p>Hi</p>".toList) = [[0, 0]] ∧
    ∃ r, translateHtmlPreserveMarkup sampleHost (fun _ _ => .ok "[\"Hi\"]".toList)
        { html := "<p>Hi</p>".toList, sourceLang := [], targetLang := [], glossary := [],
          previousContext := [] } = .ok r ∧
      r.translatedHtml =
        if collectTranslatableTextNodes (cleanedBody sampleHost "<p>Hi</p>".toList) = [] then
          "<p>Hi</p>".toList
        else originalFingerprintHtml sampleHost "<p>Hi</p>".toList :=
  ⟨rfl, (echo_reinsertion_is_identity sampleHost (fun _ _ => .ok "[\"Hi\"]".toList)
    { html := "<p>Hi</p>".toList, sourceLang := [], targetLang := [], glossary := [],
      previousContext := [] } (by decide)
    (fun k req hk => by
      have hlog : requestsMade sampleHost (fun _ _ => .ok "[\"Hi\"]".toList)
          { html := "<p>Hi</p>".toList, sourceLang := [], targetLang := [], glossary := [],
            previousContext := [] } =
          [{ segments := ["Hi".toList], sourceLang := [], targetLang := [], glossary := [],
             previousContext := [] }] := rfl
      rw [hlog] at hk
      cases k with
      | zero =>
        simp only [List.get?_cons_zero, Option.some.injEq] at hk
        subst hk
        rfl
      | succ k => simp at hk)).2⟩

/-- C7. The text inside `<pre><span>x = 1</span></pre>` has a `pre` element among its
ancestors, its parent being the `span`; `collectTranslatableTextNodes` returns it and its
value is sent to the provider. -/
theorem text_nested_in_pre_is_collected :
    collectTranslatableTextNodes
      (cleanedBody sampleHost "<pre><span>x = 1</span></pre>".toList) = [[0, 0, 0]] ∧
    ancestorNames (cleanedBody sampleHost "<pre><span>x = 1</span></pre>".toList) [0, 0, 0] =
      ["PRE".toList, "SPAN".toList] ∧
    nodeValueAt (cleanedBody sampleHost "<pre><span>x = 1</span></pre>".toList) [0, 0, 0] =
      "x = 1".toList ∧
    (requestsMade sampleHost (fun _ _ => .ok "x = 1".toList)
      { html := "<pre><span>x = 1</span></pre>".toList, sourceLang := [], targetLang := [],
        glossary := [], previousContext := [] }).map Request.segments =
      [["x = 1".toList]] :=
  ⟨rfl, rfl, rfl, rfl⟩

/-- C8, counterexample. The output is the array `["Hallo"]` after the prose
`Result [1]: `. The text parsed runs from the first `[` of the prose to the last `]`, it
is no JSON, and the line fallback returns the whole output as the translation. -/
theorem prose_with_bracket_defeats_extraction :
    sampleHost.jsonParse "[\"Hallo\"]".toList = some (.array [.string "Hallo".toList]) ∧
    jsonStr "Result [1]: [\"Hallo\"]".toList = "[1]: [\"Hallo\"]".toList ∧
    translateSegmentsAsJsonArray sampleHost (fun _ => .ok "Result [1]: [\"Hallo\"]".toList)
      { segments := ["Hello".toList], sourceLang := [], targetLang := [], glossary := [],
        previousContext := [] } = .ok ["Result [1]: [\"Hallo\"]".toList] :=
  ⟨rfl, rfl, rfl⟩

/-- C8, amended. Let the output be a text `[...]` that `JSON.parse` reads as an array of
N strings, preceded by prose without `[` and followed by prose without `]`. Then the text
parsed is that array text (it runs from the first `[` to the last `]` of the output), and
`translateSegmentsAsJsonArray` called with N segments returns exactly the strings of the
array, in order. -/
theorem embedded_array_is_returned (h : Host) (callProvider : Request → Except Str Str)
    (req : Request) (front arr back : Str) (strings : List Str)
    (hout : callProvider req = .ok (front ++ ('[' :: arr ++ ']' :: back)))
    (hparse : h.jsonParse ('[' :: arr ++ [']']) = some (.array (strings.map .string)))
    (hfront : '[' ∉ front) (hback : ']' ∉ back)
    (hlen : strings.length = req.segments.length) :
    jsonStr (front ++ ('[' :: arr ++ ']' :: back)) = '[' :: arr ++ [']'] ∧
    translateSegmentsAsJsonArray h callProvider req = .ok strings := by
  have hjson : jsonStr (front ++ ('[' :: arr ++ ']' :: back)) = '[' :: arr ++ [']'] := by
    simp only [jsonStr, matchBracketed_embedded front arr back hfront hback]
  refine ⟨hjson, ?_⟩
  simp only [translateSegmentsAsJsonArray, hout, parseSegments, tryJsonArray, hjson, hparse,
    List.length_map, hlen, ↓reduceIte, mapToJsString_strings]

/-- C8, witness of the amended claim: the array `["Hallo"]` between `Here: ` and
` done`. -/
theorem embedded_array_is_returned_witness :
    translateSegmentsAsJsonArray sampleHost (fun _ => .ok "Here: [\"Hallo\"] done".toList)
      { segments := ["Hello".toList], sourceLang := [], targetLang := [], glossary := [],
        previousContext := [] } = .ok ["Hallo".toList] :=
  (embedded_array_is_returned sampleHost (fun _ => .ok "Here: [\"Hallo\"] done".toList)
    { segments := ["Hello".toList], sourceLang := [], targetLang := [], glossary := [],
      previousContext := [] } "Here: ".toList "\"Hallo\"".toList " done".toList
    ["Hallo".toList] rfl rfl (by decide) (by decide) rfl).2

/-! ## The text-length check -/

theorem take_two_of_mem_countCheck (o t : Fingerprint) (m : Str) (hm : m ∈ countCheck o t) :
    m.take 2 = ['t', 'a'] := by
  simp only [countCheck, List.mem_filterMap] at hm
  obtain ⟨tag, _, htag⟩ := hm
  split at htag
  · simp only [Option.some.injEq] at htag
    rw [← htag]
    rfl
  · simp at htag

theorem take_two_of_mem_blockCheck (o t : Fingerprint) (m : Str) (hm : m ∈ blockCheck o t) :
    m.take 2 = ['b', 'l'] := by
  unfold blockCheck at hm
  split at hm
  · simp only [List.mem_singleton] at hm
    rw [hm]
    rfl
  · split at hm
    · simp at hm
    · split at hm
      · simp only [List.mem_singleton] at hm
        rw [hm]
        rfl
      · simp only [List.mem_singleton] at hm
        rw [hm]
        rfl

theorem take_two_of_collapse_prefix (m : Str)
    (hm : "text length collapsed".toList <+: m) : m.take 2 = ['t', 'e'] := by
  obtain ⟨rest, hrest⟩ := hm
  rw [← hrest]
  rfl

/-- Among the issues of all checks, one starts with `text length collapsed` exactly when
the text-length check fails, and it is then the message of that check. -/
theorem collapse_mem_checkedIssues (o t : Fingerprint) (html : Str) (m : Str) :
    (m ∈ checkedIssues o t html ∧ "text length collapsed".toList <+: m) ↔
      ((o.textLen > 200 ∧ t.textLen < o.textLen / 2) ∧ m = textLengthMessage o t) := by
  constructor
  · rintro ⟨hmem, hpre⟩
    have htake := take_two_of_collapse_prefix m hpre
    have hlit : ∀ (c : Prop) [Decidable c] (msg : Str), msg.take 2 ≠ ['t', 'e'] →
        m ∉ issueIf c msg := by
      intro c _ msg hmsg hin
      rw [mem_issueIf] at hin
      rw [hin.2] at htake
      exact hmsg htake
    simp only [checkedIssues, List.mem_append] at hmem
    rcases hmem with (((((((((hc | h1) | h2) | h3) | h4) | h5) | hb) | h6) | h7) | h8) | h9
    · rw [take_two_of_mem_countCheck o t m hc] at htake
      exact absurd htake (by decide)
    · exact absurd h1 (hlit _ _ (by decide))
    · exact absurd h2 (hlit _ _ (by decide))
    · exact absurd h3 (hlit _ _ (by decide))
    · exact absurd h4 (hlit _ _ (by decide))
    · exact absurd h5 (hlit _ _ (by decide))
    · rw [take_two_of_mem_blockCheck o t m hb] at htake
      exact absurd htake (by decide)
    · exact absurd h6 (hlit _ _ (by decide))
    · exact absurd h7 (hlit _ _ (by decide))
    · rw [mem_issueIf] at h8
      exact ⟨h8.1, h8.2⟩
    · exact absurd h9 (hlit _ _ (by decide))
  · rintro ⟨hcond, hm⟩
    subst hm
    refine ⟨?_, ⟨": ".toList ++ natToStr o.textLen ++ " -> ".toList ++ natToStr t.textLen, ?_⟩⟩
    · simp only [checkedIssues, List.mem_append, mem_issueIf]
      exact Or.inl (Or.inr ⟨hcond, rfl⟩)
    · simp [textLengthMessage]

set_option maxRecDepth 100000 in
/-- C11, counterexample. The visible text of the original has the length 201 and that of
the candidate the length 100, which is below half of 201; `Math.floor(201 * 0.5)` is 100
and no issue is reported. -/
theorem collapse_just_below_half_unreported :
    (fingerprintHtml sampleHost
      ("<p>".toList ++ List.replicate 201 'a' ++ "</p>".toList)).textLen = 201 ∧
    (fingerprintHtml sampleHost
      ("<p>".toList ++ List.replicate 100 'b' ++ "</p>".toList)).textLen = 100 ∧
    2 * 100 < 201 ∧
    (validateHtmlStructure sampleHost
      ("<p>".toList ++ List.replicate 201 'a' ++ "</p>".toList)
      ("<p>".toList ++ List.replicate 100 'b' ++ "</p>".toList)).issues = [] := by
  decide

/-- C11, amended. With `o` and `t` the visible text lengths of the original and of the
candidate, counted in UTF-16 code units as `text.length` counts them: `validateHtmlStructure` reports an issue starting with
`text length collapsed` exactly when `o > 200` and `t < ⌊o / 2⌋`, that is
`2 * t + 1 < o`. So none is reported when `o ≤ 200` or when `t` is at least half of `o`,
and one is reported when `o > 200` and `t` is below half of `o`, except for odd `o` and
`t = (o - 1) / 2`. -/
theorem collapse_reported_iff (h : Host) (originalHtml translatedHtml : Str) :
    ((∃ m ∈ (validateHtmlStructure h originalHtml translatedHtml).issues,
        "text length collapsed".toList <+: m) ↔
      ((fingerprintHtml h originalHtml).textLen > 200 ∧
        2 * (fingerprintHtml h translatedHtml).textLen + 1 <
          (fingerprintHtml h originalHtml).textLen)) ∧
    (((fingerprintHtml h originalHtml).textLen ≤ 200 ∨
        (fingerprintHtml h originalHtml).textLen ≤
          2 * (fingerprintHtml h translatedHtml).textLen) →
      ¬ ∃ m ∈ (validateHtmlStructure h originalHtml translatedHtml).issues,
        "text length collapsed".toList <+: m) := by
  have hiff : (∃ m ∈ (validateHtmlStructure h originalHtml translatedHtml).issues,
        "text length collapsed".toList <+: m) ↔
      ((fingerprintHtml h originalHtml).textLen > 200 ∧
        2 * (fingerprintHtml h translatedHtml).textLen + 1 <
          (fingerprintHtml h originalHtml).textLen) := by
    rw [validate_issues_eq]
    constructor
    · rintro ⟨m, hm, hpre⟩
      have hc := ((collapse_mem_checkedIssues _ _ translatedHtml m).mp ⟨hm, hpre⟩).1
      omega
    · intro hc
      have hcond : (fingerprintHtml h originalHtml).textLen > 200 ∧
          (fingerprintHtml h translatedHtml).textLen <
            (fingerprintHtml h originalHtml).textLen / 2 := by omega
      have hmem := (collapse_mem_checkedIssues (fingerprintHtml h originalHtml)
        (fingerprintHtml h translatedHtml) translatedHtml _).mpr ⟨hcond, rfl⟩
      exact ⟨_, hmem.1, hmem.2⟩
  refine ⟨hiff, fun hno hex => ?_⟩
  have hc := hiff.mp hex
  omega

set_option maxRecDepth 1000000 in
/-- The text lengths are counted in UTF-16 code units: a paragraph of 101 characters
outside the Basic Multilingual Plane has the length 202, and its replacement by `b` is
reported as a collapse. -/
theorem collapse_counts_code_units :
    (validateHtmlStructure sampleHost
      ("<p>".toList ++ List.replicate 101 (Char.ofNat 0x1F600) ++ "</p>".toList)
      "<p>b</p>".toList).issues = ["text length collapsed: 202 -> 1".toList] := by
  decide

/-! ## `cleanModelText` -/

theorem removeDouble_sublist (c : Char) (s : Str) : (removeDouble c s).Sublist s := by
  induction s using removeDouble.induct c with
  | case1 => exact List.Sublist.refl _
  | case2 x => exact List.Sublist.refl _
  | case3 x y rest hxy ih =>
    simp only [removeDouble, hxy, and_self, ↓reduceIte]
    exact (ih.cons c).cons c
  | case4 x y rest hxy ih =>
    simp only [removeDouble, hxy, ↓reduceIte]
    exact ih.cons₂ x

theorem removeDouble_filter (c : Char) (keep : Char → Bool) (hc : keep c = false) (s : Str) :
    (removeDouble c s).filter keep = s.filter keep := by
  induction s using removeDouble.induct c with
  | case1 => rfl
  | case2 x => rfl
  | case3 x y rest hxy ih =>
    simp only [removeDouble, hxy, and_self, ↓reduceIte]
    rw [ih]
    simp [List.filter_cons, hc]
  | case4 x y rest hxy ih =>
    simp only [removeDouble, hxy, ↓reduceIte]
    rw [List.filter_cons, ih, ← List.filter_cons]

theorem filter_filter_of_imp (keep q : Char → Bool) (hq : ∀ c, keep c = true → q c = true)
    (l : Str) : (l.filter q).filter keep = l.filter keep := by
  induction l with
  | nil => rfl
  | cons x xs ih =>
    by_cases hk : keep x = true
    · simp [List.filter_cons, hq x hk, hk, ih]
    · by_cases hqx : q x = true
      · simp [List.filter_cons, hqx, hk, ih]
      · simp [List.filter_cons, hqx, hk, ih]

theorem cleanModelText_sublist (s : Str) : (cleanModelText s).Sublist s := by
  unfold cleanModelText
  exact (List.filter_sublist _).trans
    ((removeDouble_sublist '_' _).trans
      ((removeDouble_sublist '*' _).trans (List.filter_sublist _)))

/-- C12, counterexample. A NUL character, which is no markup punctuation, is deleted; and
`*__*` is turned into `**`: the `__` is removed after the search for `**` is over. -/
theorem clean_drops_nul_and_leaves_stars :
    cleanModelText ['a', Char.ofNat 0, 'b'] = "ab".toList ∧
    cleanModelText "*__*".toList = "**".toList := by
  decide

/-- C12, amended. `cleanModelText(s)` contains no backtick and no NUL character, and it is
`s` with characters deleted and none added or moved: it is a subsequence of `s`, and every
character of `s` other than a backtick, `*`, `_` and NUL is kept, in order. -/
theorem clean_deletes_markers_only (s : Str) :
    Char.ofNat 96 ∉ cleanModelText s ∧ Char.ofNat 0 ∉ cleanModelText s ∧
    (cleanModelText s).Sublist s ∧
    (cleanModelText s).filter (fun c => !isMarkerChar c) =
      s.filter (fun c => !isMarkerChar c) := by
  refine ⟨?_, ?_, cleanModelText_sublist s, ?_⟩
  · intro hmem
    have h1 : Char.ofNat 96 ∈ s.filter (· ≠ Char.ofNat 96) :=
      ((removeDouble_sublist '*' _).subset
        ((removeDouble_sublist '_' _).subset ((List.filter_sublist _).subset hmem)))
    simp at h1
  · intro hmem
    unfold cleanModelText at hmem
    simp at hmem
  · unfold cleanModelText
    rw [filter_filter_of_imp _ _ (fun c hc => by
        simp only [isMarkerChar, Bool.not_eq_true', Bool.or_eq_false_iff,
          decide_eq_false_iff_not] at hc
        simpa using hc.2),
      removeDouble_filter '_' _ (by decide), removeDouble_filter '*' _ (by decide),
      filter_filter_of_imp _ _ (fun c hc => by
        simp only [isMarkerChar, Bool.not_eq_true', Bool.or_eq_false_iff,
          decide_eq_false_iff_not] at hc
        simpa using hc.1.1.1)]

/-! ## The batches of the loop -/

theorem getElem?_set_other {α : Type} (l : List α) (i j : Nat) (x : α) (hij : i ≠ j) :
    (l.set i x)[j]? = l[j]? :=
  List.getElem?_set_ne hij

theorem getElem?_set_same {α : Type} (l : List α) (i : Nat) (x y : α) (hi : l[i]? = some y) :
    (l.set i x)[i]? = some x := by
  have hlt : i < l.length := by
    by_contra hge
    rw [List.getElem?_eq_none (by omega)] at hi
    cases hi
  exact List.getElem?_set_self hlt

theorem nodeAt_setNodeValue_other (v : Str) (p : Path) :
    ∀ (ns : List Node) (q : Path), p ≠ q →
      nodeValueAt (setNodeValue v ns p) q = nodeValueAt ns q := by
  induction p with
  | nil => intro ns q _; rfl
  | cons i rest ih =>
    intro ns q hpq
    cases rest with
    | nil =>
      simp only [setNodeValue]
      split
      · rename_i w hget
        rw [List.get?_eq_getElem?] at hget
        cases q with
        | nil => simp [nodeValueAt, nodeAt]
        | cons j qrest =>
          by_cases hij : i = j
          · subst hij
            cases qrest with
            | nil => exact absurd rfl hpq
            | cons k qrest =>
              simp only [nodeValueAt, nodeAt, List.get?_eq_getElem?,
                getElem?_set_same ns i _ _ hget, hget]
          · cases qrest with
            | nil =>
              simp only [nodeValueAt, nodeAt, List.get?_eq_getElem?,
                getElem?_set_other ns i j _ hij]
            | cons k qrest =>
              simp only [nodeValueAt, nodeAt, List.get?_eq_getElem?,
                getElem?_set_other ns i j _ hij]
      · rfl
    | cons i2 rest =>
      simp only [setNodeValue]
      split
      · rename_i l t a cs hget
        rw [List.get?_eq_getElem?] at hget
        cases q with
        | nil => simp [nodeValueAt, nodeAt]
        | cons j qrest =>
          by_cases hij : i = j
          · subst hij
            cases qrest with
            | nil =>
              simp only [nodeValueAt, nodeAt, List.get?_eq_getElem?,
                getElem?_set_same ns i _ _ hget, hget]
            | cons k qrest =>
              have hne : i2 :: rest ≠ k :: qrest := fun heq => hpq (by rw [heq])
              have := ih cs (k :: qrest) hne
              simp only [nodeValueAt, nodeAt, List.get?_eq_getElem?,
                getElem?_set_same ns i _ _ hget, hget] at this ⊢
              exact this
          · cases qrest with
            | nil =>
              simp only [nodeValueAt, nodeAt, List.get?_eq_getElem?,
                getElem?_set_other ns i j _ hij]
            | cons k qrest =>
              simp only [nodeValueAt, nodeAt, List.get?_eq_getElem?,
                getElem?_set_other ns i j _ hij]
      · rfl

mutual
theorem collectNode_nodup (pn : Str) : ∀ (n : Node), (collectNode pn n).Nodup
  | .text v => by
    simp only [collectNode]
    split <;> simp
  | .comment d => by simp [collectNode]
  | .element l t a cs => by
    simp only [collectNode]
    exact collectList_nodup t cs 0
theorem collectList_nodup (pn : Str) : ∀ (cs : List Node) (i : Nat),
    (collectList pn i cs).Nodup
  | [], i => by simp [collectList]
  | n :: ns, i => by
    simp only [collectList]
    rw [List.nodup_append]
    refine ⟨?_, collectList_nodup pn ns (i + 1), ?_⟩
    · exact (collectNode_nodup pn n).map (fun a b hab => by simpa using hab)
    · intro p hp1 hp2
      simp only [List.mem_map] at hp1
      obtain ⟨rest, _, hrest⟩ := hp1
      obtain ⟨k, rest2, hk, _⟩ := collectList_text pn ns (i + 1) p hp2
      rw [← hrest] at hk
      simp only [List.cons.injEq] at hk
      omega
end

theorem collected_nodup (body : List Node) : (collectTranslatableTextNodes body).Nodup :=
  collectList_nodup _ body 0

theorem fold_setNodeValue_other (q : Path) (batch : List Path) :
    ∀ (ts : List Str) (body : List Node), q ∉ batch →
      nodeValueAt ((batch.zip ts).foldl
        (fun b pt => setNodeValue (cleanModelText pt.2) b pt.1) body) q =
        nodeValueAt body q := by
  induction batch with
  | nil => intro ts body _; rfl
  | cons p ps ih =>
    intro ts body hq
    cases ts with
    | nil => rfl
    | cons t ts =>
      simp only [List.zip_cons_cons, List.foldl_cons]
      rw [ih ts _ (fun hmem => hq (List.mem_cons_of_mem p hmem))]
      exact nodeAt_setNodeValue_other _ p body q (fun hpq => hq (by rw [hpq]; simp))

theorem not_mem_take_of_mem_drop {α : Type} (l : List α) (hl : l.Nodup) (n : Nat) (x : α)
    (hx : x ∈ l.drop n) : x ∉ l.take n := by
  intro hx2
  have hnd : (l.take n ++ l.drop n).Nodup := by rw [List.take_append_drop]; exact hl
  exact (List.nodup_append.mp hnd).2.2 hx2 hx

/-- The request logged at position `k` is the request for the batch of index `k`: the
values, in the document before translation, of the text nodes `24 * k` to
`24 * k + 23`. -/
theorem translateBatches_requests (h : Host) (oracle : Oracle) (args : TranslateArgs)
    (textNodes : List Path) (doc : List Node) (hnd : textNodes.Nodup)
    (fuel i : Nat) (st : LoopState) (hi : i = BATCH_SIZE * st.log.length)
    (hval : ∀ q ∈ textNodes.drop i, nodeValueAt st.body q = nodeValueAt doc q)
    (k : Nat) (req : Request) (hk : st.log.length ≤ k)
    (hreq : (translateBatches h oracle args textNodes fuel i st).2.get? k = some req) :
    BATCH_SIZE * k < textNodes.length ∧
    req.segments = ((textNodes.drop (BATCH_SIZE * k)).take BATCH_SIZE).map (nodeValueAt doc) ∧
    req.sourceLang = args.sourceLang ∧ req.targetLang = args.targetLang ∧
    req.glossary = args.glossary := by
  induction fuel generalizing i st with
  | zero =>
    rw [translateBatches_zero] at hreq
    simp only at hreq
    rw [List.get?_eq_none.mpr hk] at hreq
    cases hreq
  | succ fuel ih =>
    by_cases hlt : i < textNodes.length
    · by_cases hkeq : k = st.log.length
      · subst hkeq
        rw [translateBatches_log_next h oracle args textNodes fuel i st hlt] at hreq
        simp only [Option.some.injEq] at hreq
        subst hreq
        refine ⟨by omega, ?_, rfl, rfl, rfl⟩
        rw [← hi]
        simp only [requestAt]
        apply List.map_congr_left
        intro q hq
        exact hval q (List.mem_of_mem_take hq)
      · cases hres : translateSegmentsAsJsonArray h (oracle st.log.length)
            (requestAt args textNodes i st) with
        | error e =>
          rw [translateBatches_error h oracle args textNodes fuel i st e hlt hres] at hreq
          simp only at hreq
          rw [List.get?_eq_none.mpr (by simp; omega)] at hreq
          cases hreq
        | ok translated =>
          rw [translateBatches_step h oracle args textNodes fuel i st translated hlt hres]
            at hreq
          refine ih (i + BATCH_SIZE) _ ?_ ?_ ?_ hreq
          · simp only [List.length_append, List.length_singleton]
            rw [hi, Nat.mul_add, Nat.mul_one]
          · intro q hq
            simp only
            have hq2 : q ∈ (textNodes.drop i).drop BATCH_SIZE := by
              rw [List.drop_drop]
              exact hq
            rw [fold_setNodeValue_other q _ _ _
              (not_mem_take_of_mem_drop _ (hnd.sublist (List.drop_sublist i textNodes)) _ q hq2)]
            exact hval q (List.mem_of_mem_drop hq2)
          · simp only [List.length_append, List.length_singleton]
            omega
    · rw [translateBatches_done h oracle args textNodes (fuel + 1) i st hlt] at hreq
      simp only at hreq
      rw [List.get?_eq_none.mpr hk] at hreq
      cases hreq

/-- The first request of a run carries the context the run starts with. -/
theorem translateBatches_first_context (h : Host) (oracle : Oracle) (args : TranslateArgs)
    (textNodes : List Path) (fuel i : Nat) (st : LoopState) (req : Request)
    (hreq : (translateBatches h oracle args textNodes fuel i st).2.get? st.log.length =
      some req) : req.previousContext = st.ctx := by
  cases fuel with
  | zero =>
    rw [translateBatches_zero] at hreq
    simp only at hreq
    rw [List.get?_eq_none.mpr (Nat.le_refl _)] at hreq
    cases hreq
  | succ fuel =>
    by_cases hlt : i < textNodes.length
    · rw [translateBatches_log_next h oracle args textNodes fuel i st hlt] at hreq
      simp only [Option.some.injEq] at hreq
      rw [← hreq]
      rfl
    · rw [translateBatches_done h oracle args textNodes (fuel + 1) i st hlt] at hreq
      simp only at hreq
      rw [List.get?_eq_none.mpr (Nat.le_refl _)] at hreq
      cases hreq

/-- A request is followed by another one only when it was answered with a usable list,
and the context of the next request is made of the first 200 code units of the last
string of that list. -/
theorem translateBatches_next_context (h : Host) (oracle : Oracle) (args : TranslateArgs)
    (textNodes : List Path) (fuel i : Nat) (st : LoopState) (k : Nat) (req req2 : Request)
    (hk : st.log.length ≤ k)
    (hreq : (translateBatches h oracle args textNodes fuel i st).2.get? k = some req)
    (hreq2 : (translateBatches h oracle args textNodes fuel i st).2.get? (k + 1) = some req2) :
    ∃ translated, translateSegmentsAsJsonArray h (oracle k) req = .ok translated ∧
      req2.previousContext = (toUtf16 (orElse (translated.getLastD []) [])).take 200 := by
  induction fuel generalizing i st with
  | zero =>
    rw [translateBatches_zero] at hreq
    simp only at hreq
    rw [List.get?_eq_none.mpr hk] at hreq
    cases hreq
  | succ fuel ih =>
    by_cases hlt : i < textNodes.length
    · cases hres : translateSegmentsAsJsonArray h (oracle st.log.length)
          (requestAt args textNodes i st) with
      | error e =>
        rw [translateBatches_error h oracle args textNodes fuel i st e hlt hres] at hreq2
        simp only at hreq2
        rw [List.get?_eq_none.mpr (by simp; omega)] at hreq2
        cases hreq2
      | ok translated =>
        by_cases hkeq : k = st.log.length
        · subst hkeq
          rw [translateBatches_log_next h oracle args textNodes fuel i st hlt] at hreq
          simp only [Option.some.injEq] at hreq
          subst hreq
          refine ⟨translated, hres, ?_⟩
          rw [translateBatches_step h oracle args textNodes fuel i st translated hlt hres]
            at hreq2
          have hctx := translateBatches_first_context h oracle args textNodes fuel
            (i + BATCH_SIZE)
            { body := (((textNodes.drop i).take BATCH_SIZE).zip translated).foldl
                (fun b pt => setNodeValue (cleanModelText pt.2) b pt.1) st.body,
              ctx := (toUtf16 (orElse (translated.getLastD []) [])).take 200,
              log := st.log ++ [requestAt args textNodes i st] } req2
            (by simpa using hreq2)
          exact hctx
        · rw [translateBatches_step h oracle args textNodes fuel i st translated hlt hres]
            at hreq hreq2
          exact ih (i + BATCH_SIZE) _ (by simp; omega) hreq hreq2
    · rw [translateBatches_done h oracle args textNodes (fuel + 1) i st hlt] at hreq
      simp only at hreq
      rw [List.get?_eq_none.mpr hk] at hreq
      cases hreq

/-- The number of requests: at most one per batch, and one per batch when the loop ends
without error. -/
theorem translateBatches_log_length (h : Host) (oracle : Oracle) (args : TranslateArgs)
    (textNodes : List Path) (fuel i : Nat) (st : LoopState)
    (hi : i = BATCH_SIZE * st.log.length) (hlow : i < textNodes.length + BATCH_SIZE)
    (hfuel : textNodes.length ≤ i + fuel) :
    (translateBatches h oracle args textNodes fuel i st).2.length ≤
      (textNodes.length + 23) / 24 ∧
    (∀ st2, (translateBatches h oracle args textNodes fuel i st).1 = .ok st2 →
      (translateBatches h oracle args textNodes fuel i st).2.length =
        (textNodes.length + 23) / 24) := by
  induction fuel generalizing i st with
  | zero =>
    rw [translateBatches_zero]
    simp only [BATCH_SIZE] at hi hlow
    constructor
    · simp only
      omega
    · intro _ _
      simp only
      omega
  | succ fuel ih =>
    by_cases hlt : i < textNodes.length
    · cases hres : translateSegmentsAsJsonArray h (oracle st.log.length)
          (requestAt args textNodes i st) with
      | error e =>
        rw [translateBatches_error h oracle args textNodes fuel i st e hlt hres]
        simp only [BATCH_SIZE] at hi hlow
        constructor
        · simp only [List.length_append, List.length_singleton]
          omega
        · intro st2 hst2
          cases hst2
      | ok translated =>
        rw [translateBatches_step h oracle args textNodes fuel i st translated hlt hres]
        apply ih
        · simp only [List.length_append, List.length_singleton]
          rw [hi, Nat.mul_add, Nat.mul_one]
        · omega
        · simp only [BATCH_SIZE]
          omega
    · rw [translateBatches_done h oracle args textNodes (fuel + 1) i st hlt]
      simp only [BATCH_SIZE] at hi hlow
      constructor
      · simp only
        omega
      · intro _ _
        simp only
        omega

/-- An error of the loop is the error of its last request, and no other request failed
before. -/
theorem translateBatches_error_source (h : Host) (oracle : Oracle) (args : TranslateArgs)
    (textNodes : List Path) (fuel i : Nat) (st : LoopState) (e : Str)
    (herr : (translateBatches h oracle args textNodes fuel i st).1 = .error e) :
    ∃ k req, st.log.length ≤ k ∧
      (translateBatches h oracle args textNodes fuel i st).2.get? k = some req ∧
      translateSegmentsAsJsonArray h (oracle k) req = .error e ∧
      (translateBatches h oracle args textNodes fuel i st).2.length = k + 1 := by
  induction fuel generalizing i st with
  | zero =>
    rw [translateBatches_zero] at herr
    cases herr
  | succ fuel ih =>
    by_cases hlt : i < textNodes.length
    · cases hres : translateSegmentsAsJsonArray h (oracle st.log.length)
          (requestAt args textNodes i st) with
      | error e2 =>
        rw [translateBatches_error h oracle args textNodes fuel i st e2 hlt hres] at herr ⊢
        simp only [Except.error.injEq] at herr
        subst herr
        exact ⟨st.log.length, requestAt args textNodes i st, Nat.le_refl _, by simp, hres,
          by simp⟩
      | ok translated =>
        rw [translateBatches_step h oracle args textNodes fuel i st translated hlt hres]
          at herr ⊢
        obtain ⟨k, req, hk, hget, hfail, hlen⟩ := ih (i + BATCH_SIZE) _ herr
        exact ⟨k, req, by simp at hk; omega, hget, hfail, hlen⟩
    · rw [translateBatches_done h oracle args textNodes (fuel + 1) i st hlt] at herr
      cases herr

theorem translateCore_eq (h : Host) (oracle : Oracle) (args : TranslateArgs)
    (res : Except Str LoopState × List Request) (hres : translateCore h oracle args = some res) :
    collectTranslatableTextNodes (cleanedBody h args.html) ≠ [] ∧
    res = translateBatches h oracle args (collectTranslatableTextNodes (cleanedBody h args.html))
      (collectTranslatableTextNodes (cleanedBody h args.html)).length 0
      { body := cleanedBody h args.html, ctx := args.previousContext, log := [] } := by
  unfold translateCore at hres
  simp only at hres
  split at hres
  · cases hres
  · rename_i hlen
    simp only [Option.some.injEq] at hres
    exact ⟨fun hnil => hlen (by rw [hnil]; rfl), hres.symm⟩

theorem translateCore_none (h : Host) (oracle : Oracle) (args : TranslateArgs)
    (hres : translateCore h oracle args = none) :
    collectTranslatableTextNodes (cleanedBody h args.html) = [] := by
  unfold translateCore at hres
  simp only at hres
  split at hres
  · rename_i hlen
    exact List.length_eq_zero.mp hlen
  · cases hres

theorem translate_ok_iff (h : Host) (oracle : Oracle) (args : TranslateArgs) :
    (∃ r, translateHtmlPreserveMarkup h oracle args = .ok r) ↔
      ∀ res, translateCore h oracle args = some res → ∃ st, res.1 = .ok st := by
  unfold translateHtmlPreserveMarkup
  cases hcore : translateCore h oracle args with
  | none => simp
  | some res =>
    obtain ⟨outcome, log⟩ := res
    cases outcome with
    | error e => simp
    | ok st =>
      simp only [Option.some.injEq, forall_eq', Except.ok.injEq, exists_eq', iff_true]
      split <;> exact ⟨_, rfl⟩

theorem translate_error_iff (h : Host) (oracle : Oracle) (args : TranslateArgs) (e : Str) :
    translateHtmlPreserveMarkup h oracle args = .error e ↔
      ∃ res, translateCore h oracle args = some res ∧ res.1 = .error e := by
  unfold translateHtmlPreserveMarkup
  cases hcore : translateCore h oracle args with
  | none => simp
  | some res =>
    obtain ⟨outcome, log⟩ := res
    cases outcome with
    | error e2 => simp
    | ok st =>
      simp only [Option.some.injEq, exists_eq_left', reduceCtorEq, iff_false]
      split <;> simp

/-! ## Theorems on the batches -/

/-- C13. With N the number of translatable text nodes, in document order: the request of
index `k` is the request for the batch of index `k`, whose segments are the values of the
nodes `24 * k` to `24 * k + 23` (fewer in the last batch only), and it is sent only after
the request before it was answered with a usable list. There are at most `⌈N / 24⌉`
requests, exactly that many when the call returns, and the call returns when every
request is answered with a usable list. A request that fails is the last one, and the
call fails with its error. -/
theorem batches_requested_in_order (h : Host) (oracle : Oracle) (args : TranslateArgs) :
    (∀ k req, (requestsMade h oracle args).get? k = some req →
      BATCH_SIZE * k < (collectTranslatableTextNodes (cleanedBody h args.html)).length ∧
      req.segments =
        (((collectTranslatableTextNodes (cleanedBody h args.html)).drop (BATCH_SIZE * k)).take
          BATCH_SIZE).map (nodeValueAt (cleanedBody h args.html)) ∧
      ∀ req2, (requestsMade h oracle args).get? (k + 1) = some req2 →
        ∃ translated, translateSegmentsAsJsonArray h (oracle k) req = .ok translated) ∧
    (requestsMade h oracle args).length ≤
      ((collectTranslatableTextNodes (cleanedBody h args.html)).length + 23) / 24 ∧
    ((∃ r, translateHtmlPreserveMarkup h oracle args = .ok r) →
      (requestsMade h oracle args).length =
        ((collectTranslatableTextNodes (cleanedBody h args.html)).length + 23) / 24) ∧
    ((∀ k req, (requestsMade h oracle args).get? k = some req →
        ∃ translated, translateSegmentsAsJsonArray h (oracle k) req = .ok translated) →
      ∃ r, translateHtmlPreserveMarkup h oracle args = .ok r) ∧
    (∀ k req e, (requestsMade h oracle args).get? k = some req →
      translateSegmentsAsJsonArray h (oracle k) req = .error e →
      translateHtmlPreserveMarkup h oracle args = .error e ∧
      (requestsMade h oracle args).length = k + 1) := by
  cases hcore : translateCore h oracle args with
  | none =>
    have hnil := translateCore_none h oracle args hcore
    have hlog : requestsMade h oracle args = [] := by simp [requestsMade, hcore]
    have hok : ∃ r, translateHtmlPreserveMarkup h oracle args = .ok r :=
      (translate_ok_iff h oracle args).mpr (fun res hres => by rw [hcore] at hres; cases hres)
    rw [hlog, hnil]
    refine ⟨fun k req hk => by simp at hk, by simp, fun _ => by simp, fun _ => hok,
      fun k req e hk => by simp at hk⟩
  | some res =>
    obtain ⟨hne, hrun⟩ := translateCore_eq h oracle args res hcore
    have hlog : requestsMade h oracle args = res.2 := by simp [requestsMade, hcore]
    rw [hlog]
    have hnd := collected_nodup (cleanedBody h args.html)
    have hlen := translateBatches_log_length h oracle args
      (collectTranslatableTextNodes (cleanedBody h args.html))
      (collectTranslatableTextNodes (cleanedBody h args.html)).length 0
      { body := cleanedBody h args.html, ctx := args.previousContext, log := [] } rfl
      (by simp only [BATCH_SIZE]; omega) (by omega)
    rw [← hrun] at hlen
    refine ⟨?_, hlen.1, ?_, ?_, ?_⟩
    · intro k req hk
      rw [hrun] at hk
      have hreq := translateBatches_requests h oracle args _ (cleanedBody h args.html) hnd
        (collectTranslatableTextNodes (cleanedBody h args.html)).length 0
        { body := cleanedBody h args.html, ctx := args.previousContext, log := [] } rfl
        (fun q _ => rfl) k req (Nat.zero_le _) hk
      refine ⟨hreq.1, hreq.2.1, fun req2 hk2 => ?_⟩
      rw [hrun] at hk2
      obtain ⟨translated, hok, _⟩ := translateBatches_next_context h oracle args _ _ 0 _ k
        req req2 (Nat.zero_le _) hk hk2
      exact ⟨translated, hok⟩
    · intro hok
      obtain ⟨st, hst⟩ := (translate_ok_iff h oracle args).mp hok res hcore
      exact hlen.2 st hst
    · intro hall
      apply (translate_ok_iff h oracle args).mpr
      intro res2 hres2
      rw [hcore] at hres2
      simp only [Option.some.injEq] at hres2
      subst hres2
      cases hout : res.1 with
      | ok st => exact ⟨st, rfl⟩
      | error e =>
        rw [hrun] at hout
        obtain ⟨k, req, _, hget, hfail, _⟩ := translateBatches_error_source h oracle args _ _
          0 _ e hout
        rw [← hrun] at hget
        obtain ⟨translated, hok⟩ := hall k req hget
        rw [hok] at hfail
        cases hfail
    · intro k req e hk hfail
      have hk2 := hk
      rw [hrun] at hk2
      have herr := translateBatches_fails h oracle args _ _ 0 _ k req e (Nat.zero_le _) hk2
        hfail
      rw [← hrun] at herr
      refine ⟨(translate_error_iff h oracle args e).mpr ⟨res, hcore, herr⟩, ?_⟩
      have hge : k < res.2.length := by
        by_contra hlt
        rw [List.get?_eq_none.mpr (by omega)] at hk
        cases hk
      have hle : res.2.length ≤ k + 1 := by
        by_contra hgt
        have hlt : k + 1 < res.2.length := by omega
        obtain ⟨req2, hget2⟩ : ∃ req2, res.2.get? (k + 1) = some req2 :=
          ⟨_, List.get?_eq_get hlt⟩
        rw [hrun] at hget2
        obtain ⟨translated, hok, _⟩ := translateBatches_next_context h oracle args _ _ 0 _ k
          req req2 (Nat.zero_le _) hk2 hget2
        rw [hok] at hfail
        cases hfail
      omega

set_option maxRecDepth 1000000 in
/-- C14, counterexample. The fragment has 25 paragraphs. The last string of the first
batch is 200 `a` followed by one `b`; the context of the second request is its first 200
code units, 200 `a` (code unit 97), and not its last 200 code units. -/
theorem digest_is_not_the_tail :
    (fallbackLines sampleLongAnswer).getLast? = some (List.replicate 200 'a' ++ ['b']) ∧
    (requestsMade sampleHost sampleLongOracle
      (plainArgs (List.replicate 25 "<p>x</p>".toList).flatten)).map Request.previousContext =
      [[], toUtf16 (List.replicate 200 'a')] ∧
    toUtf16 ((List.replicate 200 'a' ++ ['b']).drop 1) ≠ toUtf16 (List.replicate 200 'a') := by
  decide

/-- C14, amended. The context passed to the request of batch `k + 1` is made of the first
200 UTF-16 code units of the last string that `translateSegmentsAsJsonArray` returned for
batch `k` (the whole string when its length is at most 200, the empty string when there
is none); its length is at most 200. -/
theorem next_digest_is_head_of_last (h : Host) (oracle : Oracle) (args : TranslateArgs)
    (k : Nat) (req req2 : Request)
    (hreq : (requestsMade h oracle args).get? k = some req)
    (hreq2 : (requestsMade h oracle args).get? (k + 1) = some req2) :
    ∃ translated, translateSegmentsAsJsonArray h (oracle k) req = .ok translated ∧
      req2.previousContext = (toUtf16 (orElse (translated.getLastD []) [])).take 200 ∧
      req2.previousContext.length ≤ 200 := by
  cases hcore : translateCore h oracle args with
  | none =>
    have hlog : requestsMade h oracle args = [] := by simp [requestsMade, hcore]
    rw [hlog] at hreq
    simp at hreq
  | some res =>
    obtain ⟨_, hrun⟩ := translateCore_eq h oracle args res hcore
    have hlog : requestsMade h oracle args = res.2 := by simp [requestsMade, hcore]
    rw [hlog, hrun] at hreq hreq2
    obtain ⟨translated, hok, hctx⟩ := translateBatches_next_context h oracle args _ _ 0 _ k
      req req2 (Nat.zero_le _) hreq hreq2
    refine ⟨translated, hok, hctx, ?_⟩
    rw [hctx, List.length_take]
    omega

set_option maxRecDepth 1000000 in
/-- C14, witness of the amended claim: the two requests for the fragment of 25
paragraphs. -/
theorem next_digest_is_head_of_last_witness :
    ∃ translated, translateSegmentsAsJsonArray sampleHost (sampleLongOracle 0)
        { segments := List.replicate 24 "x".toList, sourceLang := [], targetLang := [],
          glossary := [], previousContext := [] } = .ok translated ∧
      List.replicate 200 97 = (toUtf16 (orElse (translated.getLastD []) [])).take 200 ∧
      (List.replicate 200 97).length ≤ 200 :=
  next_digest_is_head_of_last sampleHost sampleLongOracle
    (plainArgs (List.replicate 25 "<p>x</p>".toList).flatten) 0
    { segments := List.replicate 24 "x".toList, sourceLang := [], targetLang := [],
      glossary := [], previousContext := [] }
    { segments := ["x".toList], sourceLang := [], targetLang := [], glossary := [],
      previousContext := List.replicate 200 97 }
    (by decide) (by decide)

set_option maxRecDepth 1000000 in
/-- The cut of the context is made at a code unit: of 150 characters outside the Basic
Multilingual Plane the first 100 are kept, and a character that starts at index 199 is
cut in two, which leaves the first half of its surrogate pair. -/
theorem digest_cuts_code_units :
    (toUtf16 (List.replicate 150 (Char.ofNat 0x1F600))).take 200 =
        (List.replicate 100 [0xD83D, 0xDE00]).flatten ∧
      (toUtf16 (List.replicate 199 'a' ++ [Char.ofNat 0x1F600])).take 200 =
        List.replicate 199 97 ++ [0xD83D] := by
  decide

/-! ## Fragments of plain paragraphs -/

theorem removeAllList_paragraphs (tags : List Str) (htags : tags.contains "p".toList = false)
    (xs : List Str) : removeAllList tags (paragraphs xs) = paragraphs xs := by
  induction xs with
  | nil => rfl
  | cons x xs ih =>
    have ih2 : removeAllList tags (paragraphs xs) = paragraphs xs := ih
    simp only [paragraphs, List.map_cons, removeAllList, Node.removeAll] at ih2 ⊢
    simp only [htags, Bool.false_eq_true, ↓reduceIte, removeAllList, Node.removeAll, ih2]

theorem descendants_paragraphs (xs : List Str) : descendants (paragraphs xs) = paragraphs xs := by
  induction xs with
  | nil => rfl
  | cons x xs ih =>
    have ih2 : descendants (paragraphs xs) = paragraphs xs := ih
    simp only [paragraphs, List.map_cons] at ih2 ⊢
    simp only [descendants, Node.selfAndDescendants, List.append_nil, List.cons_append,
      List.nil_append, ih2]

theorem filter_paragraphs (tags : List Str) (xs : List Str) :
    (paragraphs xs).filter (Node.matchesAny tags) =
      if tags.contains "p".toList then paragraphs xs else [] := by
  induction xs with
  | nil => simp [paragraphs]
  | cons x xs ih =>
    have ih2 : (paragraphs xs).filter (Node.matchesAny tags) =
      if tags.contains "p".toList then paragraphs xs else [] := ih
    by_cases hc : tags.contains "p".toList = true
    · simp only [hc, ↓reduceIte] at ih2 ⊢
      simp only [paragraphs, List.map_cons] at ih2 ⊢
      simp only [List.filter_cons, Node.matchesAny, hc, ↓reduceIte, ih2]
    · simp only [hc, Bool.false_eq_true, ↓reduceIte] at ih2 ⊢
      simp only [paragraphs, List.map_cons] at ih2 ⊢
      simp only [List.filter_cons, Node.matchesAny, hc, Bool.false_eq_true, ↓reduceIte, ih2]

theorem querySelectorAll_paragraphs (tags : List Str) (xs : List Str) :
    querySelectorAll tags (paragraphs xs) =
      if tags.contains "p".toList then paragraphs xs else [] := by
  rw [querySelectorAll, descendants_paragraphs, filter_paragraphs]

theorem length_paragraphs (xs : List Str) : (paragraphs xs).length = xs.length := by
  simp [paragraphs]

theorem collectList_paragraphs (pn : Str) (xs : List Str) (hxs : ∀ t ∈ xs, trim t ≠ [])
    (i : Nat) :
    collectList pn i (paragraphs xs) = (List.range' i xs.length).map fun j => [j, 0] := by
  induction xs generalizing i with
  | nil => rfl
  | cons x xs ih =>
    have hx : trim x ≠ [] := hxs x (List.mem_cons_self x xs)
    have hacc : acceptNode "P".toList x = true := by
      unfold acceptNode
      rw [if_neg (by decide), if_neg hx]
    have ih2 := ih (fun t ht => hxs t (List.mem_cons_of_mem x ht)) (i + 1)
    simp only [paragraphs, List.map_cons] at ih2 ⊢
    simp only [collectList, collectNode, hacc, ↓reduceIte, List.map_cons, List.map_nil,
      List.append_nil, List.singleton_append, ih2, List.length_cons, List.range'_succ]

theorem bodyElementSequence_paragraphs (h : Host) (xs : List Str) :
    bodyElementSequence h (paragraphs xs) = List.replicate xs.length (h.toLowerCase "P".toList) := by
  induction xs with
  | nil => rfl
  | cons x xs ih =>
    have ih2 : bodyElementSequence h (paragraphs xs) =
      List.replicate xs.length (h.toLowerCase "P".toList) := ih
    simp only [paragraphs, List.map_cons] at ih2 ⊢
    simp only [bodyElementSequence, ih2, List.length_cons, List.replicate_succ]

theorem map_blockSig_paragraphs (h : Host) (xs : List Str) :
    (paragraphs xs).map (fun el =>
      ({ tag := h.toLowerCase el.tagName, inline := inlineSignature h el } : BlockSig)) =
      List.replicate xs.length { tag := h.toLowerCase "P".toList, inline := [] } := by
  induction xs with
  | nil => rfl
  | cons x xs ih =>
    have ih2 : (paragraphs xs).map (fun el =>
      ({ tag := h.toLowerCase el.tagName, inline := inlineSignature h el } : BlockSig)) =
      List.replicate xs.length { tag := h.toLowerCase "P".toList, inline := [] } := ih
    simp only [paragraphs, List.map_cons] at ih2 ⊢
    rw [ih2]
    rfl

/-- The fingerprint of a fragment of plain paragraphs: but for the text length, it depends
on the number of paragraphs only. -/
theorem fingerprint_paragraphs (h : Host) (html : Str) (xs : List Str)
    (hparse : parseHtml h html = paragraphs xs) :
    fingerprintHtml h html =
      { counts := TAGS_TO_COUNT.map fun tag =>
          (tag, (if [tag].contains "p".toList then paragraphs xs else []).length)
        imgSrc := []
        linkHref := []
        listItemCounts := []
        hasHeading := false
        bodySeq := List.replicate xs.length (h.toLowerCase "P".toList)
        blocks := List.replicate xs.length { tag := h.toLowerCase "P".toList, inline := [] }
        listShapes := []
        tableShapes := []
        textLen := totalTextLength (paragraphs xs) } := by
  have hdoc : removeNonContent (parseHtml h html) = paragraphs xs := by
    rw [hparse]
    exact removeAllList_paragraphs _ (by decide) xs
  have himg : querySelectorAll ["img".toList] (paragraphs xs) = [] := by
    rw [querySelectorAll_paragraphs, if_neg (by decide)]
  have ha : querySelectorAll ["a".toList] (paragraphs xs) = [] := by
    rw [querySelectorAll_paragraphs, if_neg (by decide)]
  have hlist : querySelectorAll ["ul".toList, "ol".toList] (paragraphs xs) = [] := by
    rw [querySelectorAll_paragraphs, if_neg (by decide)]
  have hhead : querySelectorAll HEADING_SELECTOR (paragraphs xs) = [] := by
    rw [querySelectorAll_paragraphs, if_neg (by decide)]
  have htable : querySelectorAll ["table".toList] (paragraphs xs) = [] := by
    rw [querySelectorAll_paragraphs, if_neg (by decide)]
  have hblock : querySelectorAll BLOCK_SELECTOR (paragraphs xs) = paragraphs xs := by
    rw [querySelectorAll_paragraphs, if_pos (by decide)]
  simp only [fingerprintHtml, hdoc, himg, ha, hlist, hhead, htable, List.map_nil,
    List.length_nil, gt_iff_lt, Nat.lt_irrefl, decide_False, listShapes, tableShapes,
    blockSignatures, hblock, map_blockSig_paragraphs, bodyElementSequence_paragraphs,
    querySelectorAll_paragraphs]

theorem zip_take_drop {α β : Type} (a : List α) (b : List β) (n : Nat)
    (hab : a.length = b.length) :
    a.zip b = (a.take n).zip (b.take n) ++ (a.drop n).zip (b.drop n) := by
  have hlen : (a.take n).length = (b.take n).length := by
    simp only [List.length_take, hab]
  rw [← List.zip_append hlen, List.take_append_drop, List.take_append_drop]

/-- When the request of each batch is answered with the strings of `ts` for that batch,
the loop ends without error, and the document it ends with is the one it started from
with the cleaned strings of `ts` written, in order, to the text nodes. -/
theorem translateBatches_result (h : Host) (oracle : Oracle) (args : TranslateArgs)
    (textNodes : List Path) (ts : List Str) (hts : ts.length = textNodes.length)
    (fuel i : Nat) (st : LoopState) (hi : i = BATCH_SIZE * st.log.length)
    (hfuel : textNodes.length ≤ i + fuel)
    (hans : ∀ k req, st.log.length ≤ k →
      (translateBatches h oracle args textNodes fuel i st).2.get? k = some req →
      translateSegmentsAsJsonArray h (oracle k) req =
        .ok ((ts.drop (BATCH_SIZE * k)).take BATCH_SIZE)) :
    ∃ st2, (translateBatches h oracle args textNodes fuel i st).1 = .ok st2 ∧
      st2.body = ((textNodes.drop i).zip (ts.drop i)).foldl
        (fun b pt => setNodeValue (cleanModelText pt.2) b pt.1) st.body := by
  induction fuel generalizing i st with
  | zero =>
    refine ⟨st, rfl, ?_⟩
    rw [List.drop_eq_nil_of_le (by omega)]
    rfl
  | succ fuel ih =>
    by_cases hlt : i < textNodes.length
    · have hnext := translateBatches_log_next h oracle args textNodes fuel i st hlt
      have hok := hans st.log.length _ (Nat.le_refl _) hnext
      rw [← hi] at hok
      have hstep := translateBatches_step h oracle args textNodes fuel i st _ hlt hok
      rw [hstep] at hans ⊢
      obtain ⟨st2, hst2, hbody⟩ := ih (i + BATCH_SIZE) _
        (by simp only [List.length_append, List.length_singleton]
            rw [hi, Nat.mul_add, Nat.mul_one])
        (by simp only [BATCH_SIZE]; omega)
        (fun k req hk hget => hans k req (by simp at hk; omega) hget)
      refine ⟨st2, hst2, ?_⟩
      rw [hbody]
      simp only
      rw [zip_take_drop (textNodes.drop i) (ts.drop i) BATCH_SIZE
        (by simp only [List.length_drop, hts]), List.foldl_append, List.drop_drop,
        List.drop_drop]
    · rw [translateBatches_done h oracle args textNodes (fuel + 1) i st hlt]
      refine ⟨st, rfl, ?_⟩
      rw [List.drop_eq_nil_of_le (by omega)]
      rfl

theorem get?_append_length {α : Type} (l : List α) (a : α) (r : List α) :
    (l ++ a :: r).get? l.length = some a := by
  induction l with
  | nil => rfl
  | cons y ys ih => simpa using ih

theorem set_append_length {α : Type} (l : List α) (a b : α) (r : List α) :
    (l ++ a :: r).set l.length b = l ++ b :: r := by
  induction l with
  | nil => rfl
  | cons y ys ih => simp [ih]

theorem setNodeValue_paragraphs (v : Str) (done : List Str) (x : Str) (rest : List Str) :
    setNodeValue v (paragraphs (done ++ x :: rest)) [done.length, 0] =
      paragraphs (done ++ v :: rest) := by
  have hlen : (paragraphs done).length = done.length := length_paragraphs done
  have hsplit : ∀ y, paragraphs (done ++ y :: rest) =
      paragraphs done ++ Node.element "p".toList "P".toList [] [.text y] :: paragraphs rest := by
    intro y
    simp [paragraphs]
  have hget : (paragraphs (done ++ x :: rest)).get? done.length =
      some (Node.element "p".toList "P".toList [] [.text x]) := by
    rw [hsplit, ← hlen]
    exact get?_append_length _ _ _
  simp only [setNodeValue, hget]
  rw [hsplit x, hsplit v, ← hlen]
  exact set_append_length _ _ _ _

theorem fold_paragraphs (rest : List Str) :
    ∀ (done ts : List Str), ts.length = rest.length →
      (((List.range' done.length rest.length).map fun j => [j, 0]).zip ts).foldl
        (fun b pt => setNodeValue (cleanModelText pt.2) b pt.1) (paragraphs (done ++ rest)) =
        paragraphs (done ++ ts.map cleanModelText) := by
  induction rest with
  | nil =>
    intro done ts hts
    have hnil : ts = [] := List.length_eq_zero.mp hts
    subst hnil
    rfl
  | cons x rest ih =>
    intro done ts hts
    cases ts with
    | nil => simp at hts
    | cons t ts =>
      simp only [List.length_cons, Nat.add_right_cancel_iff] at hts
      simp only [List.length_cons, List.range'_succ, List.map_cons, List.zip_cons_cons,
        List.foldl_cons]
      rw [setNodeValue_paragraphs]
      have hstep := ih (done ++ [cleanModelText t]) ts hts
      simp only [List.length_append, List.length_singleton, List.append_assoc,
        List.singleton_append] at hstep
      rw [hstep]

/-- Fingerprints that agree on everything but the text length give no issue, when the
text length has not collapsed and the candidate has no marker. -/
theorem checkedIssues_eq_nil (o t : Fingerprint) (html : Str)
    (hcounts : o.counts = t.counts) (himg : o.imgSrc = t.imgSrc)
    (hlink : o.linkHref = t.linkHref) (hitems : o.listItemCounts = t.listItemCounts)
    (hhead : o.hasHeading = t.hasHeading) (hseq : o.bodySeq = t.bodySeq)
    (hblocks : o.blocks = t.blocks) (hlists : o.listShapes = t.listShapes)
    (htables : o.tableShapes = t.tableShapes)
    (hlen : ¬ (o.textLen > 200 ∧ t.textLen < o.textLen / 2))
    (h1 : includes html "**".toList = false) (h2 : includes html "__".toList = false)
    (h3 : includes html "```".toList = false) : checkedIssues o t html = [] := by
  have hcount : countCheck o t = [] := by simp [countCheck, hcounts]
  have hblock : blockCheck o t = [] := by
    simp [blockCheck, hblocks, firstBlockDifference_self]
  have hheading : ¬ (o.hasHeading = true ∧ t.hasHeading = false) := by
    rw [hhead]
    cases t.hasHeading <;> simp
  simp only [checkedIssues, hcount, hblock, hlen, hheading, issueIf, himg, hlink, hitems,
    hseq, hlists, htables, h1, h2, h3, ne_eq, not_true_eq_false, ↓reduceIte,
    Bool.false_eq_true, or_self, List.append_nil]

/-- A candidate of plain paragraphs is accepted against an original of as many plain
paragraphs, when the text length has not collapsed and the candidate has no marker. -/
theorem validate_paragraphs (h : Host) (originalHtml translatedHtml : Str) (xs ys : List Str)
    (hpo : parseHtml h originalHtml = paragraphs xs)
    (hpt : parseHtml h translatedHtml = paragraphs ys) (hxy : ys.length = xs.length)
    (hlen : ¬ (totalTextLength (paragraphs xs) > 200 ∧
      totalTextLength (paragraphs ys) < totalTextLength (paragraphs xs) / 2))
    (h1 : includes translatedHtml "**".toList = false)
    (h2 : includes translatedHtml "__".toList = false)
    (h3 : includes translatedHtml "```".toList = false) :
    (validateHtmlStructure h originalHtml translatedHtml).issues = [] := by
  rw [validate_issues_eq, fingerprint_paragraphs h originalHtml xs hpo,
    fingerprint_paragraphs h translatedHtml ys hpt]
  apply checkedIssues_eq_nil
  · simp only [length_paragraphs, hxy, apply_ite List.length, List.length_nil]
  · rfl
  · rfl
  · rfl
  · rfl
  · simp only [hxy]
  · simp only [hxy]
  · rfl
  · rfl
  · exact hlen
  · exact h1
  · exact h2
  · exact h3

/-! ## Theorems on fragments of plain paragraphs -/

set_option maxRecDepth 1000000 in
/-- C15, counterexample. The fragment is one plain paragraph of 201 characters and the
provider returns the JSON array `["b"]`, one markup-free string for the one segment. The
candidate is rejected for text-length collapse and the original paragraph is returned. -/
theorem short_translation_of_long_paragraph_rejected :
    (translateHtmlPreserveMarkup sampleHost (fun _ _ => .ok "[\"b\"]".toList)
      (plainArgs ("<p>".toList ++ List.replicate 201 'a' ++ "</p>".toList))).toOption =
      some { translatedHtml := "<p>".toList ++ List.replicate 201 'a' ++ "</p>".toList,
             translatedText := List.replicate 201 'a',
             validationIssues := some ["text length collapsed: 201 -> 1".toList] } := by
  decide

/-- C15, amended. Let the fragment be the serialisation of one or more plain paragraphs
with non-blank texts, and let the request of each batch be answered with the strings of
`ts` for that batch, `ts` having one string per paragraph, each kept by `cleanModelText`.
Let `cand` be the serialisation of the paragraphs with the texts `ts`, a non-empty string
without `**`, `__` and triple backtick that parses back to these paragraphs. If moreover
the visible text length, in UTF-16 code units, has not collapsed (it is not the case that
that of the original is above 200 and that of the candidate below the integer part of
half of it), then
`translateHtmlPreserveMarkup` returns `cand`, the same paragraphs with each text replaced
by the string at its position, without validation issues, and `validateHtmlStructure`
accepts it. -/
theorem paragraphs_translated_and_accepted (h : Host) (oracle : Oracle) (args : TranslateArgs)
    (texts ts : List Str) (cand : Str)
    (hne : texts ≠ []) (hblank : ∀ t ∈ texts, trim t ≠ [])
    (hparse : h.parseBody args.html = paragraphs texts)
    (hhtml : h.innerHTML (paragraphs texts) = args.html)
    (hlen : ts.length = texts.length)
    (hans : ∀ k req, (requestsMade h oracle args).get? k = some req →
      translateSegmentsAsJsonArray h (oracle k) req =
        .ok ((ts.drop (BATCH_SIZE * k)).take BATCH_SIZE))
    (hclean : ∀ t ∈ ts, cleanModelText t = t)
    (hcand : h.innerHTML (paragraphs ts) = cand) (hcandne : cand ≠ [])
    (hcandparse : h.parseBody cand = paragraphs ts)
    (h1 : includes cand "**".toList = false) (h2 : includes cand "__".toList = false)
    (h3 : includes cand "```".toList = false)
    (htext : ¬ (totalTextLength (paragraphs texts) > 200 ∧
      totalTextLength (paragraphs ts) < totalTextLength (paragraphs texts) / 2)) :
    translateHtmlPreserveMarkup h oracle args =
      .ok { translatedHtml := cand,
            translatedText := trim (textContentList (paragraphs ts)),
            validationIssues := none } ∧
    (validateHtmlStructure h args.html cand).ok = true := by
  have hbody : cleanedBody h args.html = paragraphs texts := by
    rw [cleanedBody, orElse_nil, hparse]
    exact removeAllList_paragraphs _ (by decide) texts
  have horig : originalFingerprintHtml h args.html = args.html := by
    rw [originalFingerprintHtml, hbody, hhtml, orElse_nil]
    unfold orElse
    split <;> rfl
  have hnodes : collectTranslatableTextNodes (paragraphs texts) =
      (List.range' 0 texts.length).map fun j => [j, 0] :=
    collectList_paragraphs _ texts hblank 0
  have hissues : (validateHtmlStructure h args.html cand).issues = [] :=
    validate_paragraphs h args.html cand texts ts
      (by rw [parseHtml, orElse_nil, hparse])
      (by rw [parseHtml, orElse_nil, hcandparse]) hlen htext h1 h2 h3
  have hok : (validateHtmlStructure h args.html cand).ok = true :=
    (validate_ok_iff h args.html cand).mpr hissues
  refine ⟨?_, hok⟩
  cases hcore : translateCore h oracle args with
  | none =>
    have hnil := translateCore_none h oracle args hcore
    rw [hbody, hnodes] at hnil
    have hlen0 : texts.length = 0 := by simpa using congrArg List.length hnil
    exact absurd (List.length_eq_zero.mp hlen0) hne
  | some res =>
    obtain ⟨_, hrun⟩ := translateCore_eq h oracle args res hcore
    have hlog : requestsMade h oracle args = res.2 := by simp [requestsMade, hcore]
    rw [hbody, hnodes] at hrun
    obtain ⟨st2, hst2, hfinal⟩ := translateBatches_result h oracle args
      ((List.range' 0 texts.length).map fun j => [j, 0]) ts (by simp [hlen])
      ((List.range' 0 texts.length).map fun j => [j, 0]).length 0
      { body := paragraphs texts, ctx := args.previousContext, log := [] } rfl (by omega)
      (fun k req _ hget => hans k req (by rw [hlog, hrun]; exact hget))
    rw [← hrun] at hst2
    have hfold := fold_paragraphs texts [] ts hlen
    simp only [List.length_nil, List.nil_append] at hfold
    simp only [List.drop_zero] at hfinal
    rw [hfold, List.map_congr_left hclean, List.map_id'] at hfinal
    obtain ⟨outcome, log⟩ := res
    simp only at hst2
    subst hst2
    have hstrip : stripHtmlToText h cand = trim (textContentList (paragraphs ts)) := by
      rw [stripHtmlToText, orElse_nil, hcandparse]
    have hcandEq : orElse (h.innerHTML st2.body) (orElse args.html []) = cand := by
      rw [hfinal, hcand]
      unfold orElse
      rw [if_neg hcandne]
    simp only [translateHtmlPreserveMarkup, hcore, hcandEq, horig, hok, not_true_eq_false,
      ↓reduceIte, hstrip]

/-- C15, witness of the amended claim, the example of the claim: the fragment
`<p>A</p><p>B</p>` with the output `["一","二"]"` gives `<p>一</p><p>二</p>`, which is
accepted. -/
theorem paragraphs_translated_and_accepted_witness :
    translateHtmlPreserveMarkup sampleHost (fun _ _ => .ok "[\"一\",\"二\"]\"".toList)
      (plainArgs "<p>A</p><p>B</p>".toList) =
      .ok { translatedHtml := "<p>一</p><p>二</p>".toList,
            translatedText := trim (textContentList (paragraphs ["一".toList, "二".toList])),
            validationIssues := none } ∧
    (validateHtmlStructure sampleHost (plainArgs "<p>A</p><p>B</p>".toList).html
      "<p>一</p><p>二</p>".toList).ok = true :=
  paragraphs_translated_and_accepted sampleHost (fun _ _ => .ok "[\"一\",\"二\"]\"".toList)
    (plainArgs "<p>A</p><p>B</p>".toList) ["A".toList, "B".toList] ["一".toList, "二".toList]
    "<p>一</p><p>二</p>".toList (by decide) (by decide) rfl rfl rfl
    (fun k req hk => by
      have hlog : requestsMade sampleHost (fun _ _ => .ok "[\"一\",\"二\"]\"".toList)
          (plainArgs "<p>A</p><p>B</p>".toList) =
          [{ segments := ["A".toList, "B".toList], sourceLang := [], targetLang := [],
             glossary := [], previousContext := [] }] := by decide
      rw [hlog] at hk
      cases k with
      | zero =>
        simp only [List.get?_cons_zero, Option.some.injEq] at hk
        subst hk
        rfl
      | succ k => simp at hk)
    (by decide) rfl (by decide) rfl (by decide) (by decide) (by decide) (by decide)

/-! ## Theorems on `replaceBodyInner` -/

/-- C16, failing input: for the document `<html><body>old</body></html>` and the
fragment `cost: $$5`, `replaceBodyInner` returns a body whose inner content is
`cost: $5`: the fragment is passed to `String.prototype.replace` as the replacement
text, where `$$` stands for one dollar sign, so the inner content is not the fragment
character for character. -/
theorem dollar_pattern_in_fragment_is_expanded :
    replaceBodyInner "<html><body>old</body></html>".toList "cost: $$5".toList
        = "<html><body>\ncost: $5\n</body></html>".toList ∧
      replaceBodyInner "<html><body>old</body></html>".toList "cost: $$5".toList
        ≠ "<html><body>".toList ++ "\n".toList ++ "cost: $$5".toList ++ "\n".toList
            ++ "</body></html>".toList := by
  decide

/-! ## Lemmas on the loop over the spine -/

/-- One iteration of the loop either leaves the package document as it is or registers a
translated sibling: one item appended to the manifest and one `itemref` added to the
spine. -/
theorem patchItemref_cases (h : Host) (inZip : Archive) (chapters : List Chapter)
    (mode opfDir : Str) (spinePos : Nat) (itemref : Itemref) (st st1 : PatchState)
    (hstep : patchItemref h inZip chapters mode opfDir spinePos itemref st = .ok st1) :
    (st1.manifest = st.manifest ∧ st1.manifestItems = st.manifestItems ∧
        st1.spine = st.spine) ∨
      (mode = "bilingual".toList ∧
        ∃ idref mi,
          getAttribute "idref".toList itemref.attrs = some idref ∧
          mapGet st.manifestItems idref = some mi ∧
          mapGet st.manifestItems (safeId (idref ++ "__translated".toList)) = none ∧
          st1.manifest = st.manifest ++
            [newItem (safeId (idref ++ "__translated".toList))
              (translatedHref opfDir (joinPath opfDir mi.href)) mi.mediaType] ∧
          st1.manifestItems = mapSet st.manifestItems (safeId (idref ++ "__translated".toList))
            { href := translatedHref opfDir (joinPath opfDir mi.href),
              mediaType := mi.mediaType } ∧
          ((∃ k, itemref.place = .child k ∧
              st1.spine = insertAfter k
                (newItemref (safeId (idref ++ "__translated".toList))
                  (getAttribute "linear".toList itemref.attrs)) st.spine) ∨
            (itemref.place = .nested false ∧
              st1.spine = st.spine ++
                [(none, newItemref (safeId (idref ++ "__translated".toList))
                  (getAttribute "linear".toList itemref.attrs))]))) := by
  unfold patchItemref at hstep
  cases hidref : getAttribute "idref".toList itemref.attrs with
  | none => simp only [hidref] at hstep; cases hstep; exact Or.inl ⟨rfl, rfl, rfl⟩
  | some idref =>
    simp only [hidref] at hstep
    by_cases hemp : idref = []
    · simp only [hemp, if_true] at hstep; cases hstep; exact Or.inl ⟨rfl, rfl, rfl⟩
    simp only [hemp, if_false] at hstep
    cases hmi : mapGet st.manifestItems idref with
    | none => simp only [hmi] at hstep; cases hstep; exact Or.inl ⟨rfl, rfl, rfl⟩
    | some mi =>
      simp only [hmi] at hstep
      by_cases hmk : (!isMarkupType mi.mediaType) = true
      · simp only [hmk, if_true] at hstep; cases hstep; exact Or.inl ⟨rfl, rfl, rfl⟩
      simp only [hmk, if_false] at hstep
      cases hentry : archiveFile inZip (joinPath opfDir mi.href) with
      | none => simp only [hentry] at hstep; cases hstep; exact Or.inl ⟨rfl, rfl, rfl⟩
      | some entry =>
        simp only [hentry] at hstep
        by_cases hsingle : mode = "single".toList
        · simp only [hsingle, if_true] at hstep
          by_cases hbody : translatedBody h chapters mi.href (joinPath opfDir mi.href) spinePos = []
          · simp only [hbody, if_true] at hstep; cases hstep; exact Or.inl ⟨rfl, rfl, rfl⟩
          · simp only [hbody, if_false] at hstep; cases hstep; exact Or.inl ⟨rfl, rfl, rfl⟩
        simp only [hsingle, if_false] at hstep
        by_cases hmode : mode = "bilingual".toList
        · simp only [hmode, if_true] at hstep
          by_cases hbody : translatedBody h chapters mi.href (joinPath opfDir mi.href) spinePos = []
          · simp only [hbody, if_true] at hstep; cases hstep; exact Or.inl ⟨rfl, rfl, rfl⟩
          simp only [hbody, if_false] at hstep
          cases hnew : mapGet st.manifestItems (safeId (idref ++ "__translated".toList)) with
          | some v =>
            simp only [hnew, Option.isSome_some, if_true] at hstep
            cases hstep; exact Or.inl ⟨rfl, rfl, rfl⟩
          | none =>
            simp only [hnew, Option.isSome_none, Bool.false_eq_true, if_false] at hstep
            cases hplace : itemref.place with
            | child k =>
              simp only [hplace] at hstep
              cases hstep
              exact Or.inr ⟨hmode, idref, mi, rfl, hmi, hnew, rfl, rfl, Or.inl ⟨k, rfl, rfl⟩⟩
            | nested hasNext =>
              cases hasNext with
              | false =>
                simp only [hplace] at hstep
                cases hstep
                exact Or.inr ⟨hmode, idref, mi, rfl, hmi, hnew, rfl, rfl, Or.inr ⟨rfl, rfl⟩⟩
              | true => simp only [hplace] at hstep; cases hstep
        · simp only [hmode, if_false] at hstep; cases hstep; exact Or.inl ⟨rfl, rfl, rfl⟩

/-- Inserting a new node leaves the original child nodes as they are. -/
theorem filter_insertAfter (k : Nat) (new : Node) (l : List (Option Nat × Node)) :
    (insertAfter k new l).filter (fun tn => tn.1.isSome) = l.filter (fun tn => tn.1.isSome) := by
  induction l with
  | nil => rfl
  | cons tn rest ih =>
    obtain ⟨tag, n⟩ := tn
    unfold insertAfter
    split
    · simp [List.filter_cons]
    · simp only [List.filter_cons, ih]

/-- The child nodes of `spine` before the loop are all original. -/
theorem filter_tagged (k : Nat) (ns : List Node) :
    (tagged k ns).filter (fun tn => tn.1.isSome) = tagged k ns := by
  induction ns generalizing k with
  | nil => rfl
  | cons n ns ih => simp [tagged, List.filter_cons, ih]

/-- The loop only appends to the manifest and only adds new nodes to the spine; in a mode
other than `bilingual` it changes neither. -/
theorem patchSpine_keeps (h : Host) (inZip : Archive) (chapters : List Chapter)
    (mode opfDir : Str) (rs : List Itemref) :
    ∀ (spinePos : Nat) (st st1 : PatchState),
      patchSpine h inZip chapters mode opfDir spinePos rs st = .ok st1 →
      (∃ added, st1.manifest = st.manifest ++ added) ∧
        st1.spine.filter (fun tn => tn.1.isSome) = st.spine.filter (fun tn => tn.1.isSome) ∧
        (mode ≠ "bilingual".toList → st1.manifest = st.manifest ∧ st1.spine = st.spine) := by
  induction rs with
  | nil =>
    intro spinePos st st1 hrun
    simp only [patchSpine] at hrun
    cases hrun
    exact ⟨⟨[], by simp⟩, rfl, fun _ => ⟨rfl, rfl⟩⟩
  | cons r rest ih =>
    intro spinePos st st1 hrun
    simp only [patchSpine] at hrun
    cases hstep : patchItemref h inZip chapters mode opfDir spinePos r st with
    | error e => rw [hstep] at hrun; cases hrun
    | ok st2 =>
      rw [hstep] at hrun
      obtain ⟨⟨added, hadd⟩, hfilter, hother⟩ := ih _ _ _ hrun
      rcases patchItemref_cases h inZip chapters mode opfDir spinePos r st st2 hstep with
        ⟨hm, _, hs⟩ | ⟨hmode, idref, mi, _, _, _, hm, _, hs⟩
      · rw [hm] at hadd hother
        rw [hs] at hfilter hother
        exact ⟨⟨added, hadd⟩, hfilter, hother⟩
      · refine ⟨⟨newItem (safeId (idref ++ "__translated".toList))
            (translatedHref opfDir (joinPath opfDir mi.href)) mi.mediaType :: added, ?_⟩, ?_,
          fun hne => absurd hmode hne⟩
        · rw [hadd, hm, List.append_assoc]; rfl
        · rw [hfilter]
          rcases hs with ⟨k, _, hs⟩ | ⟨_, hs⟩
          · rw [hs, filter_insertAfter]
          · rw [hs]; simp [List.filter_append, List.filter_cons]

/-- A rebuild that passes the loop has read the package. -/
theorem patchPackage_ok (h : Host) (inZip : Archive) (chapters : List Chapter) (mode : Str)
    (o : Opened) (st : PatchState)
    (hp : patchPackage h inZip chapters mode = .ok (o, st)) :
    openPackage h inZip = .ok o ∧
      patchSpine h inZip chapters mode (dirname o.opfPath) 0 (spineItemrefs o.spine)
        (initialState o) = .ok st := by
  unfold patchPackage at hp
  cases hopen : openPackage h inZip with
  | error e => rw [hopen] at hp; cases hp
  | ok o2 =>
    rw [hopen] at hp
    simp only at hp
    cases hrun : patchSpine h inZip chapters mode (dirname o2.opfPath) 0 (spineItemrefs o2.spine)
        (initialState o2) with
    | error e => rw [hrun] at hp; cases hp
    | ok st2 =>
      rw [hrun] at hp
      cases hp
      exact ⟨rfl, hrun⟩

/-! ## Theorems on the package document -/

/-- C18: whenever a rebuild gets past the loop over the spine, in whatever mode and for
whatever chapters, the child nodes of `manifest` are the original ones followed by the
added ones, and the nodes of `spine` that were there originally are the original child
nodes in their original order (nothing is removed or reordered); in `single` mode the
child nodes of `manifest` and of `spine` are exactly the original ones. -/
theorem originals_kept_in_order (h : Host) (inZip : Archive) (chapters : List Chapter)
    (mode : Str) (o : Opened) (st : PatchState)
    (hp : patchPackage h inZip chapters mode = .ok (o, st)) :
    (∃ added, st.manifest = o.manifest ++ added) ∧
      st.spine.filter (fun tn => tn.1.isSome) = tagged 0 o.spine ∧
      (mode = "single".toList → st.manifest = o.manifest ∧ st.spine = tagged 0 o.spine) := by
  obtain ⟨_, hrun⟩ := patchPackage_ok h inZip chapters mode o st hp
  obtain ⟨hadd, hfilter, hother⟩ := patchSpine_keeps h inZip chapters mode _ _ _ _ _ hrun
  refine ⟨hadd, ?_, fun hmode => hother ?_⟩
  · rw [hfilter]; exact filter_tagged 0 o.spine
  · rw [hmode]; decide

set_option maxRecDepth 1000000 in
/-- Witness for C18: the bilingual rebuild of the sample book. -/
theorem originals_kept_in_order_witness :
    ∃ o st,
      patchPackage sampleHost sampleBook sampleChapters "bilingual".toList = .ok (o, st) ∧
      (∃ added, st.manifest = o.manifest ++ added) ∧
      st.spine.filter (fun tn => tn.1.isSome) = tagged 0 o.spine ∧
      ("bilingual".toList = "single".toList →
        st.manifest = o.manifest ∧ st.spine = tagged 0 o.spine) := by
  cases hp : patchPackage sampleHost sampleBook sampleChapters "bilingual".toList with
  | error e =>
    have hsome : (patchPackage sampleHost sampleBook sampleChapters
        "bilingual".toList).toOption.isSome = true := by decide
    rw [hp] at hsome
    cases hsome
  | ok r =>
    exact ⟨r.1, r.2, rfl,
      originals_kept_in_order sampleHost sampleBook sampleChapters "bilingual".toList r.1 r.2 hp⟩


/-! ## Lemmas on the place of the new spine entries -/

/-- A new node inserted after the child of index `k` comes right after it. -/
theorem insertAfter_middle (k : Nat) (new n : Node) (pre rest : List (Option Nat × Node))
    (hpre : ∀ tn ∈ pre, tn.1 ≠ some k) :
    insertAfter k new (pre ++ (some k, n) :: rest) = pre ++ (some k, n) :: (none, new) :: rest := by
  induction pre with
  | nil => simp [insertAfter]
  | cons tn pre ih =>
    obtain ⟨tag, m⟩ := tn
    have htag : tag ≠ some k := hpre (tag, m) (List.mem_cons_self _ _)
    have ih2 := ih fun x hx => hpre x (List.mem_cons_of_mem _ hx)
    simp only [List.cons_append, insertAfter, htag, if_false]
    exact congrArg (fun l => (tag, m) :: l) ih2

/-- The loop over two arrays in a row. -/
theorem patchSpine_append (h : Host) (inZip : Archive) (chapters : List Chapter)
    (mode opfDir : Str) (a b : List Itemref) :
    ∀ (spinePos : Nat) (st : PatchState),
      patchSpine h inZip chapters mode opfDir spinePos (a ++ b) st =
        match patchSpine h inZip chapters mode opfDir spinePos a st with
        | .error e => .error e
        | .ok st1 => patchSpine h inZip chapters mode opfDir (spinePos + a.length) b st1 := by
  induction a with
  | nil => intro spinePos st; simp [patchSpine]
  | cons r a ih =>
    intro spinePos st
    simp only [List.cons_append, patchSpine, List.length_cons]
    cases patchItemref h inZip chapters mode opfDir spinePos r st with
    | error e => rfl
    | ok st1 =>
      have hpos : spinePos + 1 + a.length = spinePos + (a.length + 1) := by omega
      have ih2 := ih (spinePos + 1) st1
      rw [hpos] at ih2
      exact ih2

mutual
/-- The `itemref` elements found in a node below a child of `spine` have a nested
place. -/
theorem nestedItemrefs_node_place (n : Node) (hasNext : Bool) :
    ∀ r ∈ n.nestedItemrefs hasNext, ∃ b, r.place = .nested b := by
  cases n with
  | text v => intro r hr; simp [Node.nestedItemrefs] at hr
  | comment d => intro r hr; simp [Node.nestedItemrefs] at hr
  | element l t a cs =>
    intro r hr
    simp only [Node.nestedItemrefs, List.mem_append] at hr
    rcases hr with hr | hr
    · split at hr
      · simp only [List.mem_singleton] at hr
        exact ⟨hasNext, by rw [hr]⟩
      · cases hr
    · exact nestedItemrefs_place cs r hr
/-- The `itemref` elements found below a child of `spine` have a nested place. -/
theorem nestedItemrefs_place (ns : List Node) :
    ∀ r ∈ nestedItemrefs ns, ∃ b, r.place = .nested b := by
  cases ns with
  | nil => intro r hr; simp [nestedItemrefs] at hr
  | cons n ns =>
    intro r hr
    simp only [nestedItemrefs, List.mem_append] at hr
    rcases hr with hr | hr
    · exact nestedItemrefs_node_place n _ r hr
    · exact nestedItemrefs_place ns r hr
end

/-- The iterations for `itemref` elements that are not children of `spine` only append
to the spine, one node for each item they append to the manifest. -/
theorem patchSpine_nested (h : Host) (inZip : Archive) (chapters : List Chapter)
    (mode opfDir : Str) (rs : List Itemref) :
    ∀ (spinePos : Nat) (st st1 : PatchState),
      (∀ r ∈ rs, ∃ b, r.place = .nested b) →
      patchSpine h inZip chapters mode opfDir spinePos rs st = .ok st1 →
      ∃ app : List Node,
        st1.spine = st.spine ++ app.map (fun new => (none, new)) ∧
        st1.manifest.length = st.manifest.length + app.length ∧
        (rs = [] → app = []) := by
  induction rs with
  | nil =>
    intro spinePos st st1 _ hrun
    simp only [patchSpine] at hrun
    cases hrun
    exact ⟨[], by simp, by simp, fun _ => rfl⟩
  | cons r rest ih =>
    intro spinePos st st1 hplace hrun
    simp only [patchSpine] at hrun
    cases hstep : patchItemref h inZip chapters mode opfDir spinePos r st with
    | error e => rw [hstep] at hrun; cases hrun
    | ok st2 =>
      rw [hstep] at hrun
      obtain ⟨app, hs, hm, _⟩ :=
        ih _ _ _ (fun x hx => hplace x (List.mem_cons_of_mem _ hx)) hrun
      rcases patchItemref_cases h inZip chapters mode opfDir spinePos r st st2 hstep with
        ⟨hm2, _, hs2⟩ | ⟨_, idref, mi, _, _, _, hm2, _, hs2⟩
      · rw [hm2] at hm
        rw [hs2] at hs
        exact ⟨app, hs, hm, by simp⟩
      · rcases hs2 with ⟨k, hk, _⟩ | ⟨_, hs2⟩
        · obtain ⟨b, hb⟩ := hplace r (List.mem_cons_self _ _)
          rw [hb] at hk
          cases hk
        · refine ⟨newItemref (safeId (idref ++ "__translated".toList))
              (getAttribute "linear".toList r.attrs) :: app, ?_, ?_, by simp⟩
          · rw [hs, hs2]; simp
          · rw [hm, hm2]; simp; omega

/-- The iteration for a child of `spine`: either nothing changes in the package document,
or the translated sibling is registered and its `itemref` comes right after the child. -/
theorem patchSpine_child (h : Host) (inZip : Archive) (chapters : List Chapter)
    (mode opfDir : Str) (n : Node) (base spinePos : Nat) (st st2 : PatchState)
    (pre rest : List (Option Nat × Node))
    (hrun : patchSpine h inZip chapters mode opfDir spinePos
      (if n.tagName = "itemref".toList then [{ attrs := n.attrs, place := .child base }] else [])
      st = .ok st2)
    (hspine : st.spine = pre ++ (some base, n) :: rest)
    (hpre : ∀ tn ∈ pre, tn.1 ≠ some base) :
    ∃ newOpt : Option Node,
      st2.spine = pre ++ (some base, n) :: (newOpt.toList.map (fun new => (none, new)) ++ rest) ∧
      st2.manifest.length = st.manifest.length + newOpt.toList.length ∧
      ∀ new, newOpt = some new →
        n.tagName = "itemref".toList ∧ new = translatedItemref n.attrs ∧
        ∃ href mediaType, newItem (translatedId n.attrs) href mediaType ∈ st2.manifest := by
  by_cases htag : n.tagName = "itemref".toList
  · simp only [htag, if_true, patchSpine] at hrun
    cases hstep : patchItemref h inZip chapters mode opfDir spinePos
        { attrs := n.attrs, place := .child base } st with
    | error e => rw [hstep] at hrun; cases hrun
    | ok st3 =>
      rw [hstep] at hrun
      simp only [Except.ok.injEq] at hrun
      subst hrun
      rcases patchItemref_cases h inZip chapters mode opfDir spinePos _ st st3 hstep with
        ⟨hm, _, hs⟩ | ⟨_, idref, mi, hidref, _, _, hm, _, hs⟩
      · exact ⟨none, by rw [hs, hspine]; rfl, by rw [hm]; rfl, fun new hnew => by cases hnew⟩
      · rcases hs with ⟨k, hk, hs⟩ | ⟨hk, _⟩
        · simp only [Place.child.injEq] at hk
          subst hk
          have hid : translatedId n.attrs = safeId (idref ++ "__translated".toList) := by
            simp only at hidref
            simp only [translatedId, attrOrEmpty, hidref]
          refine ⟨some (translatedItemref n.attrs), ?_, ?_, ?_⟩
          · rw [hs, hspine, insertAfter_middle _ _ _ _ _ hpre]
            simp only [translatedItemref, hid]
            rfl
          · rw [hm]; simp
          · intro new hnew
            cases hnew
            refine ⟨htag, rfl, translatedHref opfDir (joinPath opfDir mi.href), mi.mediaType, ?_⟩
            rw [hm, hid]
            exact List.mem_append_right _ (List.mem_singleton_self _)
        · cases hk
  · simp only [htag, if_false, patchSpine] at hrun
    cases hrun
    exact ⟨none, by rw [hspine]; rfl, rfl, fun new hnew => by cases hnew⟩

/-- How `weave` goes on after the first child. -/
theorem weave_cons (k : Nat) (n : Node) (ns : List Node) (newOpt : Option Node)
    (news : List (Option Node)) :
    weave k (n :: ns) (newOpt :: news) =
      (some k, n) :: (newOpt.toList.map (fun new => (none, new)) ++ weave (k + 1) ns news) := by
  cases newOpt <;> rfl

/-- The spine after the loop: the original child nodes, each followed by the `itemref` of
its translated sibling if one was registered, then the nodes appended for `itemref`
elements that are not children of `spine`. -/
theorem patchSpine_weave (h : Host) (inZip : Archive) (chapters : List Chapter)
    (mode opfDir : Str) (ns : List Node) :
    ∀ (base spinePos : Nat) (st st1 : PatchState) (pre app : List (Option Nat × Node)),
      patchSpine h inZip chapters mode opfDir spinePos (itemrefsFrom base ns) st = .ok st1 →
      st.spine = pre ++ tagged base ns ++ app →
      (∀ tn ∈ pre, ∀ j, base ≤ j → tn.1 ≠ some j) →
      ∃ (news : List (Option Node)) (app1 : List Node),
        news.length = ns.length ∧
        st1.spine = pre ++ weave base ns news ++ app ++ app1.map (fun new => (none, new)) ∧
        (∀ k new, news.get? k = some (some new) →
          ∃ n, ns.get? k = some n ∧ n.tagName = "itemref".toList ∧
            new = translatedItemref n.attrs ∧
            ∃ href mediaType, newItem (translatedId n.attrs) href mediaType ∈ st1.manifest) ∧
        st1.manifest.length = st.manifest.length + news.reduceOption.length + app1.length ∧
        ((∀ n ∈ ns, nestedItemrefs n.childNodes = []) → app1 = []) := by
  induction ns with
  | nil =>
    intro base spinePos st st1 pre app hrun hspine _
    simp only [itemrefsFrom, patchSpine] at hrun
    simp only [Except.ok.injEq] at hrun
    subst hrun
    refine ⟨[], [], rfl, ?_, ?_, by simp, fun _ => rfl⟩
    · rw [hspine]; simp [tagged, weave]
    · intro k new hk; simp at hk
  | cons n ns ih =>
    intro base spinePos st st1 pre app hrun hspine hpre
    simp only [itemrefsFrom] at hrun
    rw [patchSpine_append] at hrun
    cases hHN : patchSpine h inZip chapters mode opfDir spinePos
        ((if n.tagName = "itemref".toList then [{ attrs := n.attrs, place := .child base }]
          else []) ++ nestedItemrefs n.childNodes) st with
    | error e => rw [hHN] at hrun; cases hrun
    | ok st3 =>
      rw [hHN] at hrun
      simp only at hrun
      rw [patchSpine_append] at hHN
      cases hH : patchSpine h inZip chapters mode opfDir spinePos
          (if n.tagName = "itemref".toList then [{ attrs := n.attrs, place := .child base }]
            else []) st with
      | error e => rw [hH] at hHN; cases hHN
      | ok st2 =>
        rw [hH] at hHN
        simp only at hHN
        have hspine2 : st.spine = pre ++ (some base, n) :: (tagged (base + 1) ns ++ app) := by
          rw [hspine]; simp [tagged]
        obtain ⟨newOpt, hs2, hm2, hnew⟩ :=
          patchSpine_child h inZip chapters mode opfDir n base spinePos st st2 pre _ hH hspine2
            (fun tn htn => hpre tn htn base (Nat.le_refl _))
        obtain ⟨appN, hs3, hm3, hflatN⟩ :=
          patchSpine_nested h inZip chapters mode opfDir _ _ st2 st3
            (nestedItemrefs_place n.childNodes) hHN
        obtain ⟨⟨added, hadd⟩, _, _⟩ := patchSpine_keeps h inZip chapters mode opfDir _ _ _ _ hHN
        obtain ⟨⟨added2, hadd2⟩, _, _⟩ := patchSpine_keeps h inZip chapters mode opfDir _ _ _ _ hrun
        have hspine3 : st3.spine =
            (pre ++ (some base, n) :: newOpt.toList.map (fun new => (none, new)))
              ++ tagged (base + 1) ns ++ (app ++ appN.map (fun new => (none, new))) := by
          rw [hs3, hs2]; simp [List.append_assoc]
        have hpre3 : ∀ tn ∈ pre ++ (some base, n) :: newOpt.toList.map (fun new => (none, new)),
            ∀ j, base + 1 ≤ j → tn.1 ≠ some j := by
          intro tn htn j hj
          rcases List.mem_append.1 htn with htn | htn
          · exact hpre tn htn j (by omega)
          · rcases List.mem_cons.1 htn with htn | htn
            · rw [htn]; simp; omega
            · obtain ⟨new, _, hnew2⟩ := List.mem_map.1 htn
              rw [← hnew2]; simp
        obtain ⟨news, app1, hlen, hs1, hprop, hm1, hflat1⟩ := ih _ _ _ _ _ _ hrun hspine3 hpre3
        refine ⟨newOpt :: news, appN ++ app1, by simp [hlen], ?_, ?_, ?_, ?_⟩
        · rw [hs1, weave_cons]; simp [List.append_assoc]
        · intro k new hk
          cases k with
          | zero =>
            simp only [List.get?_cons_zero, Option.some.injEq] at hk
            obtain ⟨htag, hnew2, href, mediaType, hmem⟩ := hnew new hk
            refine ⟨n, rfl, htag, hnew2, href, mediaType, ?_⟩
            rw [hadd2, hadd]
            exact List.mem_append_left _ (List.mem_append_left _ hmem)
          | succ k =>
            simp only [List.get?_cons_succ] at hk
            obtain ⟨m, hm, hrest⟩ := hprop k new hk
            exact ⟨m, by simpa using hm, hrest⟩
        · rw [hm1, hm3, hm2]
          cases newOpt <;> simp [List.reduceOption_cons_of_some, List.reduceOption_cons_of_none]
            <;> omega
        · intro hflat
          have hN : nestedItemrefs n.childNodes = [] := hflat n (List.mem_cons_self _ _)
          rw [hflatN (by rw [hN]), hflat1 fun m hm => hflat m (List.mem_cons_of_mem _ hm)]
          rfl

/-- The attributes of the `itemref` of a translated sibling: its `idref` is the new id,
and its `linear` is the non-empty `linear` of the original entry, if there is one. -/
theorem translatedItemref_attrs (attrs : List (Str × Str)) :
    getAttribute "idref".toList (translatedItemref attrs).attrs = some (translatedId attrs) ∧
      getAttribute "linear".toList (translatedItemref attrs).attrs =
        (match getAttribute "linear".toList attrs with
          | some l => if l = [] then none else some l
          | none => none) := by
  constructor
  · simp [translatedItemref, newItemref, Node.attrs, getAttribute]
  · have hne : ¬ "idref".toList = "linear".toList := by decide
    cases hl : getAttribute "linear".toList attrs with
    | none => simp only [translatedItemref, newItemref, Node.attrs, getAttribute, hl, hne, if_false]
    | some l =>
      by_cases hemp : l = []
      · simp only [translatedItemref, newItemref, Node.attrs, getAttribute, hl, hne, hemp,
          if_false, if_true]
      · simp only [translatedItemref, newItemref, Node.attrs, getAttribute, hl, hne, hemp,
          if_false, if_true]

/-! ## Theorems on the place of the new spine entries -/

/-- C19: whenever a rebuild gets past the loop over the spine, the child nodes of `spine`
are the original child nodes in their order, each one followed immediately, before the
next original child node, by the `itemref` of its translated sibling when one was
registered for it (`news` tells for which entries), and then the nodes appended for
`itemref` elements that are not children of `spine`, of which a package document has
none. The new `itemref` of an entry has the new manifest id as its `idref`, an item with
that id is in the manifest, and its `linear` is the one of the original entry (none when
the original has none or an empty one). Each added manifest item has one new node in the
spine. -/
theorem translated_itemref_follows_original (h : Host) (inZip : Archive)
    (chapters : List Chapter) (mode : Str) (o : Opened) (st : PatchState)
    (hp : patchPackage h inZip chapters mode = .ok (o, st)) :
    ∃ (news : List (Option Node)) (app : List Node),
      news.length = o.spine.length ∧
      st.spine = weave 0 o.spine news ++ app.map (fun new => (none, new)) ∧
      (∀ k new, news.get? k = some (some new) →
        ∃ n, o.spine.get? k = some n ∧ n.tagName = "itemref".toList ∧
          new = translatedItemref n.attrs ∧
          getAttribute "idref".toList new.attrs = some (translatedId n.attrs) ∧
          getAttribute "linear".toList new.attrs =
            (match getAttribute "linear".toList n.attrs with
              | some l => if l = [] then none else some l
              | none => none) ∧
          ∃ href mediaType, newItem (translatedId n.attrs) href mediaType ∈ st.manifest) ∧
      st.manifest.length = o.manifest.length + news.reduceOption.length + app.length ∧
      ((∀ n ∈ o.spine, nestedItemrefs n.childNodes = []) → app = []) := by
  obtain ⟨_, hrun⟩ := patchPackage_ok h inZip chapters mode o st hp
  obtain ⟨news, app, hlen, hs, hprop, hm, hflat⟩ :=
    patchSpine_weave h inZip chapters mode _ o.spine 0 0 (initialState o) st [] [] hrun
      (by simp [initialState]) (fun tn htn => by cases htn)
  refine ⟨news, app, hlen, by simpa using hs, ?_, hm, hflat⟩
  intro k new hk
  obtain ⟨n, hn, htag, hnew, hitem⟩ := hprop k new hk
  refine ⟨n, hn, htag, hnew, ?_, ?_, hitem⟩
  · rw [hnew]; exact (translatedItemref_attrs n.attrs).1
  · rw [hnew]; exact (translatedItemref_attrs n.attrs).2

set_option maxRecDepth 1000000 in
/-- Witness for C19: the bilingual rebuild of the sample book, whose spine becomes `a`,
the translation of `a` with `linear="no"`, `b`, the translation of `b`. -/
theorem translated_itemref_follows_original_witness :
    ∃ o st,
      patchPackage sampleHost sampleBook sampleChapters "bilingual".toList = .ok (o, st) ∧
      ∃ (news : List (Option Node)) (app : List Node),
        news.length = o.spine.length ∧
        st.spine = weave 0 o.spine news ++ app.map (fun new => (none, new)) ∧
        (∀ k new, news.get? k = some (some new) →
          ∃ n, o.spine.get? k = some n ∧ n.tagName = "itemref".toList ∧
            new = translatedItemref n.attrs ∧
            getAttribute "idref".toList new.attrs = some (translatedId n.attrs) ∧
            getAttribute "linear".toList new.attrs =
              (match getAttribute "linear".toList n.attrs with
                | some l => if l = [] then none else some l
                | none => none) ∧
            ∃ href mediaType, newItem (translatedId n.attrs) href mediaType ∈ st.manifest) ∧
        st.manifest.length = o.manifest.length + news.reduceOption.length + app.length ∧
        ((∀ n ∈ o.spine, nestedItemrefs n.childNodes = []) → app = []) := by
  cases hp : patchPackage sampleHost sampleBook sampleChapters "bilingual".toList with
  | error e =>
    have hsome : (patchPackage sampleHost sampleBook sampleChapters
        "bilingual".toList).toOption.isSome = true := by decide
    rw [hp] at hsome
    cases hsome
  | ok r =>
    exact ⟨r.1, r.2, rfl,
      translated_itemref_follows_original sampleHost sampleBook sampleChapters
        "bilingual".toList r.1 r.2 hp⟩

set_option maxRecDepth 1000000 in
/-- C19, counterexample: in the bilingual rebuild of a book whose only spine entry is
`<itemref idref="a" linear=""/>`, the new `itemref` follows the original one but has no
`linear` attribute, while the original one has an (empty) `linear` attribute. -/
theorem empty_linear_not_inherited :
    (patchPackage sampleHost sampleEmptyLinearBook sampleChapters "bilingual".toList).toOption.map
        (fun r => r.2.spine.map fun tn =>
          (tn.1, getAttribute "idref".toList tn.2.attrs, getAttribute "linear".toList tn.2.attrs))
      = some [(some 0, some "a".toList, some []),
              (none, some "a__translated".toList, none)] := by
  decide


/-! ## Lemmas on the registration of every spine entry -/

/-- A map gives the value last set for a key. -/
theorem mapGet_mapSet_self {α β : Type} [DecidableEq α] (m : List (α × β)) (key : α) (v : β) :
    mapGet (mapSet m key v) key = some v := by
  induction m with
  | nil => simp [mapSet, mapGet]
  | cons kv rest ih =>
    obtain ⟨k, w⟩ := kv
    by_cases hk : k = key
    · simp [mapSet, mapGet, hk]
    · simp [mapSet, mapGet, hk, ih]

/-- Setting a key leaves the values of the other keys. -/
theorem mapGet_mapSet_ne {α β : Type} [DecidableEq α] (m : List (α × β)) (key other : α)
    (v : β) (hne : other ≠ key) : mapGet (mapSet m key v) other = mapGet m other := by
  induction m with
  | nil =>
    have hne2 : ¬ key = other := fun hk => hne hk.symm
    simp [mapSet, mapGet, hne2]
  | cons kv rest ih =>
    obtain ⟨k, w⟩ := kv
    by_cases hk : k = key
    · subst hk
      have hne2 : ¬ k = other := fun hk => hne hk.symm
      simp [mapSet, mapGet, hne2]
    · by_cases hko : k = other
      · subst hko
        simp [mapSet, mapGet, hk]
      · simp [mapSet, mapGet, hk, hko, ih]

/-- The iteration for a markup entry with a translated fragment whose new id is not a
manifest id yet registers the translated sibling. -/
theorem patchItemref_registers (h : Host) (inZip : Archive) (chapters : List Chapter)
    (opfDir : Str) (spinePos k : Nat) (attrs : List (Str × Str)) (st : PatchState)
    (idref : Str) (mi : ManifestItem) (e : Entry)
    (hidref : getAttribute "idref".toList attrs = some idref) (hemp : idref ≠ [])
    (hmi : mapGet st.manifestItems idref = some mi)
    (hmarkup : isMarkupType mi.mediaType = true)
    (hentry : archiveFile inZip (joinPath opfDir mi.href) = some e)
    (hbody : translatedBody h chapters mi.href (joinPath opfDir mi.href) spinePos ≠ [])
    (hfresh : mapGet st.manifestItems (translatedId attrs) = none) :
    patchItemref h inZip chapters "bilingual".toList opfDir spinePos
        { attrs := attrs, place := .child k } st =
      .ok { manifest := st.manifest ++
              [newItem (translatedId attrs) (translatedHref opfDir (joinPath opfDir mi.href))
                mi.mediaType],
            manifestItems := mapSet st.manifestItems (translatedId attrs)
              { href := translatedHref opfDir (joinPath opfDir mi.href),
                mediaType := mi.mediaType },
            spine := insertAfter k (translatedItemref attrs) st.spine,
            patchedFiles := mapSet st.patchedFiles (translatedPath (joinPath opfDir mi.href))
              (replaceBodyInner (h.decode e.data)
                (translatedBody h chapters mi.href (joinPath opfDir mi.href) spinePos)) } := by
  have hid : translatedId attrs = safeId (idref ++ "__translated".toList) := by
    simp only [translatedId, attrOrEmpty, hidref]
  have hne : ¬ "bilingual".toList = "single".toList := by decide
  rw [hid] at hfresh
  unfold patchItemref
  simp only [hidref, hemp, if_false, hmi, hmarkup, Bool.not_true, Bool.false_eq_true, hentry,
    hne, if_true, hbody, hfresh, Option.isSome_none, translatedItemref, hid]

/-- The id of the element `newItem`. -/
theorem newItem_id (newId href mediaType : Str) :
    attrOrEmpty "id".toList (newItem newId href mediaType).attrs = newId := by
  simp [newItem, Node.attrs, attrOrEmpty, getAttribute]

/-- The loop over a spine whose `itemref` elements are all children of `spine`, all markup
entries with a translated fragment, with new ids that are pairwise distinct and not
manifest ids: every entry gets its translated sibling. -/
theorem patchSpine_all_register (h : Host) (inZip : Archive) (chapters : List Chapter)
    (opfDir : Str) (ns : List Node) :
    ∀ (base spinePos : Nat) (st : PatchState) (pre app : List (Option Nat × Node)),
      (∀ n ∈ ns, nestedItemrefs n.childNodes = []) →
      (∀ p r, (itemrefsFrom base ns).get? p = some r →
        ∃ idref mi e,
          getAttribute "idref".toList r.attrs = some idref ∧ idref ≠ [] ∧
          mapGet st.manifestItems idref = some mi ∧ isMarkupType mi.mediaType = true ∧
          archiveFile inZip (joinPath opfDir mi.href) = some e ∧
          translatedBody h chapters mi.href (joinPath opfDir mi.href) (spinePos + p) ≠ []) →
      (∀ r ∈ itemrefsFrom base ns, mapGet st.manifestItems (translatedId r.attrs) = none) →
      ((itemrefsFrom base ns).map fun r => translatedId r.attrs).Nodup →
      st.spine = pre ++ tagged base ns ++ app →
      (∀ tn ∈ pre, ∀ j, base ≤ j → tn.1 ≠ some j) →
      ∃ st1,
        patchSpine h inZip chapters "bilingual".toList opfDir spinePos (itemrefsFrom base ns) st
          = .ok st1 ∧
        st1.spine = pre ++ weave base ns (ns.map siblingOf) ++ app ∧
        ∃ added, st1.manifest = st.manifest ++ added ∧
          added.map (fun item => attrOrEmpty "id".toList item.attrs) =
            (itemrefsFrom base ns).map fun r => translatedId r.attrs := by
  induction ns with
  | nil =>
    intro base spinePos st pre app _ _ _ _ hspine _
    refine ⟨st, rfl, ?_, [], by simp, rfl⟩
    rw [hspine]; simp [tagged, weave]
  | cons n ns ih =>
    intro base spinePos st pre app hflat hmarkup hfresh hdistinct hspine hpre
    have hN : nestedItemrefs n.childNodes = [] := hflat n (List.mem_cons_self _ _)
    have hflat2 : ∀ m ∈ ns, nestedItemrefs m.childNodes = [] :=
      fun m hm => hflat m (List.mem_cons_of_mem _ hm)
    by_cases htag : n.tagName = "itemref".toList
    · have hsnap : itemrefsFrom base (n :: ns) =
          { attrs := n.attrs, place := .child base } :: itemrefsFrom (base + 1) ns := by
        simp only [itemrefsFrom, hN, htag, if_true, List.append_nil, List.singleton_append]
      rw [hsnap] at hmarkup hfresh hdistinct ⊢
      obtain ⟨idref, mi, e, hidref, hemp, hmi, hmk, hentry, hbody⟩ := hmarkup 0 _ rfl
      have hfresh0 : mapGet st.manifestItems (translatedId n.attrs) = none :=
        hfresh _ (List.mem_cons_self _ _)
      obtain ⟨st2, hstep, hitems2, hspine2, hman2⟩ : ∃ st2,
          patchItemref h inZip chapters "bilingual".toList opfDir spinePos
            { attrs := n.attrs, place := .child base } st = .ok st2 ∧
          st2.manifestItems = mapSet st.manifestItems (translatedId n.attrs)
            { href := translatedHref opfDir (joinPath opfDir mi.href),
              mediaType := mi.mediaType } ∧
          st2.spine = insertAfter base (translatedItemref n.attrs) st.spine ∧
          st2.manifest = st.manifest ++
            [newItem (translatedId n.attrs) (translatedHref opfDir (joinPath opfDir mi.href))
              mi.mediaType] :=
        ⟨_, patchItemref_registers h inZip chapters opfDir spinePos base n.attrs st
          idref mi e hidref hemp hmi hmk hentry hbody hfresh0, rfl, rfl, rfl⟩
      simp only [List.map_cons, List.nodup_cons] at hdistinct
      obtain ⟨hnotin, hdistinct2⟩ := hdistinct
      obtain ⟨st1, hrun, hs1, added, hadd, hids⟩ := ih (base + 1) (spinePos + 1) st2
        (pre ++ [(some base, n), (none, translatedItemref n.attrs)]) app hflat2
        (by
          intro p r hr
          obtain ⟨idref2, mi2, e2, hidref2, hemp2, hmi2, hmk2, hentry2, hbody2⟩ :=
            hmarkup (p + 1) r (by simpa using hr)
          refine ⟨idref2, mi2, e2, hidref2, hemp2, ?_, hmk2, hentry2, ?_⟩
          · have hne : idref2 ≠ translatedId n.attrs := by
              intro heq
              rw [heq, hfresh0] at hmi2
              cases hmi2
            rw [hitems2]
            exact (mapGet_mapSet_ne _ _ _ _ hne).trans hmi2
          · have hpos : spinePos + 1 + p = spinePos + (p + 1) := by omega
            rw [hpos]; exact hbody2)
        (by
          intro r hr
          have hne : translatedId r.attrs ≠ translatedId n.attrs := by
            intro heq
            exact hnotin (heq ▸ List.mem_map_of_mem (fun r => translatedId r.attrs) hr)
          rw [hitems2]
          exact (mapGet_mapSet_ne _ _ _ _ hne).trans (hfresh r (List.mem_cons_of_mem _ hr)))
        hdistinct2
        (by
          rw [hspine2, hspine, List.append_assoc]
          simp only [tagged, List.cons_append]
          rw [insertAfter_middle _ _ _ _ _ (fun tn htn => hpre tn htn base (Nat.le_refl _))]
          simp [tagged])
        (by
          intro tn htn j hj
          rcases List.mem_append.1 htn with htn | htn
          · exact hpre tn htn j (by omega)
          · simp only [List.mem_cons, List.mem_singleton, List.not_mem_nil, or_false] at htn
            rcases htn with htn | htn
            · rw [htn]; simp; omega
            · rw [htn]; simp)
      refine ⟨st1, ?_, ?_,
        newItem (translatedId n.attrs) (translatedHref opfDir (joinPath opfDir mi.href))
          mi.mediaType :: added, ?_, ?_⟩
      · simp only [patchSpine, hstep]; exact hrun
      · rw [hs1]
        simp only [List.map_cons, siblingOf, htag, if_true, weave, List.append_assoc,
          List.cons_append, List.nil_append]
      · rw [hadd, hman2]; simp only [List.append_assoc, List.singleton_append]
      · simp only [List.map_cons, hids, newItem_id]
    · have hsnap : itemrefsFrom base (n :: ns) = itemrefsFrom (base + 1) ns := by
        simp only [itemrefsFrom, hN, htag, if_false, List.append_nil, List.nil_append]
      rw [hsnap] at hmarkup hfresh hdistinct ⊢
      obtain ⟨st1, hrun, hs1, added, hadd, hids⟩ := ih (base + 1) spinePos st
        (pre ++ [(some base, n)]) app hflat2 hmarkup hfresh hdistinct
        (by rw [hspine]; simp [tagged])
        (by
          intro tn htn j hj
          rcases List.mem_append.1 htn with htn | htn
          · exact hpre tn htn j (by omega)
          · simp only [List.mem_singleton] at htn
            rw [htn]; simp; omega)
      refine ⟨st1, hrun, ?_, added, hadd, hids⟩
      rw [hs1]
      simp only [List.map_cons, siblingOf, htag, if_false, weave, List.append_assoc,
        List.cons_append, List.nil_append]

/-- The number of nodes of a spine in which every `itemref` child is followed by its
translated sibling. -/
theorem length_weave_siblings (ns : List Node) :
    ∀ base : Nat, (∀ n ∈ ns, nestedItemrefs n.childNodes = []) →
      (weave base ns (ns.map siblingOf)).length = ns.length + (itemrefsFrom base ns).length := by
  induction ns with
  | nil => intro base _; rfl
  | cons n ns ih =>
    intro base hflat
    have hN : nestedItemrefs n.childNodes = [] := hflat n (List.mem_cons_self _ _)
    have ih2 := ih (base + 1) fun m hm => hflat m (List.mem_cons_of_mem _ hm)
    by_cases htag : n.tagName = "itemref".toList
    · simp only [List.map_cons, siblingOf, htag, if_true, weave, itemrefsFrom, hN,
        List.append_nil, List.singleton_append, List.length_cons, ih2]
      omega
    · simp only [List.map_cons, siblingOf, htag, if_false, weave, itemrefsFrom, hN,
        List.append_nil, List.nil_append, List.length_cons, ih2]
      omega

/-! ## Theorems on the registration of every spine entry -/

/-- C17, as amended: take an archive whose package is read (`openPackage` succeeds), whose
`itemref` elements are all children of `spine`, each of them a markup entry (its `idref`
is the id of a manifest item of a markup type whose file is in the archive) with a
non-empty translated fragment, and whose new ids `safeId(idref + '__translated')` are
pairwise distinct and are not ids of the manifest. Then the bilingual rebuild gets past the
loop; in the spine every `itemref` child is followed by the `itemref` of its
translation, so with `K` entries the spine has `K` more nodes; and the manifest has the
original child nodes followed by `K` more items, whose ids are the new ids in the order
of the spine. -/
theorem every_entry_gets_sibling (h : Host) (inZip : Archive) (chapters : List Chapter)
    (o : Opened)
    (hopen : openPackage h inZip = .ok o)
    (hflat : ∀ n ∈ o.spine, nestedItemrefs n.childNodes = [])
    (hmarkup : ∀ p r, (spineItemrefs o.spine).get? p = some r →
      ∃ idref mi e,
        getAttribute "idref".toList r.attrs = some idref ∧ idref ≠ [] ∧
        mapGet (manifestItemsOf o.manifest) idref = some mi ∧
        isMarkupType mi.mediaType = true ∧
        archiveFile inZip (joinPath (dirname o.opfPath) mi.href) = some e ∧
        translatedBody h chapters mi.href (joinPath (dirname o.opfPath) mi.href) p ≠ [])
    (hfresh : ∀ r ∈ spineItemrefs o.spine,
      mapGet (manifestItemsOf o.manifest) (translatedId r.attrs) = none)
    (hdistinct : ((spineItemrefs o.spine).map fun r => translatedId r.attrs).Nodup) :
    ∃ st,
      patchPackage h inZip chapters "bilingual".toList = .ok (o, st) ∧
      st.spine = weave 0 o.spine (o.spine.map siblingOf) ∧
      st.spine.length = o.spine.length + (spineItemrefs o.spine).length ∧
      ∃ added, st.manifest = o.manifest ++ added ∧
        added.length = (spineItemrefs o.spine).length ∧
        added.map (fun item => attrOrEmpty "id".toList item.attrs) =
          (spineItemrefs o.spine).map fun r => translatedId r.attrs := by
  obtain ⟨st, hrun, hs, added, hadd, hids⟩ :=
    patchSpine_all_register h inZip chapters (dirname o.opfPath) o.spine 0 0 (initialState o)
      [] [] hflat
      (by
        intro p r hr
        obtain ⟨idref, mi, e, h1, h2, h3, h4, h5, h6⟩ := hmarkup p r hr
        exact ⟨idref, mi, e, h1, h2, h3, h4, h5, by rw [Nat.zero_add]; exact h6⟩)
      hfresh hdistinct (by simp [initialState]) (fun tn htn => by cases htn)
  have hs2 : st.spine = weave 0 o.spine (o.spine.map siblingOf) := by simpa using hs
  refine ⟨st, ?_, hs2, ?_, added, hadd, ?_, hids⟩
  · unfold patchPackage
    rw [hopen]
    simp only
    rw [show spineItemrefs o.spine = itemrefsFrom 0 o.spine from rfl, hrun]
  · rw [hs2, length_weave_siblings o.spine 0 hflat]; rfl
  · have hlen := congrArg List.length hids
    simpa using hlen

set_option maxRecDepth 1000000 in
/-- Witness for C17: the sample book, with the two markup entries `a` and `b`, both
translated. -/
theorem every_entry_gets_sibling_witness :
    ∃ st,
      patchPackage sampleHost sampleBook sampleChapters "bilingual".toList
        = .ok (sampleOpened, st) ∧
      st.spine = weave 0 sampleOpened.spine (sampleOpened.spine.map siblingOf) ∧
      st.spine.length = sampleOpened.spine.length + (spineItemrefs sampleOpened.spine).length ∧
      ∃ added, st.manifest = sampleOpened.manifest ++ added ∧
        added.length = (spineItemrefs sampleOpened.spine).length ∧
        added.map (fun item => attrOrEmpty "id".toList item.attrs) =
          (spineItemrefs sampleOpened.spine).map fun r => translatedId r.attrs := by
  have hsnap : spineItemrefs sampleOpened.spine =
      [{ attrs := [("idref".toList, "a".toList), ("linear".toList, "no".toList)],
         place := .child 0 },
       { attrs := [("idref".toList, "b".toList)], place := .child 1 }] := by decide
  refine every_entry_gets_sibling sampleHost sampleBook sampleChapters sampleOpened rfl
    (by decide) ?_ (by decide) (by decide)
  intro p r hr
  rw [hsnap] at hr
  match p, hr with
  | 0, hr =>
    simp only [List.get?_cons_zero, Option.some.injEq] at hr
    subst hr
    exact ⟨"a".toList, { href := "a.xhtml".toList, mediaType := "application/xhtml+xml".toList },
      { dir := false, data := "<html><body><p>Hello</p></body></html>".toList.map Char.toNat },
      rfl, by decide, by decide, by decide, by decide, by decide⟩
  | 1, hr =>
    simp only [List.get?_cons_succ, List.get?_cons_zero, Option.some.injEq] at hr
    subst hr
    exact ⟨"b".toList, { href := "b.xhtml".toList, mediaType := "application/xhtml+xml".toList },
      { dir := false, data := "<html><body><p>Bye</p></body></html>".toList.map Char.toNat },
      rfl, by decide, by decide, by decide, by decide, by decide⟩
  | p + 2, hr => simp at hr

set_option maxRecDepth 1000000 in
/-- C17, counterexample: a book that already holds the chapter `a` and its translation,
registered under the id `a__translated`, has two markup spine entries, both with a
translated fragment. Its bilingual rebuild has three nodes in the spine, not four, and
three manifest items, one more than the original and not two: no sibling is registered
for `a`, whose new id `a__translated` is a manifest id already. -/
theorem existing_id_blocks_registration :
    (patchPackage sampleHost sampleBilingualBook sampleBilingualChapters
        "bilingual".toList).toOption.map
        (fun r =>
          (r.1.spine.map fun n => attrOrEmpty "idref".toList n.attrs,
           r.2.spine.map fun tn => attrOrEmpty "idref".toList tn.2.attrs,
           r.1.manifest.map fun n => attrOrEmpty "id".toList n.attrs,
           r.2.manifest.map fun n => attrOrEmpty "id".toList n.attrs,
           r.2.patchedFiles.map Prod.fst))
      = some (["a".toList, "a__translated".toList],
              ["a".toList, "a__translated".toList, "a__translated__translated".toList],
              ["a".toList, "a__translated".toList],
              ["a".toList, "a__translated".toList, "a__translated__translated".toList],
              ["a_translated.xhtml".toList, "a_translated_translated.xhtml".toList]) := by
  rfl


/-! ## Lemmas on the files of the output archive -/

/-- One iteration of the loop leaves the map `patchedFiles` as it is or sets one key: the
path of a file of the archive in `single` mode, the sibling path derived from the path
of a file of the archive in `bilingual` mode. -/
theorem patchItemref_patched (h : Host) (inZip : Archive) (chapters : List Chapter)
    (mode opfDir : Str) (spinePos : Nat) (itemref : Itemref) (st st1 : PatchState)
    (hstep : patchItemref h inZip chapters mode opfDir spinePos itemref st = .ok st1) :
    st1.patchedFiles = st.patchedFiles ∨
      ∃ f c, (archiveFile inZip f).isSome = true ∧
        ((mode = "single".toList ∧ st1.patchedFiles = mapSet st.patchedFiles f c) ∨
          (mode = "bilingual".toList ∧
            st1.patchedFiles = mapSet st.patchedFiles (translatedPath f) c)) := by
  unfold patchItemref at hstep
  cases hidref : getAttribute "idref".toList itemref.attrs with
  | none => simp only [hidref] at hstep; cases hstep; exact Or.inl rfl
  | some idref =>
    simp only [hidref] at hstep
    by_cases hemp : idref = []
    · simp only [hemp, if_true] at hstep; cases hstep; exact Or.inl rfl
    simp only [hemp, if_false] at hstep
    cases hmi : mapGet st.manifestItems idref with
    | none => simp only [hmi] at hstep; cases hstep; exact Or.inl rfl
    | some mi =>
      simp only [hmi] at hstep
      by_cases hmk : (!isMarkupType mi.mediaType) = true
      · simp only [hmk, if_true] at hstep; cases hstep; exact Or.inl rfl
      simp only [hmk, if_false] at hstep
      cases hentry : archiveFile inZip (joinPath opfDir mi.href) with
      | none => simp only [hentry] at hstep; cases hstep; exact Or.inl rfl
      | some entry =>
        have hsome : (archiveFile inZip (joinPath opfDir mi.href)).isSome = true := by
          rw [hentry]; rfl
        simp only [hentry] at hstep
        by_cases hsingle : mode = "single".toList
        · simp only [hsingle, if_true] at hstep
          by_cases hbody : translatedBody h chapters mi.href (joinPath opfDir mi.href) spinePos = []
          · simp only [hbody, if_true] at hstep; cases hstep; exact Or.inl rfl
          · simp only [hbody, if_false] at hstep; cases hstep
            exact Or.inr ⟨_, _, hsome, Or.inl ⟨hsingle, rfl⟩⟩
        simp only [hsingle, if_false] at hstep
        by_cases hmode : mode = "bilingual".toList
        · simp only [hmode, if_true] at hstep
          by_cases hbody : translatedBody h chapters mi.href (joinPath opfDir mi.href) spinePos = []
          · simp only [hbody, if_true] at hstep; cases hstep; exact Or.inl rfl
          simp only [hbody, if_false] at hstep
          cases hnew : mapGet st.manifestItems (safeId (idref ++ "__translated".toList)) with
          | some v =>
            simp only [hnew, Option.isSome_some, if_true] at hstep
            cases hstep
            exact Or.inr ⟨_, _, hsome, Or.inr ⟨hmode, rfl⟩⟩
          | none =>
            simp only [hnew, Option.isSome_none, Bool.false_eq_true, if_false] at hstep
            cases hplace : itemref.place with
            | child k =>
              simp only [hplace] at hstep
              cases hstep
              exact Or.inr ⟨_, _, hsome, Or.inr ⟨hmode, rfl⟩⟩
            | nested hasNext =>
              cases hasNext with
              | false =>
                simp only [hplace] at hstep
                cases hstep
                exact Or.inr ⟨_, _, hsome, Or.inr ⟨hmode, rfl⟩⟩
              | true => simp only [hplace] at hstep; cases hstep
        · simp only [hmode, if_false] at hstep; cases hstep; exact Or.inl rfl

/-- A path that is not the sibling path of a file of the archive is not a key of
`patchedFiles` after the loop of a bilingual rebuild. -/
theorem patchSpine_patched_none (h : Host) (inZip : Archive) (chapters : List Chapter)
    (opfDir path : Str)
    (hsib : ∀ f, (archiveFile inZip f).isSome = true → path ≠ translatedPath f)
    (rs : List Itemref) :
    ∀ (spinePos : Nat) (st st1 : PatchState),
      mapGet st.patchedFiles path = none →
      patchSpine h inZip chapters "bilingual".toList opfDir spinePos rs st = .ok st1 →
      mapGet st1.patchedFiles path = none := by
  induction rs with
  | nil =>
    intro spinePos st st1 hnone hrun
    simp only [patchSpine, Except.ok.injEq] at hrun
    subst hrun
    exact hnone
  | cons r rest ih =>
    intro spinePos st st1 hnone hrun
    simp only [patchSpine] at hrun
    cases hstep : patchItemref h inZip chapters "bilingual".toList opfDir spinePos r st with
    | error e => rw [hstep] at hrun; cases hrun
    | ok st2 =>
      rw [hstep] at hrun
      refine ih _ st2 st1 ?_ hrun
      rcases patchItemref_patched h inZip chapters _ opfDir spinePos r st st2 hstep with
        hsame | ⟨f, c, hf, ⟨hmode, _⟩ | ⟨_, hset⟩⟩
      · rw [hsame]; exact hnone
      · exact absurd hmode (by decide)
      · rw [hset, mapGet_mapSet_ne _ _ _ _ (hsib f hf)]; exact hnone

/-- Adding folders does not change the files of an archive. -/
theorem zipFile_folderAdd (path : Str) :
    ∀ (fuel : Nat) (z : Zip) (name : Str),
      zipFile (folderAdd fuel z name) path = zipFile z path := by
  intro fuel
  induction fuel with
  | zero => intro z name; rfl
  | succ fuel ih =>
    intro z name
    simp only [folderAdd]
    split
    · rfl
    · rename_i hnew
      have hnone : ∀ z2 : Zip, zipFile z2 path = zipFile z path →
          mapGet z2 (forceTrailingSlash name) = none →
          zipFile (mapSet z2 (forceTrailingSlash name) folderObject) path = zipFile z path := by
        intro z2 hz2 hget
        by_cases hp : path = forceTrailingSlash name
        · rw [← hz2]
          subst hp
          simp only [zipFile, mapGet_mapSet_self, hget, folderObject, if_true]
        · rw [← hz2]
          simp only [zipFile, mapGet_mapSet_ne _ _ _ _ hp]
      have hget : mapGet z (forceTrailingSlash name) = none := by
        cases hg : mapGet z (forceTrailingSlash name) with
        | none => rfl
        | some v => rw [hg] at hnew; simp at hnew
      by_cases hparent : parentFolder (forceTrailingSlash name) = []
      · simp only [hparent, if_true]
        exact hnone z rfl hget
      · simp only [hparent, if_false]
        by_cases hget2 : mapGet (folderAdd fuel z (parentFolder (forceTrailingSlash name)))
            (forceTrailingSlash name) = none
        · exact hnone _ (ih _ _) hget2
        · by_cases hp : path = forceTrailingSlash name
          · subst hp
            have h1 : zipFile z (forceTrailingSlash name) = none := by
              simp only [zipFile, hget]
            rw [h1]
            simp only [zipFile, mapGet_mapSet_self, folderObject, if_true]
          · simp only [zipFile, mapGet_mapSet_ne _ _ _ _ hp]
            exact ih _ _

/-- The call `outZip.folder(path)` does not change the files of an archive. -/
theorem zipFile_zipFolder (z : Zip) (name path : Str) :
    zipFile (zipFolder z name) path = zipFile z path := by
  unfold zipFolder
  split
  · rfl
  · exact zipFile_folderAdd path _ _ _

/-- The file written by `outZip.file(name, data)` is found under its name. -/
theorem zipFile_fileAdd_self (z : Zip) (name : Str) (data : Content) (store : Bool) :
    zipFile (fileAdd z name data store) name =
      some { dir := false, data := data, store := store || data = .text [] } := by
  simp only [fileAdd, zipFile, mapGet_mapSet_self]
  rfl

/-- Storing an entry under a name leaves the files of other names. -/
theorem zipFile_mapSet_ne (z : Zip) (name path : Str) (obj : ZipObject) (hne : path ≠ name) :
    zipFile (mapSet z name obj) path = zipFile z path := by
  simp only [zipFile, mapGet_mapSet_ne _ _ _ _ hne]

/-- The call `outZip.file(name, data)` leaves the files of other names. -/
theorem zipFile_fileAdd_ne (z : Zip) (name path : Str) (data : Content) (store : Bool)
    (hne : path ≠ name) : zipFile (fileAdd z name data store) path = zipFile z path := by
  unfold fileAdd
  by_cases hparent : parentFolder name = []
  · simp only [hparent, if_true]
    exact zipFile_mapSet_ne _ _ _ _ hne
  · simp only [hparent, if_false]
    rw [zipFile_mapSet_ne _ _ _ _ hne]
    exact zipFile_folderAdd path _ _ _

/-- A key with a value is a key of the table. -/
theorem mem_keys_of_mapGet {α β : Type} [DecidableEq α] (m : List (α × β)) (key : α) (v : β)
    (hget : mapGet m key = some v) : key ∈ m.map Prod.fst := by
  induction m with
  | nil => simp [mapGet] at hget
  | cons kv rest ih =>
    obtain ⟨k, w⟩ := kv
    by_cases hk : k = key
    · simp [hk]
    · simp only [mapGet, hk, if_false] at hget
      simp only [List.map_cons, List.mem_cons]
      exact Or.inr (ih hget)

/-- The copy loop writes a file that is not patched and is not `mimetype` with its
bytes, when its name is among the names the loop goes through, and leaves it as it is
in `outZip` otherwise. -/
theorem zipFile_copyEntries (inZip : Archive) (patchedFiles : List (Str × Str)) (path : Str)
    (e : Entry) (hget : mapGet inZip path = some e) (hdir : e.dir = false)
    (hmime : path ≠ "mimetype".toList) (hpatched : mapGet patchedFiles path = none)
    (entries : List Str) :
    ∀ outZip : Zip,
      zipFile (copyEntries inZip patchedFiles entries outZip) path =
        if path ∈ entries then
          some { dir := false, data := .binary e.data, store := false }
        else zipFile outZip path := by
  induction entries with
  | nil => intro outZip; simp [copyEntries]
  | cons k rest ih =>
    intro outZip
    by_cases hk : path = k
    · subst hk
      have hin : ∀ z : Zip, zipFile (copyEntries inZip patchedFiles rest z) path =
          some { dir := false, data := .binary e.data, store := false } →
          zipFile (copyEntries inZip patchedFiles rest z) path =
            if path ∈ path :: rest then
              some { dir := false, data := .binary e.data, store := false }
            else zipFile outZip path := by
        intro z hz; simp [hz]
      simp only [copyEntries, hget, hdir, Bool.false_eq_true, if_false, hmime, hpatched]
      apply hin
      rw [ih]
      split
      · rfl
      · rw [zipFile_fileAdd_self]; rfl
    · have hmem : ∀ z : Zip, zipFile z path = zipFile outZip path →
          zipFile (copyEntries inZip patchedFiles rest z) path =
            if path ∈ k :: rest then
              some { dir := false, data := .binary e.data, store := false }
            else zipFile outZip path := by
        intro z hz
        rw [ih, hz]
        by_cases hin : path ∈ rest
        · simp only [hin, if_true, List.mem_cons, or_true]
        · simp only [hin, if_false, List.mem_cons, hk, or_self]
      simp only [copyEntries]
      split
      · exact hmem _ rfl
      · split
        · exact hmem _ (zipFile_zipFolder _ _ _)
        · split
          · exact hmem _ rfl
          · split
            · exact hmem _ (zipFile_fileAdd_ne _ _ _ _ _ hk)
            · exact hmem _ (zipFile_fileAdd_ne _ _ _ _ _ hk)

/-- The last loop leaves a file that is in `outZip` already. -/
theorem zipFile_writeRemaining (path : Str) (obj : ZipObject) (patchedFiles : List (Str × Str)) :
    ∀ outZip : Zip, zipFile outZip path = some obj →
      zipFile (writeRemaining patchedFiles outZip) path = some obj := by
  induction patchedFiles with
  | nil => intro outZip hz; exact hz
  | cons kv rest ih =>
    intro outZip hz
    obtain ⟨k, content⟩ := kv
    simp only [writeRemaining]
    split
    · exact ih _ hz
    · split
      · exact ih _ hz
      · rename_i hfree
        have hne : path ≠ k := by
          intro hk
          rw [← hk, hz] at hfree
          simp at hfree
        exact ih _ (by rw [zipFile_fileAdd_ne _ _ _ _ _ hne]; exact hz)

/-- A file of the archive is an entry that is not a folder. -/
theorem archiveFile_some (inZip : Archive) (path : Str) (e : Entry)
    (hfile : archiveFile inZip path = some e) : mapGet inZip path = some e ∧ e.dir = false := by
  unfold archiveFile at hfile
  cases hget : mapGet inZip path with
  | none => rw [hget] at hfile; cases hfile
  | some e2 =>
    rw [hget] at hfile
    simp only at hfile
    cases hdir : e2.dir with
    | true => rw [hdir] at hfile; simp only [if_true] at hfile; cases hfile
    | false =>
      rw [hdir] at hfile
      simp only [Bool.false_eq_true, if_false, Option.some.injEq] at hfile
      subst hfile
      exact ⟨rfl, hdir⟩

/-! ## Theorems on the files of the output archive -/

/-- Where C20 holds: in a bilingual rebuild that produces an archive, every file of the
source archive other than `mimetype` and the package document, whose path is not the
sibling path `translatedPath f` derived from the name `f` of an entry of the source
archive, is in the output archive under its path with its original bytes. -/
theorem untouched_files_are_copied (h : Host) (inZip : Archive) (chapters : List Chapter)
    (out : Zip) (path : Str) (e : Entry)
    (hbuild : buildEpubByPatchingOriginal h inZip chapters "bilingual".toList = .ok out)
    (hfile : archiveFile inZip path = some e)
    (hmime : path ≠ "mimetype".toList)
    (hopf : ∀ o, openPackage h inZip = .ok o → path ≠ o.opfPath)
    (hsib : ∀ f ∈ inZip.map Prod.fst, path ≠ translatedPath f) :
    zipFile out path = some { dir := false, data := .binary e.data, store := false } := by
  unfold buildEpubByPatchingOriginal at hbuild
  cases hp : patchPackage h inZip chapters "bilingual".toList with
  | error err => rw [hp] at hbuild; cases hbuild
  | ok r =>
    obtain ⟨o, st⟩ := r
    rw [hp] at hbuild
    simp only [Except.ok.injEq] at hbuild
    subst hbuild
    obtain ⟨hopen, hrun⟩ := patchPackage_ok h inZip chapters _ o st hp
    obtain ⟨hget, hdir⟩ := archiveFile_some inZip path e hfile
    have hsib2 : ∀ f, (archiveFile inZip f).isSome = true → path ≠ translatedPath f := by
      intro f hf
      cases hfe : archiveFile inZip f with
      | none => rw [hfe] at hf; cases hf
      | some e2 =>
        exact hsib f (mem_keys_of_mapGet inZip f e2 (archiveFile_some inZip f e2 hfe).1)
    have hnone : mapGet st.patchedFiles path = none :=
      patchSpine_patched_none h inZip chapters _ path hsib2 _ _ (initialState o) st rfl hrun
    have hnone2 : mapGet (mapSet st.patchedFiles o.opfPath (h.xmlToString (patchedDoc o st)))
        path = none := by
      rw [mapGet_mapSet_ne _ _ _ _ (hopf o hopen)]; exact hnone
    unfold packArchive
    simp only
    apply zipFile_writeRemaining
    rw [zipFile_copyEntries inZip _ path e hget hdir hmime hnone2]
    simp only [mem_keys_of_mapGet inZip path e hget, if_true]

set_option maxRecDepth 1000000 in
/-- An instance of `untouched_files_are_copied`: the file `a.xhtml` of the sample book in
its bilingual rebuild. -/
theorem untouched_files_are_copied_witness :
    ∃ out,
      buildEpubByPatchingOriginal sampleHost sampleBook sampleChapters "bilingual".toList
        = .ok out ∧
      zipFile out "a.xhtml".toList =
        some { dir := false,
               data := .binary ("<html><body><p>Hello</p></body></html>".toList.map Char.toNat),
               store := false } := by
  cases hbuild : buildEpubByPatchingOriginal sampleHost sampleBook sampleChapters
      "bilingual".toList with
  | error err =>
    have hsome : (buildEpubByPatchingOriginal sampleHost sampleBook sampleChapters
        "bilingual".toList).toOption.isSome = true := by decide
    rw [hbuild] at hsome
    cases hsome
  | ok out =>
    refine ⟨out, rfl, untouched_files_are_copied sampleHost sampleBook sampleChapters out
      "a.xhtml".toList
      { dir := false, data := "<html><body><p>Hello</p></body></html>".toList.map Char.toNat }
      hbuild (by decide) (by decide) ?_ (by decide)⟩
    intro o ho
    have hopen : openPackage sampleHost sampleBook = .ok sampleOpened := rfl
    rw [hopen] at ho
    simp only [Except.ok.injEq] at ho
    subst ho
    decide

set_option maxRecDepth 1000000 in
/-- C20, failing input: a book that holds the chapter `a.xhtml` and the markup file
`a_translated.xhtml`, whose chapters are both translated. In its bilingual rebuild the
file `a_translated.xhtml` is not the original one (`<p>Hallo</p>`): it is the sibling
synthesized for `a.xhtml`, with the translation `<p>Bonjour</p>` of `a.xhtml`. -/
theorem original_file_overwritten_by_sibling :
    archiveFile sampleBilingualBook "a_translated.xhtml".toList =
        some { dir := false,
               data := "<html><body><p>Hallo</p></body></html>".toList.map Char.toNat } ∧
      (buildEpubByPatchingOriginal sampleHost sampleBilingualBook sampleBilingualChapters
          "bilingual".toList).toOption.map (fun out => zipFile out "a_translated.xhtml".toList) =
        some (some { dir := false,
                     data := .text "<html><body>\n<p>Bonjour</p>\n</body></html>".toList,
                     store := false }) := by
  decide


/-! ## The markup-leak check -/

/-- The method `s.includes(pat)` tells whether `pat` occurs in `s`. -/
theorem includes_iff (s pat : Str) :
    includes s pat = true ↔ ∃ pre post, s = pre ++ pat ++ post := by
  induction s with
  | nil =>
    simp only [includes, List.isEmpty_iff]
    constructor
    · intro hp; exact ⟨[], [], by simp [hp]⟩
    · rintro ⟨pre, post, hs⟩
      have hlen := congrArg List.length hs
      simp only [List.length_nil, List.length_append] at hlen
      exact List.length_eq_zero.1 (by omega)
  | cons c s ih =>
    simp only [includes, Bool.or_eq_true, List.isPrefixOf_iff_prefix, ih]
    constructor
    · rintro (⟨post, hp⟩ | ⟨pre, post, hs⟩)
      · exact ⟨[], post, by simp [hp]⟩
      · exact ⟨c :: pre, post, by simp [hs]⟩
    · rintro ⟨pre, post, hs⟩
      cases pre with
      | nil => exact Or.inl ⟨post, by simpa using hs.symm⟩
      | cons d pre =>
        simp only [List.cons_append, List.cons.injEq] at hs
        exact Or.inr ⟨pre, post, hs.2⟩

/-- A message that does not begin with `m` is not the message of the markup-leak
check. -/
theorem leak_ne_of_head (m : Str) (c : Char) (hm : m.head? = some c) (hc : c ≠ 'm') :
    "markdown markers detected in html".toList ≠ m := by
  intro h
  rw [← h] at hm
  have h2 : "markdown markers detected in html".toList.head? = some 'm' := rfl
  rw [h2] at hm
  exact hc (Option.some.inj hm).symm

/-- C26: for every original and every candidate fragment, the issues of
`validateHtmlStructure` contain `markdown markers detected in html` if and only if the
text of the candidate fragment contains `**`, `__` or three backticks; the condition
does not mention the original fragment. -/
theorem leak_reported_iff (h : Host) (originalHtml translatedHtml : Str) :
    "markdown markers detected in html".toList ∈
        (validateHtmlStructure h originalHtml translatedHtml).issues ↔
      ((∃ pre post, translatedHtml = pre ++ "**".toList ++ post) ∨
        (∃ pre post, translatedHtml = pre ++ "__".toList ++ post) ∨
        (∃ pre post, translatedHtml = pre ++ "```".toList ++ post)) := by
  rw [validate_issues_eq, ← includes_iff, ← includes_iff, ← includes_iff]
  generalize fingerprintHtml h originalHtml = o
  generalize fingerprintHtml h translatedHtml = t
  have hc : "markdown markers detected in html".toList ∉ countCheck o t := fun hm =>
    leak_ne_of_head _ 't' (head_of_mem_countCheck o t _ hm) (by decide) rfl
  have hb : "markdown markers detected in html".toList ∉ blockCheck o t := fun hm =>
    leak_ne_of_head _ 'b' (head_of_mem_blockCheck o t _ hm) (by decide) rfl
  have h1 := leak_ne_of_head "img src sequence changed".toList 'i' rfl (by decide)
  have h2 := leak_ne_of_head "a href sequence changed".toList 'a' rfl (by decide)
  have h3 := leak_ne_of_head "list item distribution changed".toList 'l' rfl (by decide)
  have h4 := leak_ne_of_head "headings disappeared".toList 'h' rfl (by decide)
  have h5 := leak_ne_of_head "body top-level element sequence changed".toList 'b' rfl
    (by decide)
  have h6 := leak_ne_of_head "list shapes changed".toList 'l' rfl (by decide)
  have h7 := leak_ne_of_head "table shapes changed".toList 't' rfl (by decide)
  have h8 := leak_ne_of_head ("text length collapsed: ".toList ++ natToStr o.textLen ++
    " -> ".toList ++ natToStr t.textLen) 't' rfl (by decide)
  simp only [checkedIssues, List.mem_append, mem_issueIf, hc, hb, h1, h2, h3, h4, h5, h6, h7,
    h8, false_or, or_false, and_false, and_true]


/-! ## The fallback of `translateSegmentsAsJsonArray` -/

/-- C27: when the provider returns `out` and `JSON.parse` of the bracketed part of `out`
is not an array with as many elements as there are segments, the call
`translateSegmentsAsJsonArray` returns the trimmed non-empty lines of `out`, in their
order, if there are as many of them as segments, and throws otherwise. -/
theorem fallback_splits_lines (h : Host) (callProvider : Request → Except Str Str)
    (req : Request) (out : Str) (hout : callProvider req = .ok out)
    (hno : ∀ arr, h.jsonParse (jsonStr out) = some (.array arr) →
      arr.length ≠ req.segments.length) :
    translateSegmentsAsJsonArray h callProvider req =
      if (((splitLines out).map trim).filter (· ≠ [])).length = req.segments.length then
        .ok (((splitLines out).map trim).filter (· ≠ []))
      else .error unparseableMessage := by
  have htry : tryJsonArray h out req.segments = none := by
    unfold tryJsonArray
    cases hparse : h.jsonParse (jsonStr out) with
    | none => rfl
    | some v =>
      cases v with
      | array arr => simp only [hno arr hparse, if_false]
      | _ => rfl
  simp only [translateSegmentsAsJsonArray, hout, parseSegments, htry, fallbackLines]

set_option maxRecDepth 100000 in
/-- Witness for C27: the answer of two lines `Hallo` and ` Welt ` for two segments. -/
theorem fallback_splits_lines_witness :
    translateSegmentsAsJsonArray sampleHost (fun _ => .ok "Hallo\n\n Welt ".toList)
        { segments := ["Hello".toList, "World".toList], sourceLang := [], targetLang := [],
          glossary := [], previousContext := [] } =
      .ok ["Hallo".toList, "Welt".toList] :=
  (fallback_splits_lines sampleHost (fun _ => .ok "Hallo\n\n Welt ".toList)
    { segments := ["Hello".toList, "World".toList], sourceLang := [], targetLang := [],
      glossary := [], previousContext := [] } "Hallo\n\n Welt ".toList rfl
    (by
      intro arr harr
      have hnone : sampleHost.jsonParse (jsonStr "Hallo\n\n Welt ".toList) = none := rfl
      rw [hnone] at harr
      cases harr)).trans rfl


/-! ## Documents without a body element -/

/-- A match of a literal without regard to case splits the text. -/
theorem matchIgnoreCase_some (pat s rest : Str) (hm : matchIgnoreCase pat s = some rest) :
    ∃ name, s = name ++ rest ∧ name.map Char.toLower = pat := by
  induction pat generalizing s with
  | nil =>
    simp only [matchIgnoreCase, Option.some.injEq] at hm
    exact ⟨[], by simp [hm], rfl⟩
  | cons p pat ih =>
    cases s with
    | nil => simp [matchIgnoreCase] at hm
    | cons c s =>
      simp only [matchIgnoreCase] at hm
      split at hm
      · rename_i hc
        obtain ⟨name, hs, hname⟩ := ih s hm
        exact ⟨c :: name, by simp [hs], by simp [hc, hname]⟩
      · cases hm

/-- A text that begins with the literal in some case is matched. -/
theorem matchIgnoreCase_append (name rest : Str) :
    matchIgnoreCase (name.map Char.toLower) (name ++ rest) = some rest := by
  induction name with
  | nil => simp [matchIgnoreCase]
  | cons c name ih => simp [matchIgnoreCase, ih]

/-- Dropping what `takeWhile` takes is `dropWhile`. -/
theorem drop_takeWhile_length {α : Type} (p : α → Bool) (l : List α) :
    l.drop (l.takeWhile p).length = l.dropWhile p := by
  induction l with
  | nil => rfl
  | cons a l ih =>
    by_cases ha : p a = true
    · simp [List.takeWhile_cons, List.dropWhile_cons, ha, ih]
    · simp [List.takeWhile_cons, List.dropWhile_cons, ha]

/-- What `openTagAt` matches is an opening tag of a body element at the start of the
text. -/
theorem openTagAt_some (s t rest : Str) (hm : openTagAt s = some (t, rest)) :
    s = t ++ rest ∧ IsBodyOpenTag t := by
  unfold openTagAt at hm
  cases hname : matchIgnoreCase "<body".toList s with
  | none => rw [hname] at hm; cases hm
  | some r =>
    rw [hname] at hm
    obtain ⟨name, hs, hlower⟩ := matchIgnoreCase_some _ _ _ hname
    have hlen : name.length = 5 := by
      have := congrArg List.length hlower
      simpa using this
    have htake : s.take 5 = name := by
      rw [hs, ← hlen, List.take_left']
      rfl
    cases r with
    | nil => cases hm
    | cons c r2 =>
      simp only at hm
      cases hw : isWordChar c with
      | true => rw [hw] at hm; simp only [if_true] at hm; cases hm
      | false =>
        rw [hw] at hm
        simp only [Bool.false_eq_true, if_false] at hm
        have hsplit := List.takeWhile_append_dropWhile (fun x => decide (x ≠ '>')) (c :: r2)
        rw [drop_takeWhile_length] at hm
        cases hdw : (c :: r2).dropWhile (fun x => decide (x ≠ '>')) with
        | nil => rw [hdw] at hm; cases hm
        | cons x after =>
          rw [hdw] at hm
          simp only [Option.some.injEq, Prod.mk.injEq] at hm
          obtain ⟨ht, hrest⟩ := hm
          have hx : x = '>' := by
            have := List.head_dropWhile_not (fun x => decide (x ≠ '>')) (c :: r2)
              (by rw [hdw]; simp)
            simp only [hdw, List.head_cons] at this
            simpa using this
          subst hx
          subst hrest
          have hhead : ∀ d, ((c :: r2).takeWhile (fun x => decide (x ≠ '>'))).head? = some d →
              isWordChar d = false := by
            intro d hd
            by_cases hc : c ≠ '>'
            · have hdec : decide (c ≠ '>') = true := by simpa using hc
              rw [List.takeWhile_cons, hdec] at hd
              simp only [if_true, List.head?_cons, Option.some.injEq] at hd
              rw [← hd]
              exact hw
            · have hdec : decide (c ≠ '>') = false := by simpa using hc
              rw [List.takeWhile_cons, hdec] at hd
              simp at hd
          have hmem : ∀ d ∈ (c :: r2).takeWhile (fun x => decide (x ≠ '>')), d ≠ '>' := by
            intro d hd
            have := List.mem_takeWhile_imp hd
            simpa using this
          have h1 : c :: r2 =
              (c :: r2).takeWhile (fun x => decide (x ≠ '>')) ++ '>' :: after := by
            rw [← hdw]; exact hsplit.symm
          generalize (c :: r2).takeWhile (fun x => decide (x ≠ '>')) = tw at *
          refine ⟨?_, name, tw, ?_, hlower, hmem, hhead⟩
          · rw [← ht, htake, hs, h1]
            simp
          · rw [← ht, htake]

/-- What `splitAtClose` finds is a closing tag of a body element in the text. -/
theorem splitAtClose_some (s inner closeTag : Str)
    (hm : splitAtClose s = some (inner, closeTag)) :
    ∃ post, s = inner ++ closeTag ++ post ∧ IsBodyCloseTag closeTag := by
  induction s generalizing inner closeTag with
  | nil => simp [splitAtClose] at hm
  | cons c s ih =>
    simp only [splitAtClose] at hm
    cases hc : matchIgnoreCase "</body>".toList (c :: s) with
    | some post =>
      rw [hc] at hm
      simp only [Option.some.injEq, Prod.mk.injEq] at hm
      obtain ⟨hinner, hclose⟩ := hm
      obtain ⟨name, hs, hlower⟩ := matchIgnoreCase_some _ _ _ hc
      have hlen : name.length = 7 := by
        have := congrArg List.length hlower
        simpa using this
      have htake : (c :: s).take 7 = name := by
        rw [hs, ← hlen, List.take_left']
        rfl
      refine ⟨post, ?_, ?_⟩
      · rw [← hinner, ← hclose, htake, hs]; simp
      · rw [← hclose, htake]; exact hlower
    | none =>
      rw [hc] at hm
      simp only at hm
      cases hrest : splitAtClose s with
      | none => rw [hrest] at hm; cases hm
      | some r =>
        obtain ⟨before, close2⟩ := r
        rw [hrest] at hm
        simp only [Option.some.injEq, Prod.mk.injEq] at hm
        obtain ⟨hinner, hclose⟩ := hm
        obtain ⟨post, hs, hct⟩ := ih before close2 hrest
        refine ⟨post, ?_, ?_⟩
        · rw [← hinner, ← hclose, hs]; simp
        · rw [← hclose]; exact hct

/-- What `bodyMatch` finds is a complete body element of the text. -/
theorem bodyMatch_some (xhtml m : Str) (hm : bodyMatch xhtml = some m) :
    HasBodyElement xhtml := by
  induction xhtml with
  | nil => simp [bodyMatch] at hm
  | cons c rest ih =>
    simp only [bodyMatch] at hm
    cases hat : bodyAt (c :: rest) with
    | some m2 =>
      unfold bodyAt at hat
      cases hopen : openTagAt (c :: rest) with
      | none => rw [hopen] at hat; cases hat
      | some tr =>
        obtain ⟨t, r⟩ := tr
        rw [hopen] at hat
        simp only at hat
        cases hclose : splitAtClose r with
        | none => rw [hclose] at hat; cases hat
        | some ic =>
          obtain ⟨inner, closeTag⟩ := ic
          obtain ⟨hs, htag⟩ := openTagAt_some _ _ _ hopen
          obtain ⟨post, hr, hct⟩ := splitAtClose_some _ _ _ hclose
          exact ⟨[], t, inner, closeTag, post, by rw [hs, hr]; simp, htag, hct⟩
    | none =>
      rw [hat] at hm
      obtain ⟨pre, t, inner, closeTag, post, hs, htag, hct⟩ := ih hm
      exact ⟨c :: pre, t, inner, closeTag, post, by rw [hs]; simp, htag, hct⟩

/-- An opening tag of a body element at the start of a text is matched by `openTagAt`. -/
theorem openTagAt_append (t rest : Str) (ht : IsBodyOpenTag t) :
    openTagAt (t ++ rest) = some (t, rest) := by
  obtain ⟨name, attrs, hteq, hlower, hattrs, hhead⟩ := ht
  have hlen : name.length = 5 := by
    have := congrArg List.length hlower
    simpa using this
  have hm : matchIgnoreCase "<body".toList (t ++ rest) = some (attrs ++ '>' :: rest) := by
    rw [← hlower, hteq]
    have := matchIgnoreCase_append name (attrs ++ '>' :: rest)
    simpa using this
  have htw : (attrs ++ '>' :: rest).takeWhile (fun x => decide (x ≠ '>')) = attrs := by
    rw [List.takeWhile_append_of_pos (by
      intro d hd
      simpa using hattrs d hd)]
    simp
  have htake : ∀ tail : Str, (name ++ tail).take 5 = name := by
    intro tail
    rw [← hlen]
    simp
  unfold openTagAt
  rw [hm]
  subst hteq
  cases hattr : attrs with
  | nil =>
    subst hattr
    simp only [List.nil_append] at htw ⊢
    have hw : isWordChar '>' = false := by decide
    simp only [hw, Bool.false_eq_true, if_false, htw, List.length_nil, List.drop_zero,
      List.append_assoc, htake, List.append_nil, List.nil_append]
  | cons a attrs2 =>
    subst hattr
    have hw : isWordChar a = false := hhead a rfl
    simp only [List.cons_append, hw, Bool.false_eq_true, if_false]
    simp only [List.cons_append] at htw
    rw [htw]
    simp only [List.length_cons, List.drop_succ_cons, List.drop_left', List.append_assoc,
      List.cons_append, htake]

/-- A closing tag found in a text is found in a longer text. -/
theorem splitAtClose_isSome_append (inner tail : Str)
    (ht : (splitAtClose tail).isSome = true) :
    (splitAtClose (inner ++ tail)).isSome = true := by
  induction inner with
  | nil => exact ht
  | cons c inner ih =>
    simp only [List.cons_append, splitAtClose]
    cases matchIgnoreCase "</body>".toList (c :: (inner ++ tail)) with
    | some _ => rfl
    | none =>
      cases hr : splitAtClose (inner ++ tail) with
      | none => rw [hr] at ih; cases ih
      | some r =>
        have hr2 : splitAtClose (inner.append tail) = some r := hr
        simp only [hr2]
        rfl

/-- A closing tag of a body element in a text is found by `splitAtClose`. -/
theorem splitAtClose_append (inner closeTag post : Str) (hct : IsBodyCloseTag closeTag) :
    (splitAtClose (inner ++ (closeTag ++ post))).isSome = true := by
  apply splitAtClose_isSome_append
  have hlen : closeTag.length = 7 := by
    have := congrArg List.length hct
    simpa using this
  cases closeTag with
  | nil => simp at hlen
  | cons c ct =>
    have hm := matchIgnoreCase_append (c :: ct) post
    rw [hct] at hm
    simp only [List.cons_append, splitAtClose] at hm ⊢
    have hm2 : matchIgnoreCase "</body>".toList (c :: ct.append post) = some post := hm
    simp only [hm2]
    rfl

/-- A body element matched in a text is matched in a longer text. -/
theorem bodyMatch_isSome_append (pre s : Str) (hs : (bodyMatch s).isSome = true) :
    (bodyMatch (pre ++ s)).isSome = true := by
  induction pre with
  | nil => exact hs
  | cons c pre ih =>
    simp only [List.cons_append, bodyMatch]
    cases bodyAt (c :: (pre ++ s)) with
    | some m => rfl
    | none => exact ih

/-- A text with a complete body element is matched by `bodyMatch`. -/
theorem bodyMatch_isSome (xhtml : Str) (hb : HasBodyElement xhtml) :
    (bodyMatch xhtml).isSome = true := by
  obtain ⟨pre, t, inner, closeTag, post, hs, htag, hct⟩ := hb
  have hs2 : xhtml = pre ++ (t ++ (inner ++ (closeTag ++ post))) := by
    rw [hs]; simp
  rw [hs2]
  apply bodyMatch_isSome_append
  have hat : (bodyAt (t ++ (inner ++ (closeTag ++ post)))).isSome = true := by
    unfold bodyAt
    rw [openTagAt_append t (inner ++ (closeTag ++ post)) htag]
    simp only
    have hclose := splitAtClose_append inner closeTag post hct
    cases hr : splitAtClose (inner ++ (closeTag ++ post)) with
    | none => rw [hr] at hclose; cases hclose
    | some r => rfl
  cases hl : t ++ (inner ++ (closeTag ++ post)) with
  | nil =>
    obtain ⟨name, attrs, hteq, _, _, _⟩ := htag
    rw [hteq] at hl
    simp at hl
  | cons c rest =>
    rw [hl] at hat
    simp only [bodyMatch]
    cases hb : bodyAt (c :: rest) with
    | none => rw [hb] at hat; cases hat
    | some m => rfl

/-- What one iteration of the loop stores in `patchedFiles`: the text of a file of the
archive with its body replaced, under the path of the file in `single` mode and under
its sibling path in `bilingual` mode. -/
theorem patchItemref_content (h : Host) (inZip : Archive) (chapters : List Chapter)
    (mode opfDir : Str) (spinePos : Nat) (itemref : Itemref) (st st1 : PatchState)
    (hstep : patchItemref h inZip chapters mode opfDir spinePos itemref st = .ok st1) :
    st1.patchedFiles = st.patchedFiles ∨
      ∃ f e body, archiveFile inZip f = some e ∧
        ((mode = "single".toList ∧
            st1.patchedFiles =
              mapSet st.patchedFiles f (replaceBodyInner (h.decode e.data) body)) ∨
          (mode = "bilingual".toList ∧
            st1.patchedFiles =
              mapSet st.patchedFiles (translatedPath f)
                (replaceBodyInner (h.decode e.data) body))) := by
  unfold patchItemref at hstep
  cases hidref : getAttribute "idref".toList itemref.attrs with
  | none => simp only [hidref] at hstep; cases hstep; exact Or.inl rfl
  | some idref =>
    simp only [hidref] at hstep
    by_cases hemp : idref = []
    · simp only [hemp, if_true] at hstep; cases hstep; exact Or.inl rfl
    simp only [hemp, if_false] at hstep
    cases hmi : mapGet st.manifestItems idref with
    | none => simp only [hmi] at hstep; cases hstep; exact Or.inl rfl
    | some mi =>
      simp only [hmi] at hstep
      by_cases hmk : (!isMarkupType mi.mediaType) = true
      · simp only [hmk, if_true] at hstep; cases hstep; exact Or.inl rfl
      simp only [hmk, if_false] at hstep
      cases hentry : archiveFile inZip (joinPath opfDir mi.href) with
      | none => simp only [hentry] at hstep; cases hstep; exact Or.inl rfl
      | some entry =>
        simp only [hentry] at hstep
        by_cases hsingle : mode = "single".toList
        · simp only [hsingle, if_true] at hstep
          by_cases hbody : translatedBody h chapters mi.href (joinPath opfDir mi.href) spinePos = []
          · simp only [hbody, if_true] at hstep; cases hstep; exact Or.inl rfl
          · simp only [hbody, if_false] at hstep; cases hstep
            exact Or.inr ⟨_, _, _, hentry, Or.inl ⟨hsingle, rfl⟩⟩
        simp only [hsingle, if_false] at hstep
        by_cases hmode : mode = "bilingual".toList
        · simp only [hmode, if_true] at hstep
          by_cases hbody : translatedBody h chapters mi.href (joinPath opfDir mi.href) spinePos = []
          · simp only [hbody, if_true] at hstep; cases hstep; exact Or.inl rfl
          simp only [hbody, if_false] at hstep
          cases hnew : mapGet st.manifestItems (safeId (idref ++ "__translated".toList)) with
          | some v =>
            simp only [hnew, Option.isSome_some, if_true] at hstep
            cases hstep
            exact Or.inr ⟨_, _, _, hentry, Or.inr ⟨hmode, rfl⟩⟩
          | none =>
            simp only [hnew, Option.isSome_none, Bool.false_eq_true, if_false] at hstep
            cases hplace : itemref.place with
            | child k =>
              simp only [hplace] at hstep
              cases hstep
              exact Or.inr ⟨_, _, _, hentry, Or.inr ⟨hmode, rfl⟩⟩
            | nested hasNext =>
              cases hasNext with
              | false =>
                simp only [hplace] at hstep
                cases hstep
                exact Or.inr ⟨_, _, _, hentry, Or.inr ⟨hmode, rfl⟩⟩
              | true => simp only [hplace] at hstep; cases hstep
        · simp only [hmode, if_false] at hstep; cases hstep; exact Or.inl rfl

/-- C28: for a document text that contains no complete body element (no opening tag
`<body ...>` followed by a closing tag `</body>`), `replaceBodyInner` returns the document
text unchanged, whatever the replacement fragment. So when an iteration of the loop over
the spine stores something for a file whose text is such a document, it stores the text
of the file itself: under the path of the file in `single` mode (the translation is not
applied), under the sibling path in `bilingual` mode (the sibling is a copy). -/
theorem no_body_element_unchanged (xhtml : Str) (hno : ¬ HasBodyElement xhtml) :
    (∀ newBodyInner, replaceBodyInner xhtml newBodyInner = xhtml) ∧
      ∀ (h : Host) (inZip : Archive) (chapters : List Chapter) (mode opfDir : Str)
        (spinePos : Nat) (itemref : Itemref) (st st1 : PatchState),
        patchItemref h inZip chapters mode opfDir spinePos itemref st = .ok st1 →
        st1.patchedFiles = st.patchedFiles ∨
          ∃ f e, archiveFile inZip f = some e ∧
            (h.decode e.data = xhtml →
              (mode = "single".toList ∧ st1.patchedFiles = mapSet st.patchedFiles f xhtml) ∨
              (mode = "bilingual".toList ∧
                st1.patchedFiles = mapSet st.patchedFiles (translatedPath f) xhtml)) := by
  have hsame : ∀ newBodyInner, replaceBodyInner xhtml newBodyInner = xhtml := by
    intro newBodyInner
    unfold replaceBodyInner
    split
    · rfl
    · cases hm : bodyMatch xhtml with
      | none => rfl
      | some m => exact absurd (bodyMatch_some xhtml m hm) hno
  refine ⟨hsame, ?_⟩
  intro h inZip chapters mode opfDir spinePos itemref st st1 hstep
  rcases patchItemref_content h inZip chapters mode opfDir spinePos itemref st st1 hstep with
    hkeep | ⟨f, e, body, hfile, hset⟩
  · exact Or.inl hkeep
  · refine Or.inr ⟨f, e, hfile, fun htext => ?_⟩
    rw [htext, hsame] at hset
    exact hset

set_option maxRecDepth 100000 in
/-- Witness for C28: a document without a body element. -/
theorem no_body_element_unchanged_witness :
    replaceBodyInner "<html><p>x</p></html>".toList "<p>y</p>".toList
      = "<html><p>x</p></html>".toList :=
  (no_body_element_unchanged "<html><p>x</p></html>".toList
    (fun hb => by
      have hsome := bodyMatch_isSome _ hb
      have hnone : bodyMatch "<html><p>x</p></html>".toList = none := by decide
      rw [hnone] at hsome
      cases hsome)).1 "<p>y</p>".toList


/-! ## The path of the synthesized translation file -/

/-- The last index of a character in the second part of a text. -/
theorem lastIndexOf_append_some (c : Char) (a b : Str) (i : Nat)
    (hb : lastIndexOf c b = some i) : lastIndexOf c (a ++ b) = some (a.length + i) := by
  induction a with
  | nil => simpa using hb
  | cons x a ih =>
    have hlen : a.length + i + 1 = a.length + 1 + i := by omega
    have ih2 : lastIndexOf c (a.append b) = some (a.length + i) := ih
    simp only [List.cons_append, lastIndexOf, ih2, List.length_cons, hlen]

/-- The character does not occur in a text without a last index of it. -/
theorem lastIndexOf_eq_none (c : Char) (s : Str) (hs : c ∉ s) : lastIndexOf c s = none := by
  induction s with
  | nil => rfl
  | cons x s ih =>
    simp only [List.mem_cons, not_or] at hs
    have hx : ¬ x = c := fun hxc => hs.1 hxc.symm
    simp only [lastIndexOf, ih hs.2, hx, if_false]

/-- When the file name has a dot, the synthesized file lies in the directory of the
original file and its name is the original name with `_translated` inserted before the
last dot. -/
theorem translatedPath_with_extension (dir name : Str) (i : Nat)
    (hname : lastIndexOf '.' name = some i) :
    translatedPath (dir ++ name) =
      dir ++ (name.take i ++ "_translated".toList ++ name.drop i) := by
  simp only [translatedPath, lastIndexOf_append_some '.' dir name i hname]
  rw [List.take_append, List.drop_append]
  simp

/-- When the path has no dot at all, `_translated.xhtml` is appended to it. -/
theorem translatedPath_without_dot (path : Str) (hpath : '.' ∉ path) :
    translatedPath path = path ++ "_translated.xhtml".toList := by
  simp only [translatedPath, lastIndexOf_eq_none '.' path hpath]

/-- C25, failing input: for the markup file `OEBPS.v2/chapter1`, whose name has no
extension and whose directory has a dot in its name, the synthesized translation file is
`OEBPS_translated.v2/chapter1`: it is not in the directory `OEBPS.v2/` of the original
file, and its name is the original name, without `_translated.xhtml`. -/
theorem sibling_path_leaves_dotted_directory :
    translatedPath "OEBPS.v2/chapter1".toList = "OEBPS_translated.v2/chapter1".toList ∧
      dirname "OEBPS.v2/chapter1".toList = "OEBPS.v2/".toList ∧
      dirname (translatedPath "OEBPS.v2/chapter1".toList) = "OEBPS_translated.v2/".toList ∧
      translatedPath "OEBPS.v2/chapter1".toList
        ≠ "OEBPS.v2/chapter1".toList ++ "_translated.xhtml".toList := by
  decide


/-! ## The chapter used for a spine entry -/

/-- The value of a key in a map built by setting, for each element of a list in turn,
the key the element has: the last element with that key. -/
theorem mapGet_foldl_mapSet {α β : Type} [DecidableEq α] (f : β → Option α) (l : List β) :
    ∀ (m0 : List (α × β)) (key : α),
      mapGet (l.foldl (fun m b => (f b).elim m fun k => mapSet m k b) m0) key =
        match (l.filter fun b => f b = some key).getLast? with
        | some b => some b
        | none => mapGet m0 key := by
  induction l with
  | nil => intro m0 key; rfl
  | cons b l ih =>
    intro m0 key
    simp only [List.foldl_cons]
    rw [ih]
    simp only [List.filter_cons]
    generalize (l.filter fun b => decide (f b = some key)) = fl
    cases fl with
    | cons y ys =>
      obtain ⟨z, hz⟩ : ∃ z, (y :: ys).getLast? = some z :=
        ⟨_, List.getLast?_eq_getLast _ (by simp)⟩
      by_cases hb : f b = some key
      · simp only [hb, decide_True, if_true, List.getLast?_cons_cons, hz]
      · simp only [hb, decide_False, Bool.false_eq_true, if_false, hz]
    | nil =>
      cases hf : f b with
      | none => simp
      | some k =>
        by_cases hk : k = key
        · subst hk
          simp [mapGet_mapSet_self]
        · have hk2 : key ≠ k := fun h => hk h.symm
          simp [hk, mapGet_mapSet_ne _ _ _ _ hk2]

/-- The map `chapterByHref` gives the last chapter with the key. -/
theorem mapGet_chapterByHref (chapters : List Chapter) (key : Str) :
    mapGet (chapterByHref chapters) key =
      lastWhere (fun ch => chapterKey ch = some key) chapters := by
  have h1 : chapterByHref chapters =
      chapters.foldl (fun m ch => (chapterKey ch).elim m fun k => mapSet m k ch) [] := by
    unfold chapterByHref
    congr 1
    funext m ch
    unfold chapterKey
    cases ch.href with
    | none => rfl
    | some href => by_cases hemp : href = [] <;> simp [hemp]
  rw [h1]
  refine (mapGet_foldl_mapSet chapterKey chapters [] key).trans ?_
  unfold lastWhere
  cases (chapters.filter fun ch => decide (chapterKey ch = some key)).getLast? <;> rfl

/-- The map `chapterByIndex` gives the last chapter with the index. -/
theorem mapGet_chapterByIndex (chapters : List Chapter) (key : Nat) :
    mapGet (chapterByIndex chapters) key =
      lastWhere (fun ch => ch.index = some key) chapters := by
  have h1 : chapterByIndex chapters =
      chapters.foldl (fun m ch => ((fun c : Chapter => c.index) ch).elim m
        fun k => mapSet m k ch) [] := by
    unfold chapterByIndex
    congr 1
    funext m ch
    show _ = (ch.index).elim m fun k => mapSet m k ch
    cases ch.index <;> rfl
  rw [h1]
  refine (mapGet_foldl_mapSet (fun c : Chapter => c.index) chapters [] key).trans ?_
  unfold lastWhere
  cases (chapters.filter fun ch => decide (ch.index = some key)).getLast? <;> rfl

/-- The call `href.replace(/#.*$/, '')` removes the fragment of a path whose fragment has
no line terminator. -/
theorem stripFragment_of_fragment (href : Str)
    (hline : ∀ d ∈ fragmentOf href, isLineTerminator d = false) :
    stripFragment href = href.takeWhile (· ≠ '#') := by
  induction href with
  | nil => rfl
  | cons c rest ih =>
    by_cases hc : c = '#'
    · have hall : rest.all (fun d => !isLineTerminator d) = true := by
        rw [List.all_eq_true]
        intro d hd
        have hmem : d ∈ fragmentOf (c :: rest) := by
          simp [fragmentOf, List.dropWhile_cons, hc, hd]
        simp [hline d hmem]
      simp [stripFragment, hc, hall]
    · have hrest : ∀ d ∈ fragmentOf rest, isLineTerminator d = false := by
        intro d hd
        apply hline
        simpa [fragmentOf, List.dropWhile_cons, hc] using hd
      simp [stripFragment, hc, ih hrest]

/-- The key of a chapter in `chapterByHref` is its path with the fragment removed, when
the fragment has no line terminator. -/
theorem chapterKey_eq_chapterPath (ch : Chapter)
    (hline : ∀ d ∈ fragmentOf (ch.href.getD []), isLineTerminator d = false) :
    chapterKey ch = chapterPath ch := by
  unfold chapterKey chapterPath
  cases hhref : ch.href with
  | none => rfl
  | some href =>
    rw [hhref] at hline
    by_cases hemp : href = []
    · simp [hemp]
    · simp only [hemp, if_false]
      rw [stripFragment_of_fragment href hline]

/-- Two tests that agree on the chapters of a list have the same last chapter. -/
theorem lastWhere_congr (p q : Chapter → Bool) (chapters : List Chapter)
    (hpq : ∀ ch ∈ chapters, p ch = q ch) : lastWhere p chapters = lastWhere q chapters := by
  unfold lastWhere
  rw [List.filter_congr hpq]

/-- The constant `chapter` of the loop follows the rule of `chapterFor`. -/
theorem findChapter_eq (chapters : List Chapter) (href fullPath : Str) (spinePos : Nat)
    (hline : ∀ c ∈ chapters, ∀ d ∈ fragmentOf (c.href.getD []), isLineTerminator d = false) :
    findChapter chapters href fullPath spinePos = chapterFor chapters href fullPath spinePos := by
  have hkey : ∀ key, lastWhere (fun ch => chapterKey ch = some key) chapters =
      lastWhere (fun ch => chapterPath ch = some key) chapters := by
    intro key
    apply lastWhere_congr
    intro ch hch
    rw [chapterKey_eq_chapterPath ch (hline ch hch)]
  simp only [findChapter, chapterFor, mapGet_chapterByHref, mapGet_chapterByIndex, hkey]

/-- The last element that passes a test is an element that passes the test. -/
theorem lastWhere_some (p : Chapter → Bool) (chapters : List Chapter) (ch : Chapter)
    (hl : lastWhere p chapters = some ch) : ch ∈ chapters ∧ p ch = true := by
  unfold lastWhere at hl
  have hmem := List.mem_of_getLast?_eq_some hl
  exact List.mem_filter.1 hmem

/-- There is no last element that passes a test when no element passes it. -/
theorem lastWhere_eq_none (p : Chapter → Bool) (chapters : List Chapter) :
    lastWhere p chapters = none ↔ ∀ ch ∈ chapters, p ch = false := by
  unfold lastWhere
  rw [List.getLast?_eq_none_iff, List.filter_eq_nil_iff]
  constructor
  · intro hall ch hch
    simpa using hall ch hch
  · intro hall ch hch
    simp [hall ch hch]

/-- A translated body that is not empty is the normalised fragment of the chapter found
for the entry. -/
theorem translatedBody_ne_nil (h : Host) (chapters : List Chapter) (href fullPath : Str)
    (spinePos : Nat) (hbody : translatedBody h chapters href fullPath spinePos ≠ []) :
    ∃ ch, findChapter chapters href fullPath spinePos = some ch ∧
      translatedBody h chapters href fullPath spinePos =
        normalizeBodyHtml h (ch.translatedHtml.getD []) := by
  unfold translatedBody at hbody ⊢
  cases hfind : findChapter chapters href fullPath spinePos with
  | none =>
    rw [hfind] at hbody
    exact absurd (by simp [normalizeBodyHtml]) hbody
  | some ch => exact ⟨ch, rfl, rfl⟩

/-- When one iteration of the loop stores something in `patchedFiles`, it is the text of
the file of the entry with its body replaced by the normalised fragment of the chapter
found for the entry. -/
theorem patchItemref_chapter (h : Host) (inZip : Archive) (chapters : List Chapter)
    (mode opfDir : Str) (spinePos : Nat) (itemref : Itemref) (st st1 : PatchState)
    (hstep : patchItemref h inZip chapters mode opfDir spinePos itemref st = .ok st1) :
    st1.patchedFiles = st.patchedFiles ∨
      ∃ idref mi e ch key,
        getAttribute "idref".toList itemref.attrs = some idref ∧
        mapGet st.manifestItems idref = some mi ∧
        isMarkupType mi.mediaType = true ∧
        archiveFile inZip (joinPath opfDir mi.href) = some e ∧
        findChapter chapters mi.href (joinPath opfDir mi.href) spinePos = some ch ∧
        st1.patchedFiles = mapSet st.patchedFiles key
          (replaceBodyInner (h.decode e.data)
            (normalizeBodyHtml h (ch.translatedHtml.getD []))) := by
  unfold patchItemref at hstep
  cases hidref : getAttribute "idref".toList itemref.attrs with
  | none => simp only [hidref] at hstep; cases hstep; exact Or.inl rfl
  | some idref =>
    simp only [hidref] at hstep
    by_cases hemp : idref = []
    · simp only [hemp, if_true] at hstep; cases hstep; exact Or.inl rfl
    simp only [hemp, if_false] at hstep
    cases hmi : mapGet st.manifestItems idref with
    | none => simp only [hmi] at hstep; cases hstep; exact Or.inl rfl
    | some mi =>
      simp only [hmi] at hstep
      by_cases hmk : (!isMarkupType mi.mediaType) = true
      · simp only [hmk, if_true] at hstep; cases hstep; exact Or.inl rfl
      simp only [hmk, if_false] at hstep
      have hmarkup : isMarkupType mi.mediaType = true := by simpa using hmk
      cases hentry : archiveFile inZip (joinPath opfDir mi.href) with
      | none => simp only [hentry] at hstep; cases hstep; exact Or.inl rfl
      | some entry =>
        simp only [hentry] at hstep
        by_cases hbody : translatedBody h chapters mi.href (joinPath opfDir mi.href) spinePos = []
        · by_cases hsingle : mode = "single".toList
          · simp only [hsingle, if_true, hbody] at hstep; cases hstep; exact Or.inl rfl
          · simp only [hsingle, if_false, hbody, if_true] at hstep
            by_cases hmode : mode = "bilingual".toList
            · simp only [hmode, if_true] at hstep; cases hstep; exact Or.inl rfl
            · simp only [hmode, if_false] at hstep; cases hstep; exact Or.inl rfl
        obtain ⟨ch, hfind, hnorm⟩ := translatedBody_ne_nil h chapters _ _ _ hbody
        rw [hnorm] at hstep
        have hbody2 : ¬ normalizeBodyHtml h (ch.translatedHtml.getD []) = [] := by
          rw [← hnorm]; exact hbody
        by_cases hsingle : mode = "single".toList
        · simp only [hsingle, if_true, hbody2, if_false] at hstep; cases hstep
          exact Or.inr ⟨idref, mi, entry, ch, _, rfl, hmi, hmarkup, hentry, hfind, rfl⟩
        simp only [hsingle, if_false] at hstep
        by_cases hmode : mode = "bilingual".toList
        · simp only [hmode, if_true, hbody2, if_false] at hstep
          cases hnew : mapGet st.manifestItems (safeId (idref ++ "__translated".toList)) with
          | some v =>
            simp only [hnew, Option.isSome_some, if_true] at hstep
            cases hstep
            exact Or.inr ⟨idref, mi, entry, ch, _, rfl, hmi, hmarkup, hentry, hfind, rfl⟩
          | none =>
            simp only [hnew, Option.isSome_none, Bool.false_eq_true, if_false] at hstep
            cases hplace : itemref.place with
            | child k =>
              simp only [hplace] at hstep
              cases hstep
              exact Or.inr ⟨idref, mi, entry, ch, _, rfl, hmi, hmarkup, hentry, hfind, rfl⟩
            | nested hasNext =>
              cases hasNext with
              | false =>
                simp only [hplace] at hstep
                cases hstep
                exact Or.inr ⟨idref, mi, entry, ch, _, rfl, hmi, hmarkup, hentry, hfind, rfl⟩
              | true => simp only [hplace] at hstep; cases hstep
        · simp only [hmode, if_false] at hstep; cases hstep; exact Or.inl rfl

/-- Without line terminators in it, the path of a chapter is its `href` up to the first
`#`. -/
theorem stripFragment_eq_takeWhile (href : Str)
    (hline : ∀ c ∈ href, isLineTerminator c = false) :
    stripFragment href = href.takeWhile (· ≠ '#') := by
  induction href with
  | nil => rfl
  | cons c rest ih =>
    have hrest : ∀ d ∈ rest, isLineTerminator d = false :=
      fun d hd => hline d (List.mem_cons_of_mem _ hd)
    by_cases hc : c = '#'
    · have hall : rest.all (fun d => !isLineTerminator d) = true := by
        rw [List.all_eq_true]
        intro d hd
        simp [hrest d hd]
      simp [stripFragment, hc, hall]
    · simp [stripFragment, hc, ih hrest]

/-- C24: let no chapter have a line terminator in the fragment of its `href`. The
chapter used for a spine entry is found by the rule of `chapterFor`: a chapter whose
path (its `href` cut before the first `#`) is the manifest href of the entry; failing
that, a chapter whose path is the full path of the entry in the archive; failing that, a
chapter whose `index` is the spine position of the entry. So a chapter found for the
entry is a chapter of the list that matches it by path, or matches it by index while no
chapter matches it by path; no chapter is found exactly when none matches by path or by
index; and whenever an iteration of the loop stores something for a file, a chapter was
found for the entry and what is stored is the text of the file with its body replaced by
the fragment of that chapter (so without a matching chapter the file is left
unpatched). -/
theorem chapter_found_by_path_then_index (chapters : List Chapter) (href fullPath : Str)
    (spinePos : Nat)
    (hline : ∀ c ∈ chapters, ∀ d ∈ fragmentOf (c.href.getD []), isLineTerminator d = false) :
    findChapter chapters href fullPath spinePos = chapterFor chapters href fullPath spinePos ∧
    (∀ ch, findChapter chapters href fullPath spinePos = some ch →
      ch ∈ chapters ∧
        (chapterPath ch = some href ∨ chapterPath ch = some fullPath ∨
          ((∀ c ∈ chapters, chapterPath c ≠ some href ∧ chapterPath c ≠ some fullPath) ∧
            ch.index = some spinePos))) ∧
    (findChapter chapters href fullPath spinePos = none ↔
      ∀ c ∈ chapters, chapterPath c ≠ some href ∧ chapterPath c ≠ some fullPath ∧
        c.index ≠ some spinePos) ∧
    (∀ (h : Host) (inZip : Archive) (mode opfDir : Str) (itemref : Itemref)
        (st st1 : PatchState),
      patchItemref h inZip chapters mode opfDir spinePos itemref st = .ok st1 →
      st1.patchedFiles = st.patchedFiles ∨
        ∃ idref mi e ch key,
          getAttribute "idref".toList itemref.attrs = some idref ∧
          mapGet st.manifestItems idref = some mi ∧
          isMarkupType mi.mediaType = true ∧
          archiveFile inZip (joinPath opfDir mi.href) = some e ∧
          findChapter chapters mi.href (joinPath opfDir mi.href) spinePos = some ch ∧
          st1.patchedFiles = mapSet st.patchedFiles key
            (replaceBodyInner (h.decode e.data)
              (normalizeBodyHtml h (ch.translatedHtml.getD [])))) := by
  refine ⟨findChapter_eq _ _ _ _ hline, ?_, ?_, ?_⟩
  · intro ch hfind
    rw [findChapter_eq _ _ _ _ hline] at hfind
    unfold chapterFor at hfind
    cases h1 : lastWhere (fun ch => chapterPath ch = some href) chapters with
    | some c1 =>
      rw [h1] at hfind
      simp only [Option.some.injEq] at hfind
      subst hfind
      obtain ⟨hmem, hp⟩ := lastWhere_some _ _ _ h1
      exact ⟨hmem, Or.inl (by simpa using hp)⟩
    | none =>
      rw [h1] at hfind
      simp only at hfind
      cases h2 : lastWhere (fun ch => chapterPath ch = some fullPath) chapters with
      | some c2 =>
        rw [h2] at hfind
        simp only [Option.some.injEq] at hfind
        subst hfind
        obtain ⟨hmem, hp⟩ := lastWhere_some _ _ _ h2
        exact ⟨hmem, Or.inr (Or.inl (by simpa using hp))⟩
      | none =>
        rw [h2] at hfind
        simp only at hfind
        obtain ⟨hmem, hp⟩ := lastWhere_some _ _ _ hfind
        refine ⟨hmem, Or.inr (Or.inr ⟨fun c hc => ⟨?_, ?_⟩, by simpa using hp⟩)⟩
        · simpa using (lastWhere_eq_none _ _).1 h1 c hc
        · simpa using (lastWhere_eq_none _ _).1 h2 c hc
  · rw [findChapter_eq _ _ _ _ hline]
    unfold chapterFor
    constructor
    · intro hnone c hc
      cases h1 : lastWhere (fun ch => chapterPath ch = some href) chapters with
      | some c1 => rw [h1] at hnone; cases hnone
      | none =>
        rw [h1] at hnone
        simp only at hnone
        cases h2 : lastWhere (fun ch => chapterPath ch = some fullPath) chapters with
        | some c2 => rw [h2] at hnone; cases hnone
        | none =>
          rw [h2] at hnone
          simp only at hnone
          refine ⟨?_, ?_, ?_⟩
          · simpa using (lastWhere_eq_none _ _).1 h1 c hc
          · simpa using (lastWhere_eq_none _ _).1 h2 c hc
          · simpa using (lastWhere_eq_none _ _).1 hnone c hc
    · intro hall
      have h1 : lastWhere (fun ch => chapterPath ch = some href) chapters = none :=
        (lastWhere_eq_none _ _).2 fun c hc => by simpa using (hall c hc).1
      have h2 : lastWhere (fun ch => chapterPath ch = some fullPath) chapters = none :=
        (lastWhere_eq_none _ _).2 fun c hc => by simpa using (hall c hc).2.1
      have h3 : lastWhere (fun ch => ch.index = some spinePos) chapters = none :=
        (lastWhere_eq_none _ _).2 fun c hc => by simpa using (hall c hc).2.2
      simp only [h1, h2, h3]
  · intro h inZip mode opfDir itemref st st1 hstep
    exact patchItemref_chapter h inZip chapters mode opfDir spinePos itemref st st1 hstep

set_option maxRecDepth 1000000 in
/-- Witness for C24: two chapters whose paths carry a fragment. The entry `a.xhtml` at
spine position 0 gets the chapter `a.xhtml#top`, found by its path without the
fragment, and not the chapter of index 0. -/
theorem chapter_found_by_path_then_index_witness :
    findChapter sampleFragmentChapters "a.xhtml".toList "OEBPS/a.xhtml".toList 0 =
        some { href := some "a.xhtml#top".toList, index := some 7,
               translatedHtml := some "<p>Bonjour</p>".toList } ∧
      findChapter sampleFragmentChapters "a.xhtml".toList "OEBPS/a.xhtml".toList 0 =
        chapterFor sampleFragmentChapters "a.xhtml".toList "OEBPS/a.xhtml".toList 0 ∧
      (findChapter sampleFragmentChapters "a.xhtml".toList "OEBPS/a.xhtml".toList 0 = none ↔
        ∀ c ∈ sampleFragmentChapters,
          chapterPath c ≠ some "a.xhtml".toList ∧
            chapterPath c ≠ some "OEBPS/a.xhtml".toList ∧ c.index ≠ some 0) := by
  have hthm := chapter_found_by_path_then_index sampleFragmentChapters "a.xhtml".toList
    "OEBPS/a.xhtml".toList 0 (by decide)
  exact ⟨by decide, hthm.1, hthm.2.2.1⟩


/-! ## The entries copied through -/

/-- The end of the rebuild writes a file of the source archive that is not `mimetype`,
not the package document and not a key of `patchedFiles` with its bytes. -/
theorem packArchive_copies (h : Host) (inZip : Archive) (o : Opened) (st : PatchState)
    (path : Str) (e : Entry) (hfile : archiveFile inZip path = some e)
    (hmime : path ≠ "mimetype".toList) (hopf : path ≠ o.opfPath)
    (hnone : mapGet st.patchedFiles path = none) :
    zipFile (packArchive h inZip o st) path =
      some { dir := false, data := .binary e.data, store := false } := by
  obtain ⟨hget, hdir⟩ := archiveFile_some inZip path e hfile
  have hnone2 : mapGet (mapSet st.patchedFiles o.opfPath (h.xmlToString (patchedDoc o st)))
      path = none := by
    rw [mapGet_mapSet_ne _ _ _ _ hopf]; exact hnone
  unfold packArchive
  simp only
  apply zipFile_writeRemaining
  rw [zipFile_copyEntries inZip _ path e hget hdir hmime hnone2]
  simp only [mem_keys_of_mapGet inZip path e hget, if_true]

/-- Where C21 holds: in whatever mode, when the rebuild produces an archive, every entry
of the source archive that is not a folder, is not `mimetype`, is not the package
document and is not a key of `patchedFiles` after the loop over the spine is in the
output archive under its path with its bytes. The keys of `patchedFiles` are the files
patched for translation and, in `bilingual` mode, the paths of the synthesized
siblings. -/
theorem unpatched_entries_are_copied (h : Host) (inZip : Archive) (chapters : List Chapter)
    (mode : Str) (out : Zip) (path : Str) (e : Entry)
    (hbuild : buildEpubByPatchingOriginal h inZip chapters mode = .ok out)
    (hfile : archiveFile inZip path = some e)
    (hmime : path ≠ "mimetype".toList)
    (hkeep : ∀ o st, patchPackage h inZip chapters mode = .ok (o, st) →
      path ≠ o.opfPath ∧ mapGet st.patchedFiles path = none) :
    zipFile out path = some { dir := false, data := .binary e.data, store := false } := by
  unfold buildEpubByPatchingOriginal at hbuild
  cases hp : patchPackage h inZip chapters mode with
  | error err => rw [hp] at hbuild; cases hbuild
  | ok r =>
    obtain ⟨o, st⟩ := r
    rw [hp] at hbuild
    simp only [Except.ok.injEq] at hbuild
    subst hbuild
    obtain ⟨hopf, hnone⟩ := hkeep o st hp
    exact packArchive_copies h inZip o st path e hfile hmime hopf hnone

set_option maxRecDepth 1000000 in
/-- An instance of `unpatched_entries_are_copied`: the file `META-INF/container.xml` of
the sample book in its rebuild in `single` mode. -/
theorem unpatched_entries_are_copied_witness :
    ∃ out e,
      buildEpubByPatchingOriginal sampleHost sampleBook sampleChapters "single".toList
        = .ok out ∧
      archiveFile sampleBook "META-INF/container.xml".toList = some e ∧
      zipFile out "META-INF/container.xml".toList =
        some { dir := false, data := .binary e.data, store := false } := by
  cases hbuild : buildEpubByPatchingOriginal sampleHost sampleBook sampleChapters
      "single".toList with
  | error err =>
    have hsome : (buildEpubByPatchingOriginal sampleHost sampleBook sampleChapters
        "single".toList).toOption.isSome = true := by decide
    rw [hbuild] at hsome
    cases hsome
  | ok out =>
    cases hfile : archiveFile sampleBook "META-INF/container.xml".toList with
    | none =>
      have hsome : (archiveFile sampleBook "META-INF/container.xml".toList).isSome = true := by
        decide
      rw [hfile] at hsome
      cases hsome
    | some e =>
      refine ⟨out, e, rfl, rfl, unpatched_entries_are_copied sampleHost sampleBook
        sampleChapters "single".toList out "META-INF/container.xml".toList e hbuild hfile
        (by decide) ?_⟩
      intro o st hp
      have hval : (patchPackage sampleHost sampleBook sampleChapters "single".toList).toOption.map
          (fun r => (decide ("META-INF/container.xml".toList ≠ r.1.opfPath),
            (mapGet r.2.patchedFiles "META-INF/container.xml".toList).isNone)) =
          some (true, true) := by decide
      rw [hp] at hval
      simp only [Except.toOption, Option.map_some', Option.some.injEq, Prod.mk.injEq,
        decide_eq_true_eq, Option.isNone_iff_eq_none] at hval
      exact hval


set_option maxRecDepth 1000000 in
/-- C21, failing input: the sample book with one more file, `b_translated.xhtml`, which is
not `mimetype`, not the package document `content.opf` and not a document of the
manifest, whose documents are `a.xhtml` and `b.xhtml`. In the bilingual rebuild the entry
`b_translated.xhtml` of the output archive does not have the bytes of this file
(`<p>Notes</p>`): it is the sibling synthesized for `b.xhtml`, with the translation
`<p>Salut</p>`. -/
theorem stray_file_replaced_by_sibling :
    archiveFile sampleStrayBook "b_translated.xhtml".toList =
        some { dir := false,
               data := "<html><body><p>Notes</p></body></html>".toList.map Char.toNat } ∧
      (openPackage sampleHost sampleStrayBook).toOption.map
          (fun o => (o.opfPath, o.manifest.map fun n => attrOrEmpty "href".toList n.attrs)) =
        some ("content.opf".toList, ["a.xhtml".toList, "b.xhtml".toList]) ∧
      (buildEpubByPatchingOriginal sampleHost sampleStrayBook sampleChapters
          "bilingual".toList).toOption.map
          (fun out => zipFile out "b_translated.xhtml".toList) =
        some (some { dir := false,
                     data := .text "<html><body>\n<p>Salut</p>\n</body></html>".toList,
                     store := false }) := by
  decide

/-! ## Failures of the rebuild -/

/-- One iteration of the loop throws only in `bilingual` mode, for an `itemref` that is
not a child of `spine` and has a next sibling. -/
theorem patchItemref_error (h : Host) (inZip : Archive) (chapters : List Chapter)
    (mode opfDir : Str) (spinePos : Nat) (itemref : Itemref) (st : PatchState) (err : Str)
    (hstep : patchItemref h inZip chapters mode opfDir spinePos itemref st = .error err) :
    mode = "bilingual".toList ∧ itemref.place = .nested true := by
  unfold patchItemref at hstep
  cases hidref : getAttribute "idref".toList itemref.attrs with
  | none => simp only [hidref] at hstep; cases hstep
  | some idref =>
    simp only [hidref] at hstep
    by_cases hemp : idref = []
    · simp only [hemp, if_true] at hstep; cases hstep
    simp only [hemp, if_false] at hstep
    cases hmi : mapGet st.manifestItems idref with
    | none => simp only [hmi] at hstep; cases hstep
    | some mi =>
      simp only [hmi] at hstep
      by_cases hmk : (!isMarkupType mi.mediaType) = true
      · simp only [hmk, if_true] at hstep; cases hstep
      simp only [hmk, if_false] at hstep
      cases hentry : archiveFile inZip (joinPath opfDir mi.href) with
      | none => simp only [hentry] at hstep; cases hstep
      | some entry =>
        simp only [hentry] at hstep
        by_cases hsingle : mode = "single".toList
        · simp only [hsingle, if_true] at hstep
          by_cases hbody : translatedBody h chapters mi.href (joinPath opfDir mi.href) spinePos = []
          · simp only [hbody, if_true] at hstep; cases hstep
          · simp only [hbody, if_false] at hstep; cases hstep
        simp only [hsingle, if_false] at hstep
        by_cases hmode : mode = "bilingual".toList
        · simp only [hmode, if_true] at hstep
          by_cases hbody : translatedBody h chapters mi.href (joinPath opfDir mi.href) spinePos = []
          · simp only [hbody, if_true] at hstep; cases hstep
          simp only [hbody, if_false] at hstep
          cases hnew : mapGet st.manifestItems (safeId (idref ++ "__translated".toList)) with
          | some v =>
            simp only [hnew, Option.isSome_some, if_true] at hstep
            cases hstep
          | none =>
            simp only [hnew, Option.isSome_none, Bool.false_eq_true, if_false] at hstep
            cases hplace : itemref.place with
            | child k => simp only [hplace] at hstep; cases hstep
            | nested hasNext =>
              cases hasNext with
              | false => simp only [hplace] at hstep; cases hstep
              | true => exact ⟨hmode, rfl⟩
        · simp only [hmode, if_false] at hstep; cases hstep

/-- The loop over the spine throws only in `bilingual` mode, when an `itemref` is not a
child of `spine` and has a next sibling. -/
theorem patchSpine_error (h : Host) (inZip : Archive) (chapters : List Chapter)
    (mode opfDir : Str) (rs : List Itemref) :
    ∀ (spinePos : Nat) (st : PatchState) (err : Str),
      patchSpine h inZip chapters mode opfDir spinePos rs st = .error err →
      mode = "bilingual".toList ∧ ∃ r ∈ rs, r.place = .nested true := by
  induction rs with
  | nil => intro spinePos st err hrun; simp [patchSpine] at hrun
  | cons r rest ih =>
    intro spinePos st err hrun
    simp only [patchSpine] at hrun
    cases hstep : patchItemref h inZip chapters mode opfDir spinePos r st with
    | error e2 =>
      obtain ⟨hmode, hplace⟩ := patchItemref_error h inZip chapters mode opfDir spinePos r st e2 hstep
      exact ⟨hmode, r, List.mem_cons_self _ _, hplace⟩
    | ok st2 =>
      rw [hstep] at hrun
      obtain ⟨hmode, r2, hr2, hplace⟩ := ih _ _ _ hrun
      exact ⟨hmode, r2, List.mem_cons_of_mem _ hr2, hplace⟩

/-- The package of an archive is read exactly when the archive is not malformed. -/
theorem openPackage_error_iff (h : Host) (inZip : Archive) :
    (∃ err, openPackage h inZip = .error err) ↔ malformedSource h inZip = true := by
  unfold openPackage malformedSource
  cases archiveFile inZip "META-INF/container.xml".toList with
  | none => simp
  | some container =>
    simp only
    cases getContainerOpfPath (h.decode container.data) with
    | none => simp
    | some opfPath =>
      simp only
      cases archiveFile inZip opfPath with
      | none => simp
      | some opf =>
        simp only
        cases (h.parseXml (h.decode opf.data)).manifest with
        | none => simp
        | some manifest =>
          cases (h.parseXml (h.decode opf.data)).spine with
          | none => simp
          | some spine => simp

/-- Where C22 holds: take a rebuild in which, in `bilingual` mode, no `itemref` of the
spine is a descendant that is not a child of `spine` and has a next sibling (a package
document has no such `itemref`). It throws if and only if the source archive is
malformed: no file `META-INF/container.xml`, no path of a package document named in it,
no file of that path, or a package document without `manifest` or without `spine`; and
it produces an archive if and only if the source archive is not malformed. -/
theorem rebuild_fails_iff_malformed (h : Host) (inZip : Archive) (chapters : List Chapter)
    (mode : Str)
    (hspine : ∀ o, openPackage h inZip = .ok o → mode = "bilingual".toList →
      ∀ r ∈ spineItemrefs o.spine, r.place ≠ .nested true) :
    ((∃ err, buildEpubByPatchingOriginal h inZip chapters mode = .error err) ↔
        malformedSource h inZip = true) ∧
      ((∃ out, buildEpubByPatchingOriginal h inZip chapters mode = .ok out) ↔
        malformedSource h inZip = false) := by
  have hiff := openPackage_error_iff h inZip
  cases hopen : openPackage h inZip with
  | error err =>
    have hmal : malformedSource h inZip = true := hiff.1 ⟨err, hopen⟩
    have hbuild : buildEpubByPatchingOriginal h inZip chapters mode = .error err := by
      simp only [buildEpubByPatchingOriginal, patchPackage, hopen]
    rw [hbuild, hmal]
    exact ⟨⟨fun _ => rfl, fun _ => ⟨err, rfl⟩⟩,
      ⟨fun hout => (by obtain ⟨out, ho⟩ := hout; cases ho), fun hf => (by cases hf)⟩⟩
  | ok o =>
    have hmal : malformedSource h inZip = false := by
      cases hm : malformedSource h inZip with
      | false => rfl
      | true =>
        obtain ⟨err, herr⟩ := hiff.2 hm
        rw [hopen] at herr
        cases herr
    cases hrun : patchSpine h inZip chapters mode (dirname o.opfPath) 0 (spineItemrefs o.spine)
        (initialState o) with
    | error err =>
      obtain ⟨hmode, r, hr, hplace⟩ := patchSpine_error h inZip chapters mode _ _ _ _ _ hrun
      exact absurd hplace (hspine o hopen hmode r hr)
    | ok st =>
      have hbuild : buildEpubByPatchingOriginal h inZip chapters mode =
          .ok (packArchive h inZip o st) := by
        simp only [buildEpubByPatchingOriginal, patchPackage, hopen, hrun]
      rw [hbuild, hmal]
      exact ⟨⟨fun herr => (by obtain ⟨err, he⟩ := herr; cases he), fun hf => (by cases hf)⟩,
        ⟨fun _ => rfl, fun _ => ⟨_, rfl⟩⟩⟩

set_option maxRecDepth 1000000 in
/-- An instance of `rebuild_fails_iff_malformed`: the sample book in `bilingual` mode,
whose `itemref` elements are children of `spine`. -/
theorem rebuild_fails_iff_malformed_witness :
    ((∃ err, buildEpubByPatchingOriginal sampleHost sampleBook sampleChapters
          "bilingual".toList = .error err) ↔ malformedSource sampleHost sampleBook = true) ∧
      ((∃ out, buildEpubByPatchingOriginal sampleHost sampleBook sampleChapters
          "bilingual".toList = .ok out) ↔ malformedSource sampleHost sampleBook = false) :=
  rebuild_fails_iff_malformed sampleHost sampleBook sampleChapters "bilingual".toList
    (by
      intro o ho _
      have hopen : openPackage sampleHost sampleBook = .ok sampleOpened := rfl
      rw [hopen] at ho
      simp only [Except.ok.injEq] at ho
      subst ho
      decide)

set_option maxRecDepth 1000000 in
/-- C22, failing input: a book that has its container file, its package document with
`manifest` and `spine`, and in the spine an element `x` with two `itemref` children.
The archive is not malformed, but its rebuild in `bilingual` mode throws the DOM
exception `NotFoundError` and produces no archive: the new `itemref` is inserted into
`spine` before the next sibling of the first `itemref`, which is not a child of `spine`.
The rebuild of the same archive in `single` mode produces an archive. -/
theorem nested_itemref_fails_rebuild :
    malformedSource sampleHost sampleNestedBook = false ∧
      buildEpubByPatchingOriginal sampleHost sampleNestedBook sampleChapters
          "bilingual".toList = .error notFoundError ∧
      (buildEpubByPatchingOriginal sampleHost sampleNestedBook sampleChapters
          "single".toList).toOption.isSome = true :=
  ⟨by decide, rfl, by decide⟩


/-! ## Lemmas on the first entry of the output archive -/

/-- Storing an entry under another name leaves the first entry of a file table. -/
theorem head_mapSet (z : Zip) (k k0 : Str) (v v0 : ZipObject)
    (hz : z.head? = some (k0, v0)) (hne : k ≠ k0) : (mapSet z k v).head? = some (k0, v0) := by
  cases z with
  | nil => cases hz
  | cons kv rest =>
    simp only [List.head?_cons, Option.some.injEq] at hz
    subst hz
    have hne2 : ¬ k0 = k := fun hk => hne hk.symm
    simp only [mapSet, hne2, if_false, List.head?_cons]

/-- The name of a folder ends with a slash. -/
theorem getLast?_forceTrailingSlash (name : Str) :
    (forceTrailingSlash name).getLast? = some '/' := by
  unfold forceTrailingSlash
  split
  · assumption
  · simp

/-- The name of a folder is not `mimetype`. -/
theorem forceTrailingSlash_ne_mimetype (name : Str) :
    forceTrailingSlash name ≠ "mimetype".toList := by
  intro heq
  have hlast := getLast?_forceTrailingSlash name
  rw [heq] at hlast
  revert hlast
  decide

/-- Adding folders leaves the first entry `mimetype`. -/
theorem head_folderAdd (v0 : ZipObject) :
    ∀ (fuel : Nat) (z : Zip) (name : Str), z.head? = some ("mimetype".toList, v0) →
      (folderAdd fuel z name).head? = some ("mimetype".toList, v0) := by
  intro fuel
  induction fuel with
  | zero => intro z name hz; exact hz
  | succ fuel ih =>
    intro z name hz
    simp only [folderAdd]
    split
    · exact hz
    · split
      · exact head_mapSet _ _ _ _ _ hz (forceTrailingSlash_ne_mimetype name)
      · exact head_mapSet _ _ _ _ _ (ih _ _ hz) (forceTrailingSlash_ne_mimetype name)

/-- Writing a file of another name leaves the first entry `mimetype`. -/
theorem head_fileAdd (v0 : ZipObject) (z : Zip) (name : Str) (data : Content) (store : Bool)
    (hz : z.head? = some ("mimetype".toList, v0)) (hne : name ≠ "mimetype".toList) :
    (fileAdd z name data store).head? = some ("mimetype".toList, v0) := by
  unfold fileAdd
  simp only
  split
  · exact head_mapSet _ _ _ _ _ hz hne
  · exact head_mapSet _ _ _ _ _ (head_folderAdd v0 _ _ _ hz) hne

/-- The copy loop leaves the first entry `mimetype`. -/
theorem head_copyEntries (v0 : ZipObject) (inZip : Archive) (patchedFiles : List (Str × Str))
    (entries : List Str) :
    ∀ outZip : Zip, outZip.head? = some ("mimetype".toList, v0) →
      (copyEntries inZip patchedFiles entries outZip).head? = some ("mimetype".toList, v0) := by
  induction entries with
  | nil => intro outZip hz; exact hz
  | cons path rest ih =>
    intro outZip hz
    simp only [copyEntries]
    split
    · exact ih _ hz
    · split
      · apply ih
        unfold zipFolder
        split
        · exact hz
        · exact head_folderAdd v0 _ _ _ hz
      · split
        · exact ih _ hz
        · rename_i hne
          split
          · exact ih _ (head_fileAdd v0 _ _ _ _ hz hne)
          · exact ih _ (head_fileAdd v0 _ _ _ _ hz hne)

/-- The last loop leaves the first entry `mimetype`. -/
theorem head_writeRemaining (v0 : ZipObject) (patchedFiles : List (Str × Str)) :
    ∀ outZip : Zip, outZip.head? = some ("mimetype".toList, v0) →
      (writeRemaining patchedFiles outZip).head? = some ("mimetype".toList, v0) := by
  induction patchedFiles with
  | nil => intro outZip hz; exact hz
  | cons kv rest ih =>
    intro outZip hz
    obtain ⟨path, content⟩ := kv
    simp only [writeRemaining]
    split
    · exact ih _ hz
    · rename_i hne
      split
      · exact ih _ hz
      · exact ih _ (head_fileAdd v0 _ _ _ _ hz hne)

/-- The first entry of the file table of the output archive is `mimetype`. -/
theorem head_packArchive (h : Host) (inZip : Archive) (o : Opened) (st : PatchState) :
    (packArchive h inZip o st).head? = some ("mimetype".toList, mimetypeObject) := by
  unfold packArchive
  simp only
  apply head_writeRemaining
  apply head_copyEntries
  rfl

/-- A name with a character that is not a digit is not an array index. -/
theorem isArrayIndex_of_nondigit (name : Str) (c : Char) (hc : c ∈ name)
    (hd : c.isDigit = false) : isArrayIndex name = none := by
  unfold isArrayIndex
  have hall : ¬ name.all Char.isDigit = true := by
    rw [List.all_eq_true]
    intro hall
    rw [hall c hc] at hd
    cases hd
  rw [if_neg]
  intro hcond
  exact hall hcond.2.1

/-- A name that ends with a slash is not an array index. -/
theorem isArrayIndex_of_slash (name : Str) (hlast : name.getLast? = some '/') :
    isArrayIndex name = none :=
  isArrayIndex_of_nondigit name '/' (List.mem_of_getLast?_eq_some hlast) (by decide)

/-- The sibling path of a file is not an array index. -/
theorem isArrayIndex_translatedPath (f : Str) : isArrayIndex (translatedPath f) = none := by
  apply isArrayIndex_of_nondigit _ '_' _ (by decide)
  unfold translatedPath
  split <;> simp

/-- An entry of a table after a key is set is an entry of the table or the entry
set. -/
theorem mem_mapSet {α β : Type} [DecidableEq α] (m : List (α × β)) (key : α) (v : β)
    (kv : α × β) (hkv : kv ∈ mapSet m key v) : kv ∈ m ∨ kv = (key, v) := by
  induction m with
  | nil =>
    simp only [mapSet, List.mem_singleton] at hkv
    exact Or.inr hkv
  | cons x rest ih =>
    obtain ⟨k, w⟩ := x
    simp only [mapSet] at hkv
    split at hkv
    · rename_i hk
      rcases List.mem_cons.1 hkv with h1 | h1
      · exact Or.inr (by rw [h1, hk])
      · exact Or.inl (List.mem_cons_of_mem _ h1)
    · rcases List.mem_cons.1 hkv with h1 | h1
      · exact Or.inl (by rw [h1]; exact List.mem_cons_self _ _)
      · rcases ih h1 with h2 | h2
        · exact Or.inl (List.mem_cons_of_mem _ h2)
        · exact Or.inr h2

/-- Adding folders adds no entry whose name is an array index. -/
theorem notIndex_folderAdd :
    ∀ (fuel : Nat) (z : Zip) (name : Str), (∀ kv ∈ z, isArrayIndex kv.1 = none) →
      ∀ kv ∈ folderAdd fuel z name, isArrayIndex kv.1 = none := by
  intro fuel
  induction fuel with
  | zero => intro z name hz; exact hz
  | succ fuel ih =>
    intro z name hz
    simp only [folderAdd]
    have hset : ∀ z2 : Zip, (∀ kv ∈ z2, isArrayIndex kv.1 = none) →
        ∀ kv ∈ mapSet z2 (forceTrailingSlash name) folderObject, isArrayIndex kv.1 = none := by
      intro z2 hz2 kv hkv
      rcases mem_mapSet _ _ _ _ hkv with h1 | h1
      · exact hz2 kv h1
      · rw [h1]
        exact isArrayIndex_of_slash _ (getLast?_forceTrailingSlash name)
    split
    · exact hz
    · split
      · exact hset z hz
      · exact hset _ (ih _ _ hz)

/-- Writing a file whose name is not an array index adds no entry whose name is one. -/
theorem notIndex_fileAdd (z : Zip) (name : Str) (data : Content) (store : Bool)
    (hz : ∀ kv ∈ z, isArrayIndex kv.1 = none) (hname : isArrayIndex name = none) :
    ∀ kv ∈ fileAdd z name data store, isArrayIndex kv.1 = none := by
  intro kv hkv
  unfold fileAdd at hkv
  simp only at hkv
  rcases mem_mapSet _ _ _ _ hkv with h1 | h1
  · split at h1
    · exact hz kv h1
    · exact notIndex_folderAdd _ _ _ hz kv h1
  · rw [h1]; exact hname

/-- The copy loop adds no entry whose name is an array index when no name it goes
through is one. -/
theorem notIndex_copyEntries (inZip : Archive) (patchedFiles : List (Str × Str))
    (entries : List Str) (hentries : ∀ path ∈ entries, isArrayIndex path = none) :
    ∀ outZip : Zip, (∀ kv ∈ outZip, isArrayIndex kv.1 = none) →
      ∀ kv ∈ copyEntries inZip patchedFiles entries outZip, isArrayIndex kv.1 = none := by
  induction entries with
  | nil => intro outZip hz; exact hz
  | cons path rest ih =>
    intro outZip hz
    have hpath := hentries path (List.mem_cons_self _ _)
    have ih2 := ih fun p hp => hentries p (List.mem_cons_of_mem _ hp)
    simp only [copyEntries]
    split
    · exact ih2 _ hz
    · split
      · apply ih2
        unfold zipFolder
        split
        · exact hz
        · exact notIndex_folderAdd _ _ _ hz
      · split
        · exact ih2 _ hz
        · split
          · exact ih2 _ (notIndex_fileAdd _ _ _ _ hz hpath)
          · exact ih2 _ (notIndex_fileAdd _ _ _ _ hz hpath)

/-- The last loop adds no entry whose name is an array index when no patched path is
one. -/
theorem notIndex_writeRemaining (patchedFiles : List (Str × Str))
    (hpatched : ∀ kv ∈ patchedFiles, isArrayIndex kv.1 = none) :
    ∀ outZip : Zip, (∀ kv ∈ outZip, isArrayIndex kv.1 = none) →
      ∀ kv ∈ writeRemaining patchedFiles outZip, isArrayIndex kv.1 = none := by
  induction patchedFiles with
  | nil => intro outZip hz; exact hz
  | cons x rest ih =>
    intro outZip hz
    obtain ⟨path, content⟩ := x
    have hpath := hpatched (path, content) (List.mem_cons_self _ _)
    have ih2 := ih fun p hp => hpatched p (List.mem_cons_of_mem _ hp)
    simp only [writeRemaining]
    split
    · exact ih2 _ hz
    · split
      · exact ih2 _ hz
      · exact ih2 _ (notIndex_fileAdd _ _ _ _ hz hpath)

/-- The loop over the spine adds no patched path that is an array index when no name
of the source archive is one. -/
theorem notIndex_patchSpine (h : Host) (inZip : Archive) (chapters : List Chapter)
    (mode opfDir : Str) (hsource : ∀ name ∈ inZip.map Prod.fst, isArrayIndex name = none)
    (rs : List Itemref) :
    ∀ (spinePos : Nat) (st st1 : PatchState),
      (∀ kv ∈ st.patchedFiles, isArrayIndex kv.1 = none) →
      patchSpine h inZip chapters mode opfDir spinePos rs st = .ok st1 →
      ∀ kv ∈ st1.patchedFiles, isArrayIndex kv.1 = none := by
  induction rs with
  | nil =>
    intro spinePos st st1 hst hrun
    simp only [patchSpine, Except.ok.injEq] at hrun
    subst hrun
    exact hst
  | cons r rest ih =>
    intro spinePos st st1 hst hrun
    simp only [patchSpine] at hrun
    cases hstep : patchItemref h inZip chapters mode opfDir spinePos r st with
    | error e => rw [hstep] at hrun; cases hrun
    | ok st2 =>
      rw [hstep] at hrun
      refine ih _ st2 st1 ?_ hrun
      rcases patchItemref_patched h inZip chapters mode opfDir spinePos r st st2 hstep with
        hsame | ⟨f, c, hf, ⟨_, hset⟩ | ⟨_, hset⟩⟩
      · rw [hsame]; exact hst
      · intro kv hkv
        rw [hset] at hkv
        rcases mem_mapSet _ _ _ _ hkv with h1 | h1
        · exact hst kv h1
        · rw [h1]
          cases hfe : archiveFile inZip f with
          | none => rw [hfe] at hf; cases hf
          | some e =>
            exact hsource f (mem_keys_of_mapGet inZip f e (archiveFile_some inZip f e hfe).1)
      · intro kv hkv
        rw [hset] at hkv
        rcases mem_mapSet _ _ _ _ hkv with h1 | h1
        · exact hst kv h1
        · rw [h1]; exact isArrayIndex_translatedPath f

/-- The package document read from an archive is a file of the archive. -/
theorem openPackage_file (h : Host) (inZip : Archive) (o : Opened)
    (hopen : openPackage h inZip = .ok o) : (archiveFile inZip o.opfPath).isSome = true := by
  unfold openPackage at hopen
  cases hc : archiveFile inZip "META-INF/container.xml".toList with
  | none => rw [hc] at hopen; cases hopen
  | some container =>
    rw [hc] at hopen
    simp only at hopen
    cases hp : getContainerOpfPath (h.decode container.data) with
    | none => rw [hp] at hopen; cases hopen
    | some opfPath =>
      rw [hp] at hopen
      simp only at hopen
      cases hf : archiveFile inZip opfPath with
      | none => rw [hf] at hopen; cases hopen
      | some opf =>
        rw [hf] at hopen
        simp only at hopen
        cases hm : (h.parseXml (h.decode opf.data)).manifest with
        | none => rw [hm] at hopen; cases hopen
        | some manifest =>
          cases hs : (h.parseXml (h.decode opf.data)).spine with
          | none => rw [hm, hs] at hopen; cases hopen
          | some spine =>
            rw [hm, hs] at hopen
            simp only [Except.ok.injEq] at hopen
            subst hopen
            simp only [hf, Option.isSome_some]

/-- No name of the output archive is an array index when no name of the source archive
is one. -/
theorem notIndex_packArchive (h : Host) (inZip : Archive) (chapters : List Chapter)
    (mode : Str) (o : Opened) (st : PatchState)
    (hp : patchPackage h inZip chapters mode = .ok (o, st))
    (hsource : ∀ name ∈ inZip.map Prod.fst, isArrayIndex name = none) :
    ∀ kv ∈ packArchive h inZip o st, isArrayIndex kv.1 = none := by
  obtain ⟨hopen, hrun⟩ := patchPackage_ok h inZip chapters mode o st hp
  have hst : ∀ kv ∈ st.patchedFiles, isArrayIndex kv.1 = none :=
    notIndex_patchSpine h inZip chapters mode _ hsource _ _ (initialState o) st
      (fun kv hkv => by cases hkv) hrun
  have hopf : isArrayIndex o.opfPath = none := by
    have hfile := openPackage_file h inZip o hopen
    cases hfe : archiveFile inZip o.opfPath with
    | none => rw [hfe] at hfile; cases hfile
    | some e =>
      exact hsource _ (mem_keys_of_mapGet inZip _ e (archiveFile_some inZip _ e hfe).1)
  have hpatched : ∀ kv ∈ mapSet st.patchedFiles o.opfPath (h.xmlToString (patchedDoc o st)),
      isArrayIndex kv.1 = none := by
    intro kv hkv
    rcases mem_mapSet _ _ _ _ hkv with h1 | h1
    · exact hst kv h1
    · rw [h1]; exact hopf
  unfold packArchive
  simp only
  apply notIndex_writeRemaining _ hpatched
  apply notIndex_copyEntries _ _ _ hsource
  apply notIndex_fileAdd
  · intro kv hkv; cases hkv
  · decide

/-- An entry of a list after an insertion is the entry inserted or an entry of the
list. -/
theorem mem_insertByIndex (x y : Nat × (Str × ZipObject)) (l : List (Nat × (Str × ZipObject)))
    (hy : y ∈ insertByIndex x l) : y = x ∨ y ∈ l := by
  induction l with
  | nil =>
    simp only [insertByIndex, List.mem_singleton] at hy
    exact Or.inl hy
  | cons z rest ih =>
    simp only [insertByIndex] at hy
    split at hy
    · rcases List.mem_cons.1 hy with h1 | h1
      · exact Or.inl h1
      · exact Or.inr h1
    · rcases List.mem_cons.1 hy with h1 | h1
      · exact Or.inr (by rw [h1]; exact List.mem_cons_self _ _)
      · rcases ih h1 with h2 | h2
        · exact Or.inl h2
        · exact Or.inr (List.mem_cons_of_mem _ h2)

/-- The entries put in ascending order are the entries given. -/
theorem mem_foldr_insertByIndex (y : Nat × (Str × ZipObject))
    (l : List (Nat × (Str × ZipObject))) (hy : y ∈ l.foldr insertByIndex []) : y ∈ l := by
  induction l with
  | nil => simp at hy
  | cons x rest ih =>
    simp only [List.foldr_cons] at hy
    rcases mem_insertByIndex _ _ _ hy with h1 | h1
    · rw [h1]; exact List.mem_cons_self _ _
    · exact List.mem_cons_of_mem _ (ih h1)

/-- When `mimetype` is the first entry of the file table, the entries written before it
are those whose names are array indices. -/
theorem writeOrder_of_head (z : Zip) (obj : ZipObject)
    (hz : z.head? = some ("mimetype".toList, obj)) :
    ∃ indexed others, writeOrder z = indexed ++ ("mimetype".toList, obj) :: others ∧
      ∀ kv ∈ indexed, (isArrayIndex kv.1).isSome = true := by
  cases z with
  | nil => cases hz
  | cons kv rest =>
    simp only [List.head?_cons, Option.some.injEq] at hz
    subst hz
    have hname : decide ("mimetype".toList ≠ ([] : Str)) = true := by decide
    have hidx : isArrayIndex "mimetype".toList = none := by decide
    refine ⟨(((("mimetype".toList, obj) :: rest).filter fun kv => kv.1 ≠ []).filterMap
        (fun kv => (isArrayIndex kv.1).map fun i => (i, kv)) |>.foldr insertByIndex []).map
          Prod.snd,
      (rest.filter fun kv => kv.1 ≠ []).filter fun kv => (isArrayIndex kv.1).isNone, ?_, ?_⟩
    · unfold writeOrder
      simp only [List.filter_cons, hname, if_true, hidx, Option.isNone_none]
    · intro kv hkv
      obtain ⟨x, hx, hxkv⟩ := List.mem_map.1 hkv
      have hx2 := mem_foldr_insertByIndex _ _ hx
      obtain ⟨a, _, ha⟩ := List.mem_filterMap.1 hx2
      cases hi : isArrayIndex a.1 with
      | none => rw [hi] at ha; cases ha
      | some i =>
        rw [hi] at ha
        simp only [Option.map_some', Option.some.injEq] at ha
        rw [← hxkv, ← ha]
        simp only [hi, Option.isSome_some]

/-- When `mimetype` is the first entry of the file table and no name is an array index,
`mimetype` is written first. -/
theorem writeOrder_head (z : Zip) (obj : ZipObject)
    (hz : z.head? = some ("mimetype".toList, obj))
    (hnames : ∀ kv ∈ z, isArrayIndex kv.1 = none) :
    (writeOrder z).head? = some ("mimetype".toList, obj) := by
  obtain ⟨indexed, others, hw, hidx⟩ := writeOrder_of_head z obj hz
  cases indexed with
  | nil => rw [hw]; rfl
  | cons kv rest =>
    exfalso
    have hsome := hidx kv (List.mem_cons_self _ _)
    have hmem : kv ∈ writeOrder z := by rw [hw]; simp
    have hkz : kv ∈ z := by
      unfold writeOrder at hmem
      simp only [List.mem_append, List.mem_map] at hmem
      rcases hmem with ⟨x, hx, hxkv⟩ | hmem
      · have hx2 := mem_foldr_insertByIndex _ _ hx
        obtain ⟨a, ha1, ha⟩ := List.mem_filterMap.1 hx2
        cases hi : isArrayIndex a.1 with
        | none => rw [hi] at ha; cases ha
        | some i =>
          rw [hi] at ha
          simp only [Option.map_some', Option.some.injEq] at ha
          rw [← hxkv, ← ha]
          exact (List.mem_filter.1 ha1).1
      · exact (List.mem_filter.1 (List.mem_filter.1 hmem).1).1
    rw [hnames kv hkz] at hsome
    cases hsome

/-! ## Theorems on the first entry of the output archive -/

/-- C23, as amended: whenever a rebuild produces an archive, from whatever source
archive, the first entry of the file table of the output archive is `mimetype`, with the
content `application/epub+zip` and stored without compression; the entries written
before it are the entries whose names are array indices (decimal numerals such as `0`);
so when no name of the source archive is an array index, `mimetype` is the first entry
written. -/
theorem mimetype_written_first (h : Host) (inZip : Archive) (chapters : List Chapter)
    (mode : Str) (out : Zip)
    (hbuild : buildEpubByPatchingOriginal h inZip chapters mode = .ok out) :
    out.head? = some ("mimetype".toList, mimetypeObject) ∧
      (∃ indexed others,
        writeOrder out = indexed ++ ("mimetype".toList, mimetypeObject) :: others ∧
          ∀ kv ∈ indexed, (isArrayIndex kv.1).isSome = true) ∧
      ((∀ name ∈ inZip.map Prod.fst, isArrayIndex name = none) →
        (writeOrder out).head? = some ("mimetype".toList, mimetypeObject)) := by
  unfold buildEpubByPatchingOriginal at hbuild
  cases hp : patchPackage h inZip chapters mode with
  | error err => rw [hp] at hbuild; cases hbuild
  | ok r =>
    obtain ⟨o, st⟩ := r
    rw [hp] at hbuild
    simp only [Except.ok.injEq] at hbuild
    subst hbuild
    have hhead := head_packArchive h inZip o st
    exact ⟨hhead, writeOrder_of_head _ _ hhead, fun hsource =>
      writeOrder_head _ _ hhead (notIndex_packArchive h inZip chapters mode o st hp hsource)⟩

set_option maxRecDepth 1000000 in
/-- Witness for C23: the bilingual rebuild of the sample book. -/
theorem mimetype_written_first_witness :
    ∃ out,
      buildEpubByPatchingOriginal sampleHost sampleBook sampleChapters "bilingual".toList
        = .ok out ∧
      (writeOrder out).head? = some ("mimetype".toList, mimetypeObject) := by
  cases hbuild : buildEpubByPatchingOriginal sampleHost sampleBook sampleChapters
      "bilingual".toList with
  | error err =>
    have hsome : (buildEpubByPatchingOriginal sampleHost sampleBook sampleChapters
        "bilingual".toList).toOption.isSome = true := by decide
    rw [hbuild] at hsome
    cases hsome
  | ok out =>
    exact ⟨out, rfl,
      (mimetype_written_first sampleHost sampleBook sampleChapters "bilingual".toList out
        hbuild).2.2 (by decide)⟩

set_option maxRecDepth 1000000 in
/-- C23, counterexample: the sample book with one more file, whose name is `0`. In its
rebuild the first entry written is `0`, before `mimetype`. -/
theorem numbered_file_written_before_mimetype :
    (buildEpubByPatchingOriginal sampleHost sampleNumberedBook sampleChapters
        "single".toList).toOption.map
        (fun out => (writeOrder out).map Prod.fst |>.take 2)
      = some ["0".toList, "mimetype".toList] := by
  decide


/-! ## The delete action of the glossary manager -/

/-- Setting properties of other names leaves the value of a property. -/
theorem mapGet_spread_of_absent (a b : Glossary) (key : Str)
    (hb : ∀ kv ∈ b, kv.1 ≠ key) : mapGet (spread a b) key = mapGet a key := by
  unfold spread
  induction b generalizing a with
  | nil => rfl
  | cons kv rest ih =>
    simp only [List.foldl_cons]
    rw [ih _ fun x hx => hb x (List.mem_cons_of_mem _ hx)]
    exact mapGet_mapSet_ne _ _ _ _ (fun hk => hb kv (List.mem_cons_self _ _) hk.symm)

/-- C30, divergence: for every state and every key, the delete action of the glossary
manager dispatches `UPDATE_GLOSSARY` with a copy of the glossary from which the key was
deleted, and the reducer, which merges the payload into the glossary it has, leaves the
key with the value it had: a term of the glossary is not removed by the delete
action. -/
theorem delete_leaves_term_in_glossary (state : AppState) (key : Str) :
    handleDelete state key true =
        some (.updateGlossary (deleteProperty (spread [] state.glossary) key)) ∧
      mapGet (appReducer state
          (.updateGlossary (deleteProperty (spread [] state.glossary) key))).glossary key =
        mapGet state.glossary key := by
  refine ⟨rfl, ?_⟩
  simp only [appReducer]
  apply mapGet_spread_of_absent
  intro kv hkv
  have hp := (List.mem_filter.1 hkv).2
  simpa using hp

/-- The glossary with the single term `cat`, after its delete action. -/
theorem delete_of_single_term_keeps_it :
    (handleDelete
        { glossary := [("cat".toList, "Katze".toList)], currentChapterIndex := 0,
          styleGuide := [], isProcessing := false, error := none }
        "cat".toList true).map
      (fun action =>
        (appReducer
          { glossary := [("cat".toList, "Katze".toList)], currentChapterIndex := 0,
            styleGuide := [], isProcessing := false, error := none } action).glossary)
      = some [("cat".toList, "Katze".toList)] := by
  decide

/-! ## The references to the synthesized files -/

/-- One iteration either leaves the manifest, the map of items and the spine as they are
and writes at most one file, or registers the sibling of a file of the archive under an id
the map did not hold, adds one itemref with that id and writes the sibling. -/
theorem patchItemref_registration (h : Host) (inZip : Archive) (chapters : List Chapter)
    (mode opfDir : Str) (spinePos : Nat) (itemref : Itemref) (st st1 : PatchState)
    (hstep : patchItemref h inZip chapters mode opfDir spinePos itemref st = .ok st1) :
    (st1.manifest = st.manifest ∧ st1.manifestItems = st.manifestItems ∧
        st1.spine = st.spine ∧
        (st1.patchedFiles = st.patchedFiles ∨
          ∃ key c, st1.patchedFiles = mapSet st.patchedFiles key c)) ∨
      (∃ newId f mediaType new c,
        mapGet st.manifestItems newId = none ∧
        (archiveFile inZip f).isSome = true ∧
        attrOrEmpty "idref".toList new.attrs = newId ∧
        st1.manifest = st.manifest ++ [newItem newId (translatedHref opfDir f) mediaType] ∧
        st1.manifestItems = mapSet st.manifestItems newId
          { href := translatedHref opfDir f, mediaType := mediaType } ∧
        (st1.spine = st.spine ++ [(none, new)] ∨
          ∃ k, st1.spine = insertAfter k new st.spine) ∧
        st1.patchedFiles = mapSet st.patchedFiles (translatedPath f) c) := by
  have hattr : ∀ (newId : Str) (linear : Option Str),
      attrOrEmpty "idref".toList (newItemref newId linear).attrs = newId := by
    intro newId linear
    simp [attrOrEmpty, newItemref, getAttribute, Node.attrs]
  unfold patchItemref at hstep
  cases hidref : getAttribute "idref".toList itemref.attrs with
  | none => simp only [hidref] at hstep; cases hstep; exact Or.inl ⟨rfl, rfl, rfl, Or.inl rfl⟩
  | some idref =>
    simp only [hidref] at hstep
    by_cases hemp : idref = []
    · simp only [hemp, if_true] at hstep; cases hstep
      exact Or.inl ⟨rfl, rfl, rfl, Or.inl rfl⟩
    simp only [hemp, if_false] at hstep
    cases hmi : mapGet st.manifestItems idref with
    | none => simp only [hmi] at hstep; cases hstep; exact Or.inl ⟨rfl, rfl, rfl, Or.inl rfl⟩
    | some mi =>
      simp only [hmi] at hstep
      by_cases hmk : (!isMarkupType mi.mediaType) = true
      · simp only [hmk, if_true] at hstep; cases hstep
        exact Or.inl ⟨rfl, rfl, rfl, Or.inl rfl⟩
      simp only [hmk, if_false] at hstep
      cases hentry : archiveFile inZip (joinPath opfDir mi.href) with
      | none =>
        simp only [hentry] at hstep; cases hstep; exact Or.inl ⟨rfl, rfl, rfl, Or.inl rfl⟩
      | some entry =>
        simp only [hentry] at hstep
        by_cases hsingle : mode = "single".toList
        · simp only [hsingle, if_true] at hstep
          by_cases hbody : translatedBody h chapters mi.href (joinPath opfDir mi.href) spinePos = []
          · simp only [hbody, if_true] at hstep; cases hstep
            exact Or.inl ⟨rfl, rfl, rfl, Or.inl rfl⟩
          · simp only [hbody, if_false] at hstep; cases hstep
            exact Or.inl ⟨rfl, rfl, rfl, Or.inr ⟨_, _, rfl⟩⟩
        simp only [hsingle, if_false] at hstep
        by_cases hmode : mode = "bilingual".toList
        · simp only [hmode, if_true] at hstep
          by_cases hbody : translatedBody h chapters mi.href (joinPath opfDir mi.href) spinePos = []
          · simp only [hbody, if_true] at hstep; cases hstep
            exact Or.inl ⟨rfl, rfl, rfl, Or.inl rfl⟩
          simp only [hbody, if_false] at hstep
          cases hnew : mapGet st.manifestItems (safeId (idref ++ "__translated".toList)) with
          | some v =>
            simp only [hnew, Option.isSome_some, if_true] at hstep
            cases hstep; exact Or.inl ⟨rfl, rfl, rfl, Or.inr ⟨_, _, rfl⟩⟩
          | none =>
            simp only [hnew, Option.isSome_none, Bool.false_eq_true, if_false] at hstep
            have hfile : (archiveFile inZip (joinPath opfDir mi.href)).isSome = true := by
              rw [hentry]; rfl
            cases hplace : itemref.place with
            | child k =>
              simp only [hplace] at hstep
              cases hstep
              exact Or.inr ⟨safeId (idref ++ "__translated".toList), joinPath opfDir mi.href,
                mi.mediaType, newItemref (safeId (idref ++ "__translated".toList))
                  (getAttribute "linear".toList itemref.attrs), _, hnew, hfile, hattr _ _, rfl,
                rfl, Or.inr ⟨k, rfl⟩, rfl⟩
            | nested hasNext =>
              cases hasNext with
              | false =>
                simp only [hplace] at hstep
                cases hstep
                exact Or.inr ⟨safeId (idref ++ "__translated".toList),
                  joinPath opfDir mi.href, mi.mediaType,
                  newItemref (safeId (idref ++ "__translated".toList))
                    (getAttribute "linear".toList itemref.attrs), _, hnew, hfile, hattr _ _,
                  rfl, rfl, Or.inl rfl, rfl⟩
              | true => simp only [hplace] at hstep; cases hstep
        · simp only [hmode, if_false] at hstep; cases hstep
          exact Or.inl ⟨rfl, rfl, rfl, Or.inl rfl⟩

/-- A key of a map is still a key after `set`. -/
theorem isSome_mapGet_mapSet {α β : Type} [DecidableEq α] (m : List (α × β)) (key other : α)
    (v : β) (hkey : (mapGet m other).isSome = true) :
    (mapGet (mapSet m key v) other).isSome = true := by
  by_cases heq : other = key
  · rw [heq, mapGet_mapSet_self]; rfl
  · rw [mapGet_mapSet_ne m key other v heq]; exact hkey

/-- Inserting a node adds it to the child nodes, wherever it lands. -/
theorem insertAfter_perm (k : Nat) (new : Node) (l : List (Option Nat × Node)) :
    List.Perm (insertAfter k new l) ((none, new) :: l) := by
  induction l with
  | nil => exact List.Perm.refl _
  | cons tn rest ih =>
    obtain ⟨tag, n⟩ := tn
    unfold insertAfter
    split
    · exact List.Perm.swap _ _ _
    · exact (List.Perm.cons _ ih).trans (List.Perm.swap _ _ _)

/-- The added idrefs after one more node is added to the spine. -/
theorem addedIdrefs_perm (spine spine1 : List (Option Nat × Node)) (new : Node)
    (hperm : List.Perm spine1 ((none, new) :: spine)) :
    List.Perm (addedIdrefs spine1)
      (attrOrEmpty "idref".toList new.attrs :: addedIdrefs spine) := by
  unfold addedIdrefs
  have hf := (hperm.filter fun tn => tn.1.isNone).map
    fun tn => attrOrEmpty "idref".toList tn.2.attrs
  simpa [List.filter_cons] using hf

/-- The child nodes of `spine` before the loop hold no added node. -/
theorem addedIdrefs_tagged (k : Nat) (ns : List Node) : addedIdrefs (tagged k ns) = [] := by
  induction ns generalizing k with
  | nil => rfl
  | cons n ns ih =>
    have ih2 := ih (k + 1)
    unfold addedIdrefs at ih2 ⊢
    simpa [tagged, List.filter_cons] using ih2
/-- The registrations of the loop: the manifest grows by one item per registration, the ids
of the registrations are pairwise distinct and new to the map of items, the idrefs of the
added spine nodes are these ids, and every registration refers to the sibling of a file of
the archive that the loop wrote. -/
theorem patchSpine_registrations (h : Host) (inZip : Archive) (chapters : List Chapter)
    (mode opfDir : Str) (rs : List Itemref) :
    ∀ (spinePos : Nat) (st st1 : PatchState),
      patchSpine h inZip chapters mode opfDir spinePos rs st = .ok st1 →
      ∃ regs : List (Str × Str × Str),
        st1.manifest = st.manifest ++ regs.map (fun r => newItem r.1 r.2.1 r.2.2) ∧
        (regs.map Prod.fst).Nodup ∧
        (∀ r ∈ regs, mapGet st.manifestItems r.1 = none ∧
          (mapGet st1.manifestItems r.1).isSome = true) ∧
        (∀ key, (mapGet st.manifestItems key).isSome = true →
          (mapGet st1.manifestItems key).isSome = true) ∧
        List.Perm (addedIdrefs st1.spine) (addedIdrefs st.spine ++ regs.map Prod.fst) ∧
        (∀ key, (mapGet st.patchedFiles key).isSome = true →
          (mapGet st1.patchedFiles key).isSome = true) ∧
        (∀ r ∈ regs, ∃ f, (archiveFile inZip f).isSome = true ∧
          (mapGet st1.patchedFiles (translatedPath f)).isSome = true ∧
          r.2.1 = translatedHref opfDir f) := by
  induction rs with
  | nil =>
    intro spinePos st st1 hrun
    simp only [patchSpine] at hrun
    cases hrun
    exact ⟨[], by simp, by simp, by simp, fun _ hk => hk, by simp, fun _ hk => hk, by simp⟩
  | cons r rest ih =>
    intro spinePos st st1 hrun
    simp only [patchSpine] at hrun
    cases hstep : patchItemref h inZip chapters mode opfDir spinePos r st with
    | error e => rw [hstep] at hrun; cases hrun
    | ok st2 =>
      rw [hstep] at hrun
      obtain ⟨regs, hman, hnodup, hfresh, hkeys, hperm, hfiles, hrefs⟩ := ih _ _ _ hrun
      rcases patchItemref_registration h inZip chapters mode opfDir spinePos r st st2 hstep with
        ⟨hm, hi, hs, hp⟩ | ⟨newId, f, mediaType, new, c, hnew, hfile, hattr, hm, hi, hs, hp⟩
      · refine ⟨regs, ?_, hnodup, ?_, ?_, ?_, ?_, hrefs⟩
        · rw [hman, hm]
        · rw [← hi]; exact hfresh
        · rw [← hi]; exact hkeys
        · rw [← hs]; exact hperm
        · intro key hkey
          apply hfiles
          rcases hp with hp | ⟨k2, c2, hp⟩
          · rw [hp]; exact hkey
          · rw [hp]; exact isSome_mapGet_mapSet _ _ _ _ hkey
      · have hin2 : (mapGet st2.manifestItems newId).isSome = true := by
          rw [hi, mapGet_mapSet_self]; rfl
        have hmono : ∀ key, (mapGet st.manifestItems key).isSome = true →
            (mapGet st2.manifestItems key).isSome = true := by
          intro key hkey
          rw [hi]; exact isSome_mapGet_mapSet _ _ _ _ hkey
        have hnotin : newId ∉ regs.map Prod.fst := by
          intro hmem
          obtain ⟨r2, hr2, heq⟩ := List.mem_map.1 hmem
          have hnone := (hfresh r2 hr2).1
          rw [← heq, hnone] at hin2
          cases hin2
        refine ⟨(newId, translatedHref opfDir f, mediaType) :: regs, ?_, ?_, ?_, ?_, ?_, ?_, ?_⟩
        · rw [hman, hm, List.append_assoc]; rfl
        · exact List.nodup_cons.2 ⟨hnotin, hnodup⟩
        · intro r2 hr2
          rcases List.mem_cons.1 hr2 with heq | hr2
          · rw [heq]; exact ⟨hnew, hkeys _ hin2⟩
          · refine ⟨?_, (hfresh r2 hr2).2⟩
            cases hget : mapGet st.manifestItems r2.1 with
            | none => rfl
            | some v =>
              have hsome := hmono r2.1 (by rw [hget]; rfl)
              rw [(hfresh r2 hr2).1] at hsome
              cases hsome
        · intro key hkey; exact hkeys key (hmono key hkey)
        · have hstepPerm : List.Perm (addedIdrefs st2.spine) (newId :: addedIdrefs st.spine) := by
            rw [← hattr]
            apply addedIdrefs_perm
            rcases hs with hs | ⟨k, hs⟩
            · rw [hs]; exact List.perm_append_singleton _ _
            · rw [hs]; exact insertAfter_perm k new st.spine
          refine hperm.trans ((hstepPerm.append_right _).trans ?_)
          simp only [List.map_cons, List.cons_append]
          exact List.perm_middle.symm
        · intro key hkey
          apply hfiles
          rw [hp]; exact isSome_mapGet_mapSet _ _ _ _ hkey
        · intro r2 hr2
          rcases List.mem_cons.1 hr2 with heq | hr2
          · refine ⟨f, hfile, hfiles _ ?_, by rw [heq]⟩
            rw [hp, mapGet_mapSet_self]; rfl
          · exact hrefs r2 hr2

/-- The element descendants of two lists of sibling nodes. -/
theorem descendants_append (a b : List Node) :
    descendants (a ++ b) = descendants a ++ descendants b := by
  induction a with
  | nil => rfl
  | cons n ns ih =>
    have ih2 : descendants (ns.append b) = descendants ns ++ descendants b := ih
    simp only [List.cons_append, descendants, List.append_assoc]
    rw [ih2]

/-- The ids of the items of a manifest followed by registered items. -/
theorem itemIds_append_registered (manifest : List Node) (regs : List (Str × Str × Str)) :
    itemIds (manifest ++ regs.map (fun r => newItem r.1 r.2.1 r.2.2)) =
      itemIds manifest ++ regs.map Prod.fst := by
  have hregs : itemIds (regs.map (fun r => newItem r.1 r.2.1 r.2.2)) = regs.map Prod.fst := by
    induction regs with
    | nil => rfl
    | cons r rest ih =>
      unfold itemIds getElementsByTagName at ih ⊢
      simp only [List.map_cons, descendants, newItem, Node.selfAndDescendants,
        List.append_nil, List.cons_append, List.nil_append] at ih ⊢
      rw [List.filter_cons_of_pos (by simp [Node.tagName]), List.map_cons, ih]
      simp [attrOrEmpty, getAttribute, Node.attrs]
  unfold itemIds getElementsByTagName at hregs ⊢
  rw [descendants_append, List.filter_append, List.map_append, hregs]
/-! ## Theorems on the references to the synthesized files -/

/-- Where C29 holds: whenever a rebuild gets past the loop over the spine, the items the
loop added to the manifest are the registered siblings, in order: their ids are pairwise
distinct and none of them is a key of the map `manifestItems` of the original manifest;
each of these ids is the `idref` of exactly one of the nodes added to the spine, and the
added nodes have no other `idref`; the `href` of each added item is the `translatedHref`
of a file of the source archive whose sibling the loop wrote. So if the ids of the
original items are pairwise distinct and are all keys of the map `manifestItems` (each
item has an id and an href), the ids of the items of the rebuilt manifest are pairwise
distinct. The theorem says nothing of a sibling that was written and not registered. -/
theorem registered_siblings_referenced_once (h : Host) (inZip : Archive)
    (chapters : List Chapter) (mode : Str) (o : Opened) (st : PatchState)
    (hp : patchPackage h inZip chapters mode = .ok (o, st)) :
    ∃ regs : List (Str × Str × Str),
      st.manifest = o.manifest ++ regs.map (fun r => newItem r.1 r.2.1 r.2.2) ∧
      (regs.map Prod.fst).Nodup ∧
      (∀ r ∈ regs, mapGet (manifestItemsOf o.manifest) r.1 = none) ∧
      (∀ r ∈ regs, (addedIdrefs st.spine).countP (fun id => decide (id = r.1)) = 1) ∧
      (∀ id ∈ addedIdrefs st.spine, id ∈ regs.map Prod.fst) ∧
      (∀ r ∈ regs, ∃ f, (archiveFile inZip f).isSome = true ∧
        (mapGet st.patchedFiles (translatedPath f)).isSome = true ∧
        r.2.1 = translatedHref (dirname o.opfPath) f) ∧
      ((itemIds o.manifest).Nodup →
        (∀ id ∈ itemIds o.manifest,
          (mapGet (manifestItemsOf o.manifest) id).isSome = true) →
        (itemIds st.manifest).Nodup) := by
  obtain ⟨_, hrun⟩ := patchPackage_ok h inZip chapters mode o st hp
  obtain ⟨regs, hman, hnodup, hfresh, _, hperm, _, hrefs⟩ :=
    patchSpine_registrations h inZip chapters mode (dirname o.opfPath)
      (spineItemrefs o.spine) 0 (initialState o) st hrun
  have hperm2 : List.Perm (addedIdrefs st.spine) (regs.map Prod.fst) := by
    have hempty : addedIdrefs (initialState o).spine = [] := addedIdrefs_tagged 0 o.spine
    rw [hempty, List.nil_append] at hperm
    exact hperm
  refine ⟨regs, hman, hnodup, fun r hr => (hfresh r hr).1, ?_, ?_, hrefs, ?_⟩
  · intro r hr
    rw [hperm2.countP_eq]
    exact List.count_eq_one_of_mem hnodup (List.mem_map_of_mem Prod.fst hr)
  · intro id hid
    exact hperm2.mem_iff.1 hid
  · intro hids hkeys
    have hman2 : st.manifest =
        o.manifest ++ regs.map (fun r => newItem r.1 r.2.1 r.2.2) := hman
    rw [hman2, itemIds_append_registered]
    refine List.Nodup.append hids hnodup ?_
    intro id hleft hright
    obtain ⟨r, hr, heq⟩ := List.mem_map.1 hright
    have hsome := hkeys id hleft
    have hnone : mapGet (manifestItemsOf o.manifest) r.1 = none := (hfresh r hr).1
    rw [← heq, hnone] at hsome
    cases hsome

set_option maxRecDepth 1000000 in
/-- An instance of `registered_siblings_referenced_once`: the bilingual rebuild of the
sample book. -/
theorem registered_siblings_referenced_once_witness :
    ∃ o st,
      patchPackage sampleHost sampleBook sampleChapters "bilingual".toList = .ok (o, st) ∧
      ∃ regs : List (Str × Str × Str),
        st.manifest = o.manifest ++ regs.map (fun r => newItem r.1 r.2.1 r.2.2) ∧
        (regs.map Prod.fst).Nodup ∧
        (∀ r ∈ regs, mapGet (manifestItemsOf o.manifest) r.1 = none) ∧
        (∀ r ∈ regs, (addedIdrefs st.spine).countP (fun id => decide (id = r.1)) = 1) ∧
        (∀ id ∈ addedIdrefs st.spine, id ∈ regs.map Prod.fst) ∧
        (∀ r ∈ regs, ∃ f, (archiveFile sampleBook f).isSome = true ∧
          (mapGet st.patchedFiles (translatedPath f)).isSome = true ∧
          r.2.1 = translatedHref (dirname o.opfPath) f) ∧
        ((itemIds o.manifest).Nodup →
          (∀ id ∈ itemIds o.manifest,
            (mapGet (manifestItemsOf o.manifest) id).isSome = true) →
          (itemIds st.manifest).Nodup) := by
  cases hp : patchPackage sampleHost sampleBook sampleChapters "bilingual".toList with
  | error err =>
    have hsome : (patchPackage sampleHost sampleBook sampleChapters
        "bilingual".toList).toOption.isSome = true := by decide
    rw [hp] at hsome
    cases hsome
  | ok r =>
    obtain ⟨o, st⟩ := r
    exact ⟨o, st, rfl,
      registered_siblings_referenced_once sampleHost sampleBook sampleChapters
        "bilingual".toList o st hp⟩

set_option maxRecDepth 1000000 in
/-- C29, failing input: a book whose two items have ids of 81 characters that differ in
the last character only, so that the ids of the manifest are pairwise distinct while
`safeId`, which keeps 80 characters, gives both siblings the same id. In the bilingual
rebuild the siblings `a_translated.xhtml` and `b_translated.xhtml` are both written to
the output archive, and only the first one is registered: no item of the rebuilt manifest
has the href `b_translated.xhtml`, and the spine has one added itemref only. -/
theorem colliding_ids_leave_sibling_unreferenced :
    (patchPackage sampleHost sampleLongIdBook sampleChapters "bilingual".toList).toOption.map
        (fun r =>
          (itemIds r.1.manifest,
           r.2.manifest.map fun n => attrOrEmpty "href".toList n.attrs,
           r.2.spine.map fun tn => attrOrEmpty "idref".toList tn.2.attrs,
           r.2.patchedFiles.map Prod.fst))
      = some ([(sampleLongId "1").toList, (sampleLongId "2").toList],
              ["a.xhtml".toList, "b.xhtml".toList, "a_translated.xhtml".toList],
              [(sampleLongId "1").toList, List.replicate 80 'a', (sampleLongId "2").toList],
              ["a_translated.xhtml".toList, "b_translated.xhtml".toList]) ∧
      (sampleLongId "1").toList ≠ (sampleLongId "2").toList ∧
      (buildEpubByPatchingOriginal sampleHost sampleLongIdBook sampleChapters
          "bilingual".toList).toOption.map
          (fun out => (zipFile out "b_translated.xhtml".toList).map fun e => e.data) =
        some (some (.text "<html><body>\n<p>Salut</p>\n</body></html>".toList)) := by
  decide

end EbookTranslate
